import Mathlib

/-!
# Pairing engine of the lava pairing module

A shallow embedding of `x/pairing/keeper/pairing.go`: client eligibility
verification (`VerifyPairingData`), candidate filtering and pairing
(`calculatePairingForClient`, `GetPairingForClient`), the stake-weighted
selection (`returnSubsetOfProvidersByStake`), past-pairing validation
(`ValidatePairingForClient`) and the next-epoch time estimator
(`calculateNextEpochTime`, `calculateAverageBlockTime`); of the query
`GetPairing` of `x/pairing/keeper/grpc_query_get_pairing.go`; and of the
parameter validation of `x/servicer/types/params.go`.

Conventions of the embedding.

* `uint64` and `int64` values are natural numbers and integers; where the Go
  code converts or can wrap, the conversion is written out with `% 2 ^ 64`.
* `sdk.Int` amounts are integers (`math/big`); `sdk.Int.Add` and `sdk.Int.Sub`
  panic when the result needs more than `maxBitLen = 256` bits. A SHA-256
  digest has 256 bits, so `sdk.NewIntFromBigInt` does not panic on it.
* A Go `panic` is the outcome `none` (for functions without an error result)
  or `Result.panic`.
* Byte strings are lists of natural numbers below 256.
* `float64` values are the elements of a linearly ordered type `F`, and the
  `float64` operations the code uses are the fields of `Float64Ops F`; the
  concrete inputs use rational numbers, on which those operations are exact.
* Timestamps are integers, in nanoseconds; `Time.Sub` is the difference (its
  saturation at the bounds of `Duration` is not modelled).
* The two package-level variables of the estimator are a value of
  `EpochTimeCache` that the functions take and give back.
-/

namespace Lava

/-! ## SHA-256 (`tendermintcrypto.Sha256`) -/

namespace Sha256

def rotr (n x : Nat) : Nat := ((x >>> n) ||| (x <<< (32 - n))) % 4294967296

def ch (e f g : Nat) : Nat := (e &&& f) ^^^ ((e ^^^ 4294967295) &&& g)

def maj (a b c : Nat) : Nat := (a &&& b) ^^^ (a &&& c) ^^^ (b &&& c)

def bsig0 (a : Nat) : Nat := rotr 2 a ^^^ rotr 13 a ^^^ rotr 22 a

def bsig1 (e : Nat) : Nat := rotr 6 e ^^^ rotr 11 e ^^^ rotr 25 e

def ssig0 (x : Nat) : Nat := rotr 7 x ^^^ rotr 18 x ^^^ (x >>> 3)

def ssig1 (x : Nat) : Nat := rotr 17 x ^^^ rotr 19 x ^^^ (x >>> 10)

/-- The 64 round constants of FIPS 180-4, section 4.2.2. -/
def K : List Nat :=
  [0x428a2f98, 0x71374491, 0xb5c0fbcf, 0xe9b5dba5, 0x3956c25b, 0x59f111f1, 0x923f82a4, 0xab1c5ed5,
   0xd807aa98, 0x12835b01, 0x243185be, 0x550c7dc3, 0x72be5d74, 0x80deb1fe, 0x9bdc06a7, 0xc19bf174,
   0xe49b69c1, 0xefbe4786, 0x0fc19dc6, 0x240ca1cc, 0x2de92c6f, 0x4a7484aa, 0x5cb0a9dc, 0x76f988da,
   0x983e5152, 0xa831c66d, 0xb00327c8, 0xbf597fc7, 0xc6e00bf3, 0xd5a79147, 0x06ca6351, 0x14292967,
   0x27b70a85, 0x2e1b2138, 0x4d2c6dfc, 0x53380d13, 0x650a7354, 0x766a0abb, 0x81c2c92e, 0x92722c85,
   0xa2bfe8a1, 0xa81a664b, 0xc24b8b70, 0xc76c51a3, 0xd192e819, 0xd6990624, 0xf40e3585, 0x106aa070,
   0x19a4c116, 0x1e376c08, 0x2748774c, 0x34b0bcb5, 0x391c0cb3, 0x4ed8aa4a, 0x5b9cca4f, 0x682e6ff3,
   0x748f82ee, 0x78a5636f, 0x84c87814, 0x8cc70208, 0x90befffa, 0xa4506ceb, 0xbef9a3f7, 0xc67178f2]

/-- The initial hash value of FIPS 180-4, section 5.3.3. -/
def H0 : List Nat :=
  [0x6a09e667, 0xbb67ae85, 0x3c6ef372, 0xa54ff53a, 0x510e527f, 0x9b05688c, 0x1f83d9ab, 0x5be0cd19]

/-- The `n` low-order bytes of `x`, most significant first. -/
def beBytes : Nat → Nat → List Nat
  | 0, _ => []
  | n + 1, x => (x >>> (8 * n)) % 256 :: beBytes n x

/-- Message padding: a `0x80` byte, zero bytes up to 56 modulo 64, and the bit
length as a 64-bit big-endian number. -/
def pad (msg : List Nat) : List Nat :=
  msg ++ 128 :: (List.replicate ((64 - (msg.length + 9) % 64) % 64) 0 ++ beBytes 8 (8 * msg.length))

/-- The first `n` big-endian 32-bit words of a byte list. -/
def words : Nat → List Nat → List Nat
  | 0, _ => []
  | n + 1, b =>
    (((b.getD 0 0 * 256 + b.getD 1 0) * 256 + b.getD 2 0) * 256 + b.getD 3 0) :: words n (b.drop 4)

/-- Message schedule, kept newest word first: `n` more words are computed. -/
def extend : Nat → List Nat → List Nat
  | 0, w => w
  | n + 1, w =>
    extend n
      (((ssig1 (w.getD 1 0) + w.getD 6 0 + ssig0 (w.getD 14 0) + w.getD 15 0) % 4294967296) :: w)

/-- One round on the working variables `a .. h` with `kw = (K_t, W_t)`. -/
def round (s : List Nat) (kw : Nat × Nat) : List Nat :=
  match s with
  | [a, b, c, d, e, f, g, h] =>
    let t1 := h + bsig1 e + ch e f g + kw.1 + kw.2
    let t2 := bsig0 a + maj a b c
    [(t1 + t2) % 4294967296, a, b, c, (d + t1) % 4294967296, e, f, g]
  | _ => s

def compress (h : List Nat) (block : List Nat) : List Nat :=
  let w := (extend 48 (words 16 block).reverse).reverse
  List.zipWith (fun x y => (x + y) % 4294967296) h ((K.zip w).foldl round h)

/-- The first `n` 64-byte blocks of a byte list. -/
def chunks : Nat → List Nat → List (List Nat)
  | 0, _ => []
  | n + 1, l => l.take 64 :: chunks n (l.drop 64)

/-- The SHA-256 digest (32 bytes) of a byte list. -/
def sum (msg : List Nat) : List Nat :=
  (((chunks ((pad msg).length / 64) (pad msg)).foldl compress H0).map (beBytes 4)).flatten

end Sha256

/-! ## Data model -/

/-- Modelled from the spec: `sdk.Coin` of the cosmos-sdk, a denomination and
an amount of type `sdk.Int`, an integer of at most `maxBitLen` bits. -/
structure Coin where
  Denom : String
  Amount : Int
deriving DecidableEq, Repr

/-- Modelled from the spec: `epochstoragetypes.StakeEntry`, declared in the
epochstorage module; the fields the pairing engine reads. -/
structure StakeEntry where
  Stake : Coin
  Address : String
  Deadline : Nat
  Geolocation : Nat
deriving DecidableEq, Repr

/-- The two roles of a stake snapshot (`epochstoragetypes.ClientKey`,
`epochstoragetypes.ProviderKey`). -/
inductive StakeStorageKey where
  | ClientKey
  | ProviderKey
deriving DecidableEq, Repr

/-- The error kinds of the pairing functions, one constructor per `return`
site that builds or forwards an error. -/
inductive PairingError where
  | specNotFoundAndActive (chainID : String)
  | blockEarlierThanEarliestSaved (block earliestSavedEpoch : Nat)
  | epochStartForBlock (err : String)
  | requestedEpochTooNew (block requestedEpochStart currentEpochStart : Nat)
  | blocksToSave (err : String)
  | earlierByMoreThanBlocksToSave (requestedEpochStart currentEpochStart blocksToSave : Nat)
  | noEpochStakeEntries (chainID : String) (requestedEpochStart : Nat)
  | deadlineBiggerThanBlock (deadline block : Nat)
  | clientNotStaked (chainID : String) (block : Nat)
  | invalidUserForPairing (err : PairingError)
  | providersNotFound (currentEpoch : Nat) (chainID : String)
  | servicersToPairCount (err : String)
  | epochStartRequested (err : String)
  | providerEntriesNotFound (epochStart : Nat) (chainID : String)
  | previousEpochStart (err : String)
  | previousReferenceLarger
  | invalidMinSampleStep (epochBlocks : Nat)
  | startBlockHeader (startBlock : Int)
  | currentBlockHeader (block : Int)
  | nonPositiveBlockTime (block : Int)
  | averageBlockTime (err : PairingError)
  | nextEpochStart (err : String)
  | invalidRequest
  | invalidCreatorAddress (client : String)
  | specNotFoundOrNotEnabled
  | couldNotGetPairing (err : PairingError)
  | timeToNextPairing (err : PairingError)
deriving DecidableEq, Repr

/-- Outcome of a Go function with an `error` result that may also panic. -/
inductive Result (α : Type) where
  | ok (value : α)
  | err (e : PairingError)
  | panic
deriving DecidableEq, Repr

/-- The collaborators of the keeper as seen from one `sdk.Context`: the block
height, the spec keeper, the epoch storage keeper, the pairing parameters, the
tendermint block store and the bech32 decoder. -/
structure Keeper where
  /-- The value of `ctx.BlockHeight()`, an `int64`. -/
  BlockHeight : Int
  IsSpecFoundAndActive : String → Bool
  GetEarliestEpochStart : Nat
  GetEpochStartForBlock : Nat → Except String Nat
  GetEpochStart : Nat
  BlocksToSave : Nat → Except String Nat
  GetEpochStakeEntries : Nat → StakeStorageKey → String → Option (List StakeEntry)
  ServicersToPairCount : Nat → Except String Nat
  /-- The hash of the block `core.Block` returns for a height; `none` when the
  call fails and its result pointer is nil. -/
  coreBlock : Int → Option (List Nat)
  AccAddressFromBech32 : String → Option (List Nat)
  TokenDenom : String
  GetPreviousEpochStartForBlock : Nat → Except String Nat
  GetNextEpoch : Nat → Except String Nat
  EpochBlocksOverlap : Nat
  /-- The header time, in nanoseconds, of the block `core.Block` returns for a
  height; `none` when the call fails. -/
  coreBlockTime : Int → Option Int
  /-- The field `BlockLastUpdated` of the spec `GetSpec` finds. -/
  GetSpec : String → Option Nat

/-- Conversion `uint64(x)` of an `int64`. -/
def toUint64 (x : Int) : Nat := (x % 18446744073709551616).toNat

/-- Conversions `int(x)` and `int64(x)` of a `uint64` (64-bit platform). -/
def toInt64 (x : Nat) : Int :=
  if x % 18446744073709551616 < 9223372036854775808 then ((x % 18446744073709551616 : Nat) : Int)
  else ((x % 18446744073709551616 : Nat) : Int) - 18446744073709551616

/-- The bytes of a Go string (UTF-8). -/
def stringBytes (s : String) : List Nat :=
  (s.data.flatMap String.utf8EncodeChar).map (fun b => b.toNat)

/-- Method `big.Int.SetBytes`: a byte list read as an unsigned big-endian number. -/
def SetBytes (buf : List Nat) : Int :=
  ((buf.foldl (fun acc b => acc * 256 + b) 0 : Nat) : Int)

/-- Modelled from the spec: the constant `maxBitLen` of `sdk.Int` in the
cosmos-sdk, the largest bit length of the absolute value of an amount. -/
def maxBitLen : Nat := 256

/-- The test `i.BitLen() > maxBitLen` that `sdk.Int.Add` and `sdk.Int.Sub` run
on their result before they panic with "Int overflow": the absolute value is
`2 ^ maxBitLen` or more. -/
def overflows (i : Int) : Bool := decide (2 ^ maxBitLen ≤ i.natAbs)

/-- Method `Coin.Add`: panics on different denominations and, in
`sdk.Int.Add`, on a sum of more than `maxBitLen` bits. -/
def Coin.Add (coin coinB : Coin) : Option Coin :=
  if coin.Denom ≠ coinB.Denom then none
  else if overflows (coin.Amount + coinB.Amount) then none
  else some ⟨coin.Denom, coin.Amount + coinB.Amount⟩

/-- Method `Coin.Sub`: panics on different denominations, in `sdk.Int.Sub` on
a difference of more than `maxBitLen` bits, and on a negative result. -/
def Coin.Sub (coin coinB : Coin) : Option Coin :=
  if coin.Denom ≠ coinB.Denom then none
  else if overflows (coin.Amount - coinB.Amount) then none
  else if coin.Amount - coinB.Amount < 0 then none
  else some ⟨coin.Denom, coin.Amount - coinB.Amount⟩

def Coin.IsZero (coin : Coin) : Bool := decide (coin.Amount = 0)

/-- Method `sdk.Int.Mod`: panics on a zero modulus, otherwise the Euclidean
modulus of `big.Int.Mod`. -/
def IntMod (i i2 : Int) : Option Int :=
  if i2 = 0 then none else some (i % i2)

/-! ## Weighted selection: `returnSubsetOfProvidersByStake` -/

/-- The first loop of `returnSubsetOfProvidersByStake`: the stake of every
provider is added to `stakeSum`. -/
def sumStakes : List StakeEntry → Coin → Option Coin
  | [], stakeSum => some stakeSum
  | stakedProvider :: rest, stakeSum =>
    match stakeSum.Add stakedProvider.Stake with
    | none => none
    | some s => sumStakes rest s

/-- The variables the selection loop carries from one iteration to the next.
`indexToSkip` lists the keys set to `true`, oldest first. -/
structure LoopState where
  returnedProviders : List StakeEntry
  stakeSum : Coin
  indexToSkip : List Nat
  hashData : List Nat
deriving DecidableEq, Repr

/-- The inner loop `for idx := len(providersMaps) - 1; idx >= 0; idx--`, entered
with `n = idx + 1`. The result is `none` on a panic, `some none` when the loop
ends without a hit and `some (some idx)` when it breaks at `idx`. -/
def walk (providersMaps : List StakeEntry) (indexToSkip : List Nat) (modRes : Int) :
    Nat → Coin → Option (Option Nat)
  | 0, _ => some none
  | idx + 1, newStakeSum =>
    match providersMaps[idx]? with
    | none => none
    | some stakedProvider =>
      if indexToSkip.contains idx then walk providersMaps indexToSkip modRes idx newStakeSum
      else
        match newStakeSum.Add stakedProvider.Stake with
        | none => none
        | some s =>
          if modRes < s.Amount then some (some idx)
          else walk providersMaps indexToSkip modRes idx s

/-- The head of an iteration: hash, modulus and walk. The conversion
`sdk.NewIntFromBigInt` panics on a value of more than `maxBitLen` bits and is
the identity otherwise; the digest has 32 bytes (`digest_fits`). -/
def selectIndex (k : Keeper) (providersMaps : List StakeEntry) (st : LoopState) :
    Option (Option Nat) :=
  match IntMod (SetBytes (Sha256.sum st.hashData)) st.stakeSum.Amount with
  | none => none
  | some modRes =>
    walk providersMaps st.indexToSkip modRes providersMaps.length ⟨k.TokenDenom, 0⟩

/-- The three statements run at a hit: append, subtract, mark. -/
def markSelected (providersMaps : List StakeEntry) (st : LoopState) (idx : Nat) :
    Option LoopState :=
  match providersMaps[idx]? with
  | none => none
  | some stakedProvider =>
    match st.stakeSum.Sub stakedProvider.Stake with
    | none => none
    | some s =>
      some { st with
        returnedProviders := st.returnedProviders ++ [stakedProvider]
        stakeSum := s
        indexToSkip := st.indexToSkip ++ [idx] }

/-- How one iteration of the outer loop ends. -/
inductive IterResult where
  | panic
  | done (returnedProviders : List StakeEntry)
  | next (st : LoopState)
deriving DecidableEq, Repr

/-- The tail of an iteration, after the inner loop. -/
def afterWalk (count it : Nat) (st : LoopState) : IterResult :=
  if count ≤ st.returnedProviders.length then .done st.returnedProviders
  else if st.stakeSum.IsZero then .done st.returnedProviders
  else .next { st with hashData := st.hashData ++ [it % 256] }

/-- The body of the loop `for it := 0; it < int(count); it++`. -/
def iteration (k : Keeper) (providersMaps : List StakeEntry) (count it : Nat)
    (st : LoopState) : IterResult :=
  match selectIndex k providersMaps st with
  | none => .panic
  | some none => afterWalk count it st
  | some (some idx) =>
    match markSelected providersMaps st idx with
    | none => .panic
    | some st1 => afterWalk count it st1

/-- The outer loop, entered with `fuel = int(count) - it` iterations left. -/
def forLoop (k : Keeper) (providersMaps : List StakeEntry) (count : Nat) :
    Nat → Nat → LoopState → Option (List StakeEntry)
  | 0, _, st => some st.returnedProviders
  | fuel + 1, it, st =>
    match iteration k providersMaps count it st with
    | .panic => none
    | .done returnedProviders => some returnedProviders
    | .next st1 => forLoop k providersMaps count fuel (it + 1) st1

/-- The seed buffer before the first iteration. -/
def initialHashData (sessionBlockHash : List Nat) (chainID : String) (clientAddress : List Nat) :
    List Nat :=
  sessionBlockHash ++ stringBytes chainID ++ clientAddress

def returnSubsetOfProvidersByStake (k : Keeper) (clientAddress : List Nat)
    (providersMaps : List StakeEntry) (count block : Nat) (chainID : String) :
    Option (List StakeEntry) :=
  match sumStakes providersMaps ⟨k.TokenDenom, 0⟩ with
  | none => none
  | some stakeSum =>
    if stakeSum.IsZero then some []
    else
      match k.coreBlock (toInt64 block) with
      | none => none
      | some sessionBlockHash =>
        forLoop k providersMaps count (toInt64 count).toNat 0
          ⟨[], stakeSum, [], initialHashData sessionBlockHash chainID clientAddress⟩

/-- The state at the start of iteration `i` (0-based) of the outer loop begun in
state `init`; `none` when the loop does not reach that iteration. -/
def iterationState (k : Keeper) (providersMaps : List StakeEntry) (count : Nat)
    (init : LoopState) : Nat → Option LoopState
  | 0 => if 0 < (toInt64 count).toNat then some init else none
  | i + 1 =>
    match iterationState k providersMaps count init i with
    | none => none
    | some st =>
      match iteration k providersMaps count i st with
      | .next st1 => if i + 1 < (toInt64 count).toNat then some st1 else none
      | _ => none

/-! ## Candidate filtering and pairing: `calculatePairingForClient` -/

/-- The loop of `calculatePairingForClient` that builds `validProviders`:
entries whose deadline is above the block height, or that share no geolocation
bit with the client, are passed over; the others are appended. -/
def validProvidersLoop (blockHeight geolocation : Nat) :
    List StakeEntry → List StakeEntry → List StakeEntry
  | [], validProviders => validProviders
  | stakeEntry :: rest, validProviders =>
    if stakeEntry.Deadline > blockHeight then
      validProvidersLoop blockHeight geolocation rest validProviders
    else if stakeEntry.Geolocation &&& geolocation = 0 then
      validProvidersLoop blockHeight geolocation rest validProviders
    else validProvidersLoop blockHeight geolocation rest (validProviders ++ [stakeEntry])

/-- The loop of `calculatePairingForClient` that decodes the addresses of the
selected providers; an address that does not decode panics. -/
def addrListLoop (k : Keeper) : List StakeEntry → List (List Nat) → Option (List (List Nat))
  | [], addrList => some addrList
  | stakeEntry :: rest, addrList =>
    match k.AccAddressFromBech32 stakeEntry.Address with
    | none => none
    | some providerAccAddr => addrListLoop k rest (addrList ++ [providerAccAddr])

/-- The end of `calculatePairingForClient`: the selected providers are returned
with their decoded addresses; `none` stands for a selection that panicked. -/
def withAddrList (k : Keeper) (selection : Option (List StakeEntry)) :
    Result (List StakeEntry × List (List Nat)) :=
  match selection with
  | none => .panic
  | some validProviders =>
    match addrListLoop k validProviders [] with
    | none => .panic
    | some addrList => .ok (validProviders, addrList)

def calculatePairingForClient (k : Keeper) (providers : List StakeEntry)
    (clientAddress : List Nat) (epochStartBlock : Nat) (chainID : String) (geolocation : Nat) :
    Result (List StakeEntry × List (List Nat)) :=
  if epochStartBlock > toUint64 k.BlockHeight then .panic
  else
    match k.ServicersToPairCount epochStartBlock with
    | .error e => .err (.servicersToPairCount e)
    | .ok servicersToPairCount =>
      withAddrList k
        (returnSubsetOfProvidersByStake k clientAddress
          (validProvidersLoop (toUint64 k.BlockHeight) geolocation providers [])
          servicersToPairCount epochStartBlock chainID)

/-! ## Client eligibility: `VerifyPairingData` -/

/-- The loop of `VerifyPairingData` over the client snapshot, with the check
of `verifiedUser` that follows it. -/
def findClientStakeEntry (k : Keeper) (chainID : String) (clientAddress : List Nat)
    (block : Nat) : List StakeEntry → Result StakeEntry
  | [] => .err (.clientNotStaked chainID block)
  | clientStakeEntry :: rest =>
    match k.AccAddressFromBech32 clientStakeEntry.Address with
    | none => .panic
    | some clientAddr =>
      if clientAddr = clientAddress then
        if clientStakeEntry.Deadline > block then
          .err (.deadlineBiggerThanBlock clientStakeEntry.Deadline block)
        else .ok clientStakeEntry
      else findClientStakeEntry k chainID clientAddress block rest

def VerifyPairingData (k : Keeper) (chainID : String) (clientAddress : List Nat) (block : Nat) :
    Result StakeEntry :=
  if !k.IsSpecFoundAndActive chainID then .err (.specNotFoundAndActive chainID)
  else if block < k.GetEarliestEpochStart then
    .err (.blockEarlierThanEarliestSaved block k.GetEarliestEpochStart)
  else
    match k.GetEpochStartForBlock block with
    | .error e => .err (.epochStartForBlock e)
    | .ok requestedEpochStart =>
      if requestedEpochStart > k.GetEpochStart then
        .err (.requestedEpochTooNew block requestedEpochStart k.GetEpochStart)
      else
        match k.BlocksToSave (toUint64 k.BlockHeight) with
        | .error e => .err (.blocksToSave e)
        | .ok blocksToSave =>
          if (requestedEpochStart + blocksToSave) % 18446744073709551616 < k.GetEpochStart then
            .err (.earlierByMoreThanBlocksToSave requestedEpochStart k.GetEpochStart blocksToSave)
          else
            match k.GetEpochStakeEntries requestedEpochStart .ClientKey chainID with
            | none => .err (.noEpochStakeEntries chainID requestedEpochStart)
            | some userStakedEntries =>
              findClientStakeEntry k chainID clientAddress block userStakedEntries

def GetPairingForClient (k : Keeper) (chainID : String) (clientAddress : List Nat) :
    Result (List StakeEntry) :=
  match VerifyPairingData k chainID clientAddress k.GetEpochStart with
  | .panic => .panic
  | .err e => .err (.invalidUserForPairing e)
  | .ok clientStakeEntry =>
    match k.GetEpochStakeEntries k.GetEpochStart .ProviderKey chainID with
    | none => .err (.providersNotFound k.GetEpochStart chainID)
    | some possibleProviders =>
      match calculatePairingForClient k possibleProviders clientAddress k.GetEpochStart chainID
          clientStakeEntry.Geolocation with
      | .panic => .panic
      | .err e => .err e
      | .ok (providers, _) => .ok providers

/-! ## Past-pairing validation: `ValidatePairingForClient` -/

def INVALID_INDEX : Int := -2

/-- The four results of `ValidatePairingForClient`. -/
structure PairingValidation where
  isValidPairing : Bool
  userStake : Option StakeEntry
  foundIndex : Int
  errorRet : Option PairingError
deriving DecidableEq, Repr

/-- The loop of `ValidatePairingForClient` over `validAddresses`, entered at
index `idx`: the index of the first address equal to `providerAddress`. -/
def findProviderIndex (providerAddress : List Nat) : List (List Nat) → Nat → Option Nat
  | [], _ => none
  | possibleAddr :: rest, idx =>
    if possibleAddr = providerAddress then some idx
    else findProviderIndex providerAddress rest (idx + 1)

/-- The result is `none` when the function panics. -/
def ValidatePairingForClient (k : Keeper) (chainID : String)
    (clientAddress providerAddress : List Nat) (block : Nat) : Option PairingValidation :=
  match k.GetEpochStartForBlock block with
  | .error e => some ⟨false, none, INVALID_INDEX, some (.epochStartRequested e)⟩
  | .ok epochStart =>
    match VerifyPairingData k chainID clientAddress epochStart with
    | .panic => none
    | .err e => some ⟨false, none, INVALID_INDEX, some (.invalidUserForPairing e)⟩
    | .ok userStake =>
      match k.GetEpochStakeEntries epochStart .ProviderKey chainID with
      | none =>
        some ⟨false, none, INVALID_INDEX, some (.providerEntriesNotFound epochStart chainID)⟩
      | some providerStakeEntries =>
        match calculatePairingForClient k providerStakeEntries clientAddress epochStart chainID
            userStake.Geolocation with
        | .panic => none
        | .err e => some ⟨false, none, INVALID_INDEX, some e⟩
        | .ok (_, validAddresses) =>
          match findProviderIndex providerAddress validAddresses 0 with
          | some idx => some ⟨true, some userStake, (idx : Int), none⟩
          | none => some ⟨false, some userStake, INVALID_INDEX, none⟩

/-! ## Next-epoch time estimator -/

/-- The `float64` operations the estimator uses, over a type `F` of values:
the conversion `float64(x)` of an integer, `Duration.Seconds()` of a duration
in nanoseconds, the division and the conversion `uint64(x)`. The order of `F`
is the order of the `float64` values. -/
structure Float64Ops (F : Type) where
  ofInt64 : Int → F
  seconds : Int → F
  div : F → F → F
  toUint64 : F → Nat

/-- The two package-level variables `averageBlockTime` and
`latestEpochBlockTimeCalculation`. -/
structure EpochTimeCache (F : Type) where
  averageBlockTime : F
  latestEpochBlockTimeCalculation : Nat
deriving DecidableEq, Repr

/-- The initial values `-1` and `0` of the two variables. -/
def initialCache {F : Type} (fl : Float64Ops F) : EpochTimeCache F :=
  ⟨fl.ofInt64 (-1), 0⟩

def EpochBlocksDivider : Nat := 5

def MinSampleStep : Nat := 1

/-- An `int64` sum, wrapped to 64 bits. -/
def addInt64 (x y : Int) : Int := toInt64 (toUint64 (x + y))

/-- The variable `currentAverageBlockTime` of the sampling loop: the seconds
between two sampled timestamps, divided by the step. -/
def currentAverageBlockTime {F : Type} (fl : Float64Ops F)
    (currentBlockTimestamp prevBlockTimestamp sampleStep : Int) : F :=
  fl.div (fl.seconds (currentBlockTimestamp - prevBlockTimestamp)) (fl.ofInt64 sampleStep)

/-- The sampling loop of `calculateAverageBlockTime`,
`for block := startBlock + sampleStep; block < epochInt64; block = block + sampleStep`,
entered at `block` with at most `fuel` iterations left. The result is `none`
when `fuel` iterations do not end the loop; otherwise it is the error returned
from inside the loop, if any, and the value left in `averageBlockTime`. -/
def sampleLoop {F : Type} [LinearOrder F] (fl : Float64Ops F) (k : Keeper)
    (sampleStep epochInt64 : Int) :
    Nat → Int → Int → F → Option (Option PairingError × F)
  | 0, block, _, averageBlockTime =>
    if block < epochInt64 then none else some (none, averageBlockTime)
  | fuel + 1, block, prevBlockTimestamp, averageBlockTime =>
    if block < epochInt64 then
      match k.coreBlockTime block with
      | none => some (some (.currentBlockHeader block), averageBlockTime)
      | some currentBlockTimestamp =>
        if currentAverageBlockTime fl currentBlockTimestamp prevBlockTimestamp sampleStep
            ≤ fl.ofInt64 0 then
          some (some (.nonPositiveBlockTime block), averageBlockTime)
        else
          sampleLoop fl k sampleStep epochInt64 fuel (addInt64 block sampleStep)
            currentBlockTimestamp
            (if averageBlockTime >
                  currentAverageBlockTime fl currentBlockTimestamp prevBlockTimestamp sampleStep ∨
                averageBlockTime = fl.ofInt64 0 then
              currentAverageBlockTime fl currentBlockTimestamp prevBlockTimestamp sampleStep
            else averageBlockTime)
    else some (none, averageBlockTime)

/-- The variable `sampleStep` of `calculateAverageBlockTime`. -/
def sampleStepOf (epochBlocks : Nat) : Int :=
  if epochBlocks > EpochBlocksDivider then Int.tdiv (toInt64 epochBlocks) EpochBlocksDivider
  else (MinSampleStep : Int)

/-- The variable `startBlock` of `calculateAverageBlockTime`. -/
def startBlockOf (prevEpoch : Nat) : Int :=
  if toInt64 prevEpoch = 0 then toInt64 prevEpoch + 1 else toInt64 prevEpoch

/-- The function takes the value of the variable `averageBlockTime` and gives
the error it returns, if any, with the value it leaves in the variable; `none`
when the sampling loop does not end within its bound. -/
def calculateAverageBlockTime {F : Type} [LinearOrder F] (fl : Float64Ops F) (k : Keeper)
    (averageBlockTime : F) (epoch : Nat) : Option (Option PairingError × F) :=
  match k.GetPreviousEpochStartForBlock epoch with
  | .error e => some (some (.previousEpochStart e), averageBlockTime)
  | .ok prevEpoch =>
    if epoch < prevEpoch then some (some .previousReferenceLarger, averageBlockTime)
    else if MinSampleStep > epoch - prevEpoch then
      some (some (.invalidMinSampleStep (epoch - prevEpoch)), averageBlockTime)
    else
      match k.coreBlockTime (startBlockOf prevEpoch) with
      | none => some (some (.startBlockHeader (startBlockOf prevEpoch)), averageBlockTime)
      | some prevBlockTimestamp =>
        sampleLoop fl k (sampleStepOf (epoch - prevEpoch)) (toInt64 epoch)
          (toInt64 epoch - addInt64 (startBlockOf prevEpoch) (sampleStepOf (epoch - prevEpoch))).toNat
          (addInt64 (startBlockOf prevEpoch) (sampleStepOf (epoch - prevEpoch)))
          prevBlockTimestamp (fl.ofInt64 0)

/-- The end of `calculateNextEpochTime`, from the lookup of the next epoch on. -/
def timeLeftToNextEpoch {F : Type} (fl : Float64Ops F) (k : Keeper) (cache : EpochTimeCache F) :
    Result Nat × EpochTimeCache F :=
  match k.GetNextEpoch k.GetEpochStart with
  | .error e => (.err (.nextEpochStart e), cache)
  | .ok nextEpochStart =>
    (.ok (toUint64 ((nextEpochStart : Int) + k.EpochBlocksOverlap - toUint64 k.BlockHeight) *
        fl.toUint64 cache.averageBlockTime % 18446744073709551616), cache)

/-- The function takes the two package-level variables and gives its result
with the values it leaves in them; `none` when the sampling loop does not end
within its bound. -/
def calculateNextEpochTime {F : Type} [LinearOrder F] (fl : Float64Ops F) (k : Keeper)
    (cache : EpochTimeCache F) : Option (Result Nat × EpochTimeCache F) :=
  if k.GetEpochStart ≠ cache.latestEpochBlockTimeCalculation then
    match calculateAverageBlockTime fl k cache.averageBlockTime k.GetEpochStart with
    | none => none
    | some (some err, averageBlockTime) =>
      some (.err (.averageBlockTime err), { cache with averageBlockTime := averageBlockTime })
    | some (none, averageBlockTime) =>
      some (timeLeftToNextEpoch fl k ⟨averageBlockTime, k.GetEpochStart⟩)
  else some (timeLeftToNextEpoch fl k cache)

/-! ## The query `GetPairing` -/

structure QueryGetPairingRequest where
  ChainID : String
  Client : String
deriving DecidableEq, Repr

structure QueryGetPairingResponse where
  Providers : List StakeEntry
  CurrentEpoch : Nat
  TimeLeftToNextPairing : Nat
  SpecLastUpdatedBlock : Nat
deriving DecidableEq, Repr

/-- The request is `none` for a nil pointer. The result comes with the values
left in the two package-level variables; it is `none` when the sampling loop
does not end within its bound. -/
def GetPairing {F : Type} [LinearOrder F] (fl : Float64Ops F) (k : Keeper)
    (cache : EpochTimeCache F) (req : Option QueryGetPairingRequest) :
    Option (Result QueryGetPairingResponse × EpochTimeCache F) :=
  match req with
  | none => some (.err .invalidRequest, cache)
  | some req =>
    match k.AccAddressFromBech32 req.Client with
    | none => some (.err (.invalidCreatorAddress req.Client), cache)
    | some clientAddr =>
      if !k.IsSpecFoundAndActive req.ChainID then some (.err .specNotFoundOrNotEnabled, cache)
      else
        match GetPairingForClient k req.ChainID clientAddr with
        | .panic => some (.panic, cache)
        | .err e => some (.err (.couldNotGetPairing e), cache)
        | .ok providers =>
          match calculateNextEpochTime fl k cache with
          | none => none
          | some (.panic, cache1) => some (.panic, cache1)
          | some (.err e, cache1) => some (.err (.timeToNextPairing e), cache1)
          | some (.ok timeLeftToNextPairing, cache1) =>
            match k.GetSpec req.ChainID with
            | none => some (.err .specNotFoundOrNotEnabled, cache1)
            | some specLastUpdatedBlock =>
              some (.ok ⟨providers, k.GetEpochStart, timeLeftToNextPairing,
                specLastUpdatedBlock⟩, cache1)

/-! ## Parameters of the servicer module: `x/servicer/types/params.go` -/

/-- The parameters of the servicer module: the five `uint64` fields that
`NewParams` sets (the struct itself is declared in generated code). -/
structure Params where
  MinStake : Nat
  CoinsPerCU : Nat
  UnstakeHoldBlocks : Nat
  FraudStakeSlashingFactor : Nat
  FraudSlashingAmount : Nat
deriving DecidableEq, Repr

/-- A value of type `interface{}` handed to a validation function: a `uint64`
or a value of another type. -/
inductive ParamValue where
  | uint64 (v : Nat)
  | other
deriving DecidableEq, Repr

/-- The errors of the validation functions. -/
inductive ParamError where
  | invalidParameterType
  | invalidMinStake (minStake : Nat)
  | invalidUnstakeHoldBlocks (unstakeHoldBlocks : Nat)
  | invalidFraudStakeSlashingFactor (fraudStakeSlashingFactor : Nat)
deriving DecidableEq, Repr

def DefaultMinStake : Nat := 1000

def DefaultCoinsPerCU : Nat := 10000

def DefaultUnstakeHoldBlocks : Nat := 10

def DefaultFraudStakeSlashingFactor : Nat := 500000

def DefaultFraudSlashingAmount : Nat := 0

def NewParams (minStake coinsPerCU unstakeHoldBlocks fraudStakeSlashingFactor
    fraudSlashingAmount : Nat) : Params :=
  { MinStake := minStake
    CoinsPerCU := coinsPerCU
    UnstakeHoldBlocks := unstakeHoldBlocks
    FraudStakeSlashingFactor := fraudStakeSlashingFactor
    FraudSlashingAmount := fraudSlashingAmount }

def DefaultParams : Params :=
  NewParams DefaultMinStake DefaultCoinsPerCU DefaultUnstakeHoldBlocks
    DefaultFraudStakeSlashingFactor DefaultFraudSlashingAmount

/-- The result is the error, `none` for `nil`. -/
def validateMinStake (v : ParamValue) : Option ParamError :=
  match v with
  | .other => some .invalidParameterType
  | .uint64 minStake => if minStake = 0 then some (.invalidMinStake minStake) else none

def validateCoinsPerCU (v : ParamValue) : Option ParamError :=
  match v with
  | .other => some .invalidParameterType
  | .uint64 _ => none

def validateUnstakeHoldBlocks (v : ParamValue) : Option ParamError :=
  match v with
  | .other => some .invalidParameterType
  | .uint64 unstakeHoldBlocks =>
    if unstakeHoldBlocks > 15000000 then some (.invalidUnstakeHoldBlocks unstakeHoldBlocks)
    else none

def validateFraudStakeSlashingFactor (v : ParamValue) : Option ParamError :=
  match v with
  | .other => some .invalidParameterType
  | .uint64 fraudStakeSlashingFactor =>
    if fraudStakeSlashingFactor > 1000000 then
      some (.invalidFraudStakeSlashingFactor fraudStakeSlashingFactor)
    else none

def validateFraudSlashingAmount (v : ParamValue) : Option ParamError :=
  match v with
  | .other => some .invalidParameterType
  | .uint64 _ => none

/-- The result is the error, `none` for `nil`. -/
def Params.Validate (p : Params) : Option ParamError :=
  match validateMinStake (.uint64 p.MinStake) with
  | some err => some err
  | none =>
    match validateCoinsPerCU (.uint64 p.CoinsPerCU) with
    | some err => some err
    | none =>
      match validateUnstakeHoldBlocks (.uint64 p.UnstakeHoldBlocks) with
      | some err => some err
      | none =>
        match validateFraudStakeSlashingFactor (.uint64 p.FraudStakeSlashingFactor) with
        | some err => some err
        | none =>
          match validateFraudSlashingAmount (.uint64 p.FraudSlashingAmount) with
          | some err => some err
          | none => none

/-! ## Notions used to state the properties -/

/-- The stake amount at position `i` of a candidate list (0 past its end). -/
def stakeAt (providersMaps : List StakeEntry) (i : Nat) : Int :=
  match providersMaps[i]? with
  | none => 0
  | some e => e.Stake.Amount

/-- The positions `i ≥ lo` of the list that are not in `skip`, ascending. -/
def unselectedFrom (providersMaps : List StakeEntry) (skip : List Nat) (lo : Nat) : List Nat :=
  (List.range providersMaps.length).filter (fun i => decide (lo ≤ i) && !skip.contains i)

/-- The running sum of the last-to-first walk once it has taken position `lo`
in: the stakes of the positions `i ≥ lo` not yet selected. -/
def runningSum (providersMaps : List StakeEntry) (skip : List Nat) (lo : Nat) : Int :=
  ((unselectedFrom providersMaps skip lo).map (stakeAt providersMaps)).sum

/-- The bookkeeping of the selection loop: the marked positions are pairwise
different and `returnedProviders` holds their entries, in the order they were
marked. -/
def Tracks (providersMaps : List StakeEntry) (st : LoopState) : Prop :=
  st.indexToSkip.Nodup ∧
    st.returnedProviders.map some = st.indexToSkip.map (fun i => providersMaps[i]?)

/-- The variable `stakeSum` holds the stakes of the candidates not yet selected. -/
def SumInv (k : Keeper) (providersMaps : List StakeEntry) (st : LoopState) : Prop :=
  st.stakeSum.Denom = k.TokenDenom ∧
    st.stakeSum.Amount = runningSum providersMaps st.indexToSkip 0

/-- Every stake is of the module's denomination and not negative. -/
def NonNegStakes (k : Keeper) (providersMaps : List StakeEntry) : Prop :=
  ∀ e ∈ providersMaps, e.Stake.Denom = k.TokenDenom ∧ 0 ≤ e.Stake.Amount

/-- The stakes of the list sum to an amount that an `sdk.Int` holds: less than
`2 ^ maxBitLen`. -/
def SumFits (providersMaps : List StakeEntry) : Prop :=
  (providersMaps.map (fun e => e.Stake.Amount)).sum < ((2 ^ maxBitLen : Nat) : Int)

/-- The number of candidates with a strictly positive stake. -/
def positiveCount (providersMaps : List StakeEntry) : Nat :=
  (providersMaps.filter (fun e => decide (0 < e.Stake.Amount))).length

/-- The seed buffer of iteration `i`: block hash, chain ID, client address and
one byte per earlier iteration. -/
def seedOfIteration (sessionBlockHash : List Nat) (chainID : String) (clientAddress : List Nat)
    (i : Nat) : List Nat :=
  sessionBlockHash ++ stringBytes chainID ++ clientAddress ++ (List.range i).map (fun j => j % 256)

/-- A candidate list the module can hold: every stake is of the module's
denomination and strictly positive. -/
def PositiveStakes (k : Keeper) (providersMaps : List StakeEntry) : Prop :=
  ∀ e ∈ providersMaps, e.Stake.Denom = k.TokenDenom ∧ 0 < e.Stake.Amount

/-- The header time of the block at a height, in nanoseconds (0 when the block
store has no such block). -/
def timeAt (k : Keeper) (height : Int) : Int :=
  (k.coreBlockTime height).getD 0

/-- The block time sampled at block `b` with step `step`: the seconds between
the blocks `b - step` and `b`, divided by `step`. -/
def sampleAt {F : Type} (fl : Float64Ops F) (k : Keeper) (step b : Int) : F :=
  currentAverageBlockTime fl (timeAt k b) (timeAt k (b - step)) step

/-- The chain state `k` read at another block height: the height, the start
of the current epoch and the earliest saved epoch are replaced; the snapshots,
the parameters, the block store and the address decoder are those of `k`. -/
def Keeper.atHeight (k : Keeper) (height : Int) (currentEpochStart earliestEpochStart : Nat) :
    Keeper :=
  { k with
    BlockHeight := height
    GetEpochStart := currentEpochStart
    GetEarliestEpochStart := earliestEpochStart }

/-- The stored snapshots of a chain are well formed: every address decodes and
every stake is of the module's denomination and not negative. -/
def WellFormedSnapshots (k : Keeper) (chainID : String) : Prop :=
  ∀ epoch key entries, k.GetEpochStakeEntries epoch key chainID = some entries →
    ∀ e ∈ entries, k.AccAddressFromBech32 e.Address ≠ none ∧
      e.Stake.Denom = k.TokenDenom ∧ 0 ≤ e.Stake.Amount

/-! ## Concrete scenario -/

def scenarioClient : List Nat := List.replicate 19 0 ++ [170]

def provider1 : StakeEntry := ⟨⟨"ulava", 100⟩, "provider1", 0, 255⟩

def provider2 : StakeEntry := ⟨⟨"ulava", 200⟩, "provider2", 0, 255⟩

def provider3 : StakeEntry := ⟨⟨"ulava", 700⟩, "provider3", 0, 255⟩

/-- A provider whose stake is zero. -/
def provider4 : StakeEntry := ⟨⟨"ulava", 0⟩, "provider4", 0, 255⟩

/-- A provider whose stake is `2 ^ 255`, an amount of 256 bits. -/
def providerHuge1 : StakeEntry :=
  ⟨⟨"ulava", 57896044618658097711785492504343953926634992332820282019728792003956564819968⟩,
    "providerHuge1", 0, 255⟩

/-- A second provider whose stake is `2 ^ 255`. -/
def providerHuge2 : StakeEntry :=
  ⟨⟨"ulava", 57896044618658097711785492504343953926634992332820282019728792003956564819968⟩,
    "providerHuge2", 0, 255⟩

/-- A provider staked in another denomination. -/
def providerOtherDenom : StakeEntry := ⟨⟨"uatom", 300⟩, "providerOtherDenom", 0, 255⟩

/-- A provider whose deadline is one block after the current height. -/
def providerLate : StakeEntry := ⟨⟨"ulava", 5000⟩, "providerLate", 21, 255⟩

/-- A provider that shares no geolocation bit with the client. -/
def providerFar : StakeEntry := ⟨⟨"ulava", 5000⟩, "providerFar", 0, 2⟩

/-- The client of the scenario: its deadline is the current epoch start. -/
def scenarioClientEntry : StakeEntry := ⟨⟨"ulava", 50⟩, "client1", 20, 5⟩

/-- Scenario 1 of the specification: stakes 100, 200 and 700. -/
def scenarioProviders : List StakeEntry := [provider1, provider2, provider3]

/-- A chain state at block 20, the start of the current epoch, with epochs of
ten blocks. The address decoder is a table for the one client and the bytes of
the string otherwise. -/
def scenarioKeeper : Keeper where
  BlockHeight := 20
  IsSpecFoundAndActive := fun chainID => chainID == "ETH1"
  GetEarliestEpochStart := 0
  GetEpochStartForBlock := fun block => .ok (block / 10 * 10)
  GetEpochStart := 20
  BlocksToSave := fun _ => .ok 100
  GetEpochStakeEntries := fun _ key chainID =>
    if chainID == "ETH1" then
      match key with
      | .ClientKey => some [scenarioClientEntry]
      | .ProviderKey => some [provider1, providerLate, provider2, providerFar, provider3]
    else none
  ServicersToPairCount := fun _ => .ok 2
  coreBlock := fun _ => some (List.replicate 31 0 ++ [1])
  AccAddressFromBech32 := fun s =>
    if s == "client1" then some (List.replicate 19 0 ++ [170]) else some (stringBytes s)
  TokenDenom := "ulava"
  GetPreviousEpochStartForBlock := fun block =>
    if block < 10 then .error "no previous epoch" else .ok (block / 10 * 10 - 10)
  GetNextEpoch := fun block => .ok (block / 10 * 10 + 10)
  EpochBlocksOverlap := 2
  coreBlockTime := fun height => if 0 < height then some (height * 1500000000) else none
  GetSpec := fun chainID => if chainID == "ETH1" then some 7 else none

/-- The chain state of `scenarioKeeper` with a retention window of
`2 ^ 64 - 5` blocks. -/
def wideRetentionKeeper : Keeper :=
  { scenarioKeeper with BlocksToSave := fun _ => .ok 18446744073709551611 }

/-- The `float64` operations on values that the operations yield without
rounding, held as rational numbers; `uint64(x)` truncates. -/
def exactFloat64 : Float64Ops ℚ where
  ofInt64 := fun x => (x : ℚ)
  seconds := fun d => (d : ℚ) / 1000000000
  div := fun x y => x / y
  toUint64 := fun x => toUint64 (Int.tdiv x.num x.den)

/-- The chain state of `scenarioKeeper` with a provider snapshot of two stakes
of `2 ^ 255`. -/
def hugeStakeKeeper : Keeper :=
  { scenarioKeeper with
    GetEpochStakeEntries := fun _ key chainID =>
      if chainID == "ETH1" then
        match key with
        | .ClientKey => some [scenarioClientEntry]
        | .ProviderKey => some [providerHuge1, providerHuge2]
      else none }

/-- The chain state of `scenarioKeeper` one block later, at height 21 of the
same epoch. -/
def nextBlockKeeper : Keeper :=
  { scenarioKeeper with BlockHeight := 21 }

/-- The chain state of `scenarioKeeper` when the lookup of the next epoch fails. -/
def noNextEpochKeeper : Keeper :=
  { scenarioKeeper with GetNextEpoch := fun _ => .error "no next epoch" }

/-- The chain state of `scenarioKeeper` when the block store has block 10 and
no later block. -/
def prunedKeeper : Keeper :=
  { scenarioKeeper with
    coreBlockTime := fun height => if height = 10 then some 15000000000 else none }

/-- A chain state whose current epoch starts at block 11, one block after the
start of the previous epoch. -/
def oneBlockEpochKeeper : Keeper :=
  { scenarioKeeper with
    BlockHeight := 11
    GetEpochStart := 11
    GetPreviousEpochStartForBlock := fun _ => .ok 10
    GetNextEpoch := fun _ => .ok 12 }

/-- Scenario 6 of the specification: blocks 1 to 100 one second apart, the
previous epoch starting at block 0 and the current one at block 100. -/
def oneSecondKeeper : Keeper :=
  { scenarioKeeper with
    BlockHeight := 100
    GetEpochStart := 100
    GetPreviousEpochStartForBlock := fun _ => .ok 0
    GetNextEpoch := fun _ => .ok 200
    coreBlockTime := fun height =>
      if 0 < height ∧ height ≤ 100 then some (height * 1000000000) else none }

/-- Scenario 6 of the specification with ten more seconds between blocks 50
and 51. -/
def oneGapKeeper : Keeper :=
  { oneSecondKeeper with
    coreBlockTime := fun height =>
      if 0 < height ∧ height ≤ 50 then some (height * 1000000000)
      else if 50 < height ∧ height ≤ 100 then some (height * 1000000000 + 10000000000)
      else none }

/-- The state in which the selection enters its loop in the scenario. -/
def scenarioFirst : LoopState :=
  ⟨[], ⟨"ulava", 1000⟩, [], initialHashData (List.replicate 31 0 ++ [1]) "ETH1" scenarioClient⟩

/-- The state at the start of the second iteration in the scenario. -/
def scenarioSecond : LoopState :=
  ⟨[provider3], ⟨"ulava", 300⟩, [2],
    initialHashData (List.replicate 31 0 ++ [1]) "ETH1" scenarioClient ++ [0]⟩

/-! ## Sums of stakes and the last-to-first walk -/

/-- An amount from zero up to, and without, `2 ^ maxBitLen` passes the overflow
test of `sdk.Int`. -/
theorem overflows_eq_false (x : Int) (h0 : 0 ≤ x) (h1 : x < ((2 ^ maxBitLen : Nat) : Int)) :
    overflows x = false := by
  unfold overflows maxBitLen at *
  simp only [decide_eq_false_iff_not, not_le]
  norm_num at h1 ⊢
  omega

theorem lt_of_overflows (x : Int) (h : overflows x = false) :
    x < ((2 ^ maxBitLen : Nat) : Int) := by
  unfold overflows maxBitLen at *
  simp only [decide_eq_false_iff_not, not_le] at h
  norm_num at h ⊢
  omega

/-- What `Coin.Add` returns, when it returns. -/
theorem coinAdd_eq (a b s : Coin) (h : a.Add b = some s) :
    a.Denom = b.Denom ∧ overflows (a.Amount + b.Amount) = false ∧
      s = ⟨a.Denom, a.Amount + b.Amount⟩ := by
  unfold Coin.Add at h
  by_cases hd : a.Denom = b.Denom
  · by_cases ho : overflows (a.Amount + b.Amount) = true
    · simp [hd, ho] at h
    · simp only [hd, ne_eq, not_true_eq_false, if_false, ho, Bool.false_eq_true,
        Option.some.injEq] at h
      exact ⟨hd, by simpa using ho, by rw [← h, hd]⟩
  · simp [hd] at h

/-- `Coin.Add` returns on equal denominations when the sum passes the overflow
test. -/
theorem coinAdd_of_fits (a b : Coin) (hd : a.Denom = b.Denom)
    (ho : overflows (a.Amount + b.Amount) = false) :
    a.Add b = some ⟨a.Denom, a.Amount + b.Amount⟩ := by
  unfold Coin.Add
  simp [hd, ho]

theorem sumStakes_eq (pm : List StakeEntry) : ∀ (acc s : Coin), sumStakes pm acc = some s →
    (∀ e ∈ pm, e.Stake.Denom = acc.Denom) ∧ s.Denom = acc.Denom ∧
      s.Amount = acc.Amount + (pm.map (fun e => e.Stake.Amount)).sum := by
  induction pm with
  | nil => intro acc s h; simp [sumStakes] at h; subst h; simp
  | cons e rest ih =>
    intro acc s h
    simp only [sumStakes] at h
    cases ha : acc.Add e.Stake with
    | none => simp [ha] at h
    | some s1 =>
      simp only [ha] at h
      obtain ⟨hd, _, hs1⟩ := coinAdd_eq _ _ _ ha
      obtain ⟨h1, h2, h3⟩ := ih _ _ h
      subst hs1
      simp at h1 h2 h3
      refine ⟨?_, ?_, ?_⟩
      · intro x hx
        rcases List.mem_cons.1 hx with rfl | hx
        · exact hd.symm
        · exact h1 x hx
      · exact h2
      · simp [h3]; ring

/-- When the first loop returns, its result passes the overflow test if the
amount it started from does. -/
theorem sumStakes_fits (pm : List StakeEntry) : ∀ (acc s : Coin), sumStakes pm acc = some s →
    overflows acc.Amount = false → overflows s.Amount = false := by
  induction pm with
  | nil => intro acc s h ho; simp [sumStakes] at h; subst h; exact ho
  | cons e rest ih =>
    intro acc s h _
    simp only [sumStakes] at h
    cases ha : acc.Add e.Stake with
    | none => simp [ha] at h
    | some s1 =>
      simp only [ha] at h
      obtain ⟨_, ho1, hs1⟩ := coinAdd_eq _ _ _ ha
      subst hs1
      exact ih _ _ h ho1

/-- The first loop returns the sum of the stakes when they are of the
denomination of `stakeSum`, not negative, and the sum stays below
`2 ^ maxBitLen`. -/
theorem sumStakes_of_denom (pm : List StakeEntry) : ∀ (acc : Coin),
    (∀ e ∈ pm, e.Stake.Denom = acc.Denom ∧ 0 ≤ e.Stake.Amount) → 0 ≤ acc.Amount →
    acc.Amount + (pm.map (fun e => e.Stake.Amount)).sum < ((2 ^ maxBitLen : Nat) : Int) →
    sumStakes pm acc = some ⟨acc.Denom, acc.Amount + (pm.map (fun e => e.Stake.Amount)).sum⟩ := by
  induction pm with
  | nil => intro acc _ _ _; simp [sumStakes]
  | cons e rest ih =>
    intro acc h h0 hlt
    have hd : acc.Denom = e.Stake.Denom := (h e (List.mem_cons_self _ _)).1.symm
    have he0 : 0 ≤ e.Stake.Amount := (h e (List.mem_cons_self _ _)).2
    have hrest0 : 0 ≤ (rest.map (fun e => e.Stake.Amount)).sum := by
      apply List.sum_nonneg
      intro x hx
      obtain ⟨y, hy, rfl⟩ := List.mem_map.1 hx
      exact (h y (List.mem_cons_of_mem _ hy)).2
    simp only [List.map_cons, List.sum_cons] at hlt
    have ho : overflows (acc.Amount + e.Stake.Amount) = false :=
      overflows_eq_false _ (by omega) (by omega)
    simp only [sumStakes, coinAdd_of_fits _ _ hd ho]
    rw [ih]
    · simp; ring
    · intro x hx; exact h x (List.mem_cons_of_mem _ hx)
    · show 0 ≤ acc.Amount + e.Stake.Amount
      omega
    · show acc.Amount + e.Stake.Amount + (rest.map (fun e => e.Stake.Amount)).sum <
        ((2 ^ maxBitLen : Nat) : Int)
      omega

theorem filter_range_ge (m lo : Nat) (p : Nat → Bool) (h : m ≤ lo) :
    (List.range m).filter (fun i => decide (lo ≤ i) && p i) = [] := by
  rw [List.filter_eq_nil_iff]
  intro a ha
  have := List.mem_range.1 ha
  simp; intro h2; omega

theorem filter_range_step (p : Nat → Bool) (lo : Nat) : ∀ m, lo < m →
    (List.range m).filter (fun i => decide (lo ≤ i) && p i) =
      (if p lo then [lo] else []) ++ (List.range m).filter (fun i => decide (lo + 1 ≤ i) && p i) := by
  intro m
  induction m with
  | zero => intro h; omega
  | succ m ih =>
    intro h
    rw [List.range_succ, List.filter_append, List.filter_append]
    by_cases hm : lo < m
    · rw [ih hm, List.append_assoc]
      congr 2
      have h1 : lo ≤ m := by omega
      have h2 : lo + 1 ≤ m := by omega
      simp [List.filter, h1, h2]
    · have hm2 : lo = m := by omega
      subst hm2
      rw [filter_range_ge _ _ _ (le_refl _), filter_range_ge _ _ _ (Nat.le_succ _)]
      by_cases hp : p lo <;> simp [List.filter, hp]

theorem unselectedFrom_step (pm : List StakeEntry) (skip : List Nat) (n : Nat)
    (h : n < pm.length) :
    unselectedFrom pm skip n =
      (if skip.contains n then [] else [n]) ++ unselectedFrom pm skip (n + 1) := by
  unfold unselectedFrom
  rw [filter_range_step (fun i => !skip.contains i) n _ h]
  by_cases hc : skip.contains n <;> simp [hc]

theorem runningSum_step (pm : List StakeEntry) (skip : List Nat) (n : Nat)
    (h : n < pm.length) :
    runningSum pm skip n =
      (if skip.contains n then 0 else stakeAt pm n) + runningSum pm skip (n + 1) := by
  unfold runningSum
  rw [unselectedFrom_step pm skip n h]
  by_cases hc : n ∈ skip <;> simp [hc]

theorem runningSum_ge (pm : List StakeEntry) (skip : List Nat) (n : Nat)
    (h : pm.length ≤ n) : runningSum pm skip n = 0 := by
  unfold runningSum unselectedFrom
  rw [filter_range_ge _ _ _ h]; rfl

theorem stakeAt_of_get (pm : List StakeEntry) (i : Nat) (e : StakeEntry)
    (h : pm[i]? = some e) : stakeAt pm i = e.Stake.Amount := by
  simp [stakeAt, h]

/-- Outcome of the last-to-first walk entered at position `n` with the running
sum of the positions above `n`. -/
theorem walk_spec (D : String) (pm : List StakeEntry) (skip : List Nat) (r : Int)
    (hden : ∀ e ∈ pm, e.Stake.Denom = D)
    (hfit : ∀ j, overflows (runningSum pm skip j) = false) :
    ∀ n, n ≤ pm.length → ∀ acc : Coin, acc.Denom = D → acc.Amount = runningSum pm skip n →
      (∀ j, n ≤ j → runningSum pm skip j ≤ r) →
      (walk pm skip r n acc = some none ∧ ∀ j, runningSum pm skip j ≤ r) ∨
      (∃ idx, walk pm skip r n acc = some (some idx) ∧ idx < n ∧ skip.contains idx = false ∧
        r < runningSum pm skip idx ∧ ∀ j, idx < j → runningSum pm skip j ≤ r) := by
  intro n
  induction n with
  | zero =>
    intro _ acc _ _ hle
    left
    exact ⟨rfl, fun j => hle j (Nat.zero_le _)⟩
  | succ n ih =>
    intro hn acc hD hacc hle
    have hlt : n < pm.length := by omega
    obtain ⟨e, he⟩ : ∃ e, pm[n]? = some e := ⟨pm[n], by simp [hlt]⟩
    have hmem : e ∈ pm := List.getElem?_mem he
    have hstep := runningSum_step pm skip n hlt
    simp only [walk, he]
    by_cases hc : skip.contains n
    · simp only [hc, if_true]
      simp only [hc, if_true, zero_add] at hstep
      have hle2 : ∀ j, n ≤ j → runningSum pm skip j ≤ r := by
        intro j hj
        rcases Nat.eq_or_lt_of_le hj with rfl | hj2
        · rw [hstep]; exact hle _ (le_refl _)
        · exact hle j hj2
      rcases ih (by omega) acc hD (by rw [hacc, hstep]) hle2 with h | ⟨idx, h1, h2, h3⟩
      · left; exact h
      · right; exact ⟨idx, h1, by omega, h3⟩
    · simp only [hc, Bool.false_eq_true, if_false]
      simp only [hc, Bool.false_eq_true, if_false] at hstep
      have hd2 : acc.Denom = e.Stake.Denom := by rw [hD, hden e hmem]
      have hsum : acc.Amount + e.Stake.Amount = runningSum pm skip n := by
        rw [hstep, stakeAt_of_get pm n e he, hacc]; ring
      have ho : overflows (acc.Amount + e.Stake.Amount) = false := by
        rw [hsum]; exact hfit n
      simp only [coinAdd_of_fits _ _ hd2 ho]
      by_cases hr : r < acc.Amount + e.Stake.Amount
      · simp only [hr, if_true]
        right
        refine ⟨n, rfl, by omega, by simpa using hc, by rw [← hsum]; exact hr, ?_⟩
        intro j hj; exact hle j hj
      · simp only [hr, if_false]
        have hle2 : ∀ j, n ≤ j → runningSum pm skip j ≤ r := by
          intro j hj
          rcases Nat.eq_or_lt_of_le hj with rfl | hj2
          · rw [← hsum]; omega
          · exact hle j hj2
        rcases ih (by omega) ⟨acc.Denom, acc.Amount + e.Stake.Amount⟩
            (by simpa using hD) (by simpa using hsum) hle2 with h | ⟨idx, h1, h2, h3⟩
        · left; exact h
        · right; exact ⟨idx, h1, by omega, h3⟩

/-- A hit of the walk is a position of the list that was not selected before. -/
theorem walk_hit (pm : List StakeEntry) (skip : List Nat) (r : Int) :
    ∀ n (acc : Coin) (idx : Nat), walk pm skip r n acc = some (some idx) →
      idx < n ∧ idx < pm.length ∧ skip.contains idx = false := by
  intro n
  induction n with
  | zero => intro acc idx h; simp [walk] at h
  | succ n ih =>
    intro acc idx h
    simp only [walk] at h
    cases he : pm[n]? with
    | none => simp [he] at h
    | some e =>
      have hlt : n < pm.length := by
        by_contra hcon
        have : pm[n]? = none := List.getElem?_eq_none (by omega)
        rw [this] at he; cases he
      simp only [he] at h
      by_cases hc : skip.contains n
      · simp only [hc, if_true] at h
        have := ih _ _ h
        exact ⟨by omega, this.2⟩
      · simp only [hc, Bool.false_eq_true, if_false] at h
        cases ha : acc.Add e.Stake with
        | none => simp [ha] at h
        | some s =>
          simp only [ha] at h
          by_cases hr : r < s.Amount
          · simp only [hr, if_true] at h
            have hidx : n = idx := by simpa using h
            subst hidx
            exact ⟨by omega, hlt, by simpa using hc⟩
          · simp only [hr, if_false] at h
            have := ih _ _ h
            exact ⟨by omega, this.2⟩

/-- Whatever the walk returns: entered at position `n` with the running sum of
the positions above `n`, none of which exceeds `r`, a walk that ends without a
hit has met no running sum above `r`, and a hit is at the highest position
whose running sum exceeds `r`. -/
theorem walk_sound (pm : List StakeEntry) (skip : List Nat) (r : Int) :
    ∀ n, n ≤ pm.length → ∀ acc : Coin, acc.Amount = runningSum pm skip n →
      (∀ j, n ≤ j → runningSum pm skip j ≤ r) →
      (walk pm skip r n acc = some none → ∀ j, runningSum pm skip j ≤ r) ∧
      (∀ idx, walk pm skip r n acc = some (some idx) → idx < n ∧ skip.contains idx = false ∧
        r < runningSum pm skip idx ∧ ∀ j, idx < j → runningSum pm skip j ≤ r) := by
  intro n
  induction n with
  | zero =>
    intro _ acc _ hle
    refine ⟨fun _ j => hle j (Nat.zero_le _), ?_⟩
    intro idx h
    simp [walk] at h
  | succ n ih =>
    intro hn acc hacc hle
    have hlt : n < pm.length := by omega
    obtain ⟨e, he⟩ : ∃ e, pm[n]? = some e := ⟨pm[n], by simp [hlt]⟩
    have hstep := runningSum_step pm skip n hlt
    simp only [walk, he]
    by_cases hc : skip.contains n
    · simp only [hc, if_true]
      simp only [hc, if_true, zero_add] at hstep
      have hle2 : ∀ j, n ≤ j → runningSum pm skip j ≤ r := by
        intro j hj
        rcases Nat.eq_or_lt_of_le hj with rfl | hj2
        · rw [hstep]; exact hle _ (le_refl _)
        · exact hle j hj2
      obtain ⟨h1, h2⟩ := ih (by omega) acc (by rw [hacc, hstep]) hle2
      refine ⟨h1, ?_⟩
      intro idx h
      obtain ⟨a, b⟩ := h2 idx h
      exact ⟨by omega, b⟩
    · simp only [hc, Bool.false_eq_true, if_false]
      simp only [hc, Bool.false_eq_true, if_false] at hstep
      cases ha : acc.Add e.Stake with
      | none => simp
      | some s =>
        obtain ⟨_, _, hs⟩ := coinAdd_eq _ _ _ ha
        have hsum : s.Amount = runningSum pm skip n := by
          rw [hs, hstep, stakeAt_of_get pm n e he, hacc]; ring
        simp only
        by_cases hr : r < s.Amount
        · simp only [hr, if_true]
          refine ⟨by simp, ?_⟩
          intro idx h
          have hidx : n = idx := by simpa using h
          subst hidx
          exact ⟨by omega, by simpa using hc, by rw [← hsum]; exact hr, fun j hj => hle j hj⟩
        · simp only [hr, if_false]
          have hle2 : ∀ j, n ≤ j → runningSum pm skip j ≤ r := by
            intro j hj
            rcases Nat.eq_or_lt_of_le hj with rfl | hj2
            · rw [← hsum]; omega
            · exact hle j hj2
          obtain ⟨h1, h2⟩ := ih (by omega) s hsum hle2
          refine ⟨h1, ?_⟩
          intro idx h
          obtain ⟨a, b⟩ := h2 idx h
          exact ⟨by omega, b⟩

theorem runningSum_nil_zero (pm : List StakeEntry) :
    runningSum pm [] 0 = (pm.map (fun e => e.Stake.Amount)).sum := by
  have h1 : unselectedFrom pm [] 0 = List.range pm.length := by
    unfold unselectedFrom
    apply List.filter_eq_self.2
    intro i _
    simp
  have h2 : (List.range pm.length).map (stakeAt pm) = pm.map (fun e => e.Stake.Amount) := by
    apply List.ext_getElem
    · simp
    · intro i h1 h2
      simp at h1
      simp [stakeAt, h1]
  unfold runningSum
  rw [h1, h2]

/-! ## The digest as an amount -/

theorem beBytes_length (n x : Nat) : (Sha256.beBytes n x).length = n := by
  induction n with
  | zero => rfl
  | succ n ih => simp [Sha256.beBytes, ih]

theorem beBytes_lt (n x : Nat) : ∀ b ∈ Sha256.beBytes n x, b < 256 := by
  induction n with
  | zero => intro b hb; simp [Sha256.beBytes] at hb
  | succ n ih =>
    intro b hb
    simp only [Sha256.beBytes, List.mem_cons] at hb
    rcases hb with rfl | hb
    · exact Nat.mod_lt _ (by decide)
    · exact ih b hb

theorem compress_length (h block : List Nat) : (Sha256.compress h block).length ≤ h.length := by
  unfold Sha256.compress
  simp only [List.length_zipWith]
  exact Nat.min_le_left _ _

theorem foldl_compress_length (blocks : List (List Nat)) :
    ∀ h : List Nat, (blocks.foldl Sha256.compress h).length ≤ h.length := by
  induction blocks with
  | nil => intro h; exact le_refl _
  | cons b rest ih =>
    intro h
    simp only [List.foldl_cons]
    exact le_trans (ih _) (compress_length h b)

theorem flatten_beBytes_length (ws : List Nat) :
    ((ws.map (Sha256.beBytes 4)).flatten).length = 4 * ws.length := by
  induction ws with
  | nil => rfl
  | cons w rest ih =>
    simp only [List.map_cons, List.flatten_cons, List.length_append, beBytes_length, ih,
      List.length_cons]
    omega

/-- The digest has at most 32 bytes. -/
theorem digest_length (msg : List Nat) : (Sha256.sum msg).length ≤ 32 := by
  unfold Sha256.sum
  rw [flatten_beBytes_length]
  have := foldl_compress_length
    (Sha256.chunks ((Sha256.pad msg).length / 64) (Sha256.pad msg)) Sha256.H0
  have h0 : Sha256.H0.length = 8 := rfl
  omega

/-- Every element of the digest is a byte. -/
theorem digest_bytes (msg : List Nat) : ∀ b ∈ Sha256.sum msg, b < 256 := by
  intro b hb
  unfold Sha256.sum at hb
  obtain ⟨l, hl, hbl⟩ := List.mem_flatten.1 hb
  obtain ⟨w, _, rfl⟩ := List.mem_map.1 hl
  exact beBytes_lt 4 w b hbl

theorem foldl_bytes_lt (l : List Nat) :
    ∀ acc : Nat, (∀ b ∈ l, b < 256) →
      l.foldl (fun acc b => acc * 256 + b) acc < (acc + 1) * 256 ^ l.length := by
  induction l with
  | nil => intro acc _; simp
  | cons b rest ih =>
    intro acc h
    have hb : b < 256 := h b (List.mem_cons_self _ _)
    have h1 := ih (acc * 256 + b) (fun x hx => h x (List.mem_cons_of_mem _ hx))
    simp only [List.foldl_cons, List.length_cons]
    calc rest.foldl (fun acc b => acc * 256 + b) (acc * 256 + b)
        < (acc * 256 + b + 1) * 256 ^ rest.length := h1
      _ ≤ ((acc + 1) * 256) * 256 ^ rest.length := by
          apply Nat.mul_le_mul_right
          omega
      _ = (acc + 1) * 256 ^ (rest.length + 1) := by ring

/-- The digest read as a number has at most 256 bits, so
`sdk.NewIntFromBigInt` does not panic on it. -/
theorem digest_fits (msg : List Nat) : overflows (SetBytes (Sha256.sum msg)) = false := by
  have h1 := foldl_bytes_lt (Sha256.sum msg) 0 (digest_bytes msg)
  have h2 := digest_length msg
  have h3 : 256 ^ (Sha256.sum msg).length ≤ 256 ^ 32 := Nat.pow_le_pow_right (by decide) h2
  have h4 : (256 : Nat) ^ 32 = 2 ^ maxBitLen := by
    unfold maxBitLen
    norm_num
  apply overflows_eq_false
  · unfold SetBytes
    exact Int.ofNat_nonneg _
  · unfold SetBytes
    have h5 : (Sha256.sum msg).foldl (fun acc b => acc * 256 + b) 0 < 2 ^ maxBitLen := by
      rw [← h4]
      omega
    exact_mod_cast h5

/-! ## Bookkeeping of the selection loop -/

/-- Marking a fresh position removes its stake from the running sums at or
below that position. -/
theorem runningSum_mark (pm : List StakeEntry) (skip : List Nat) (idx : Nat)
    (hidx : idx < pm.length) (hfresh : skip.contains idx = false) :
    ∀ d n, n + d = pm.length →
      runningSum pm (skip ++ [idx]) n =
        runningSum pm skip n - (if n ≤ idx then stakeAt pm idx else 0) := by
  intro d
  induction d with
  | zero =>
    intro n hn
    rw [runningSum_ge _ _ _ (by omega), runningSum_ge _ _ _ (by omega)]
    have : ¬ n ≤ idx := by omega
    simp [this]
  | succ d ih =>
    intro n hn
    have hlt : n < pm.length := by omega
    rw [runningSum_step _ _ _ hlt, runningSum_step pm skip _ hlt, ih (n + 1) (by omega)]
    have hfresh2 : idx ∉ skip := by simpa using hfresh
    by_cases hni : n = idx
    · subst hni
      have h1 : ¬ n + 1 ≤ n := by omega
      simp [hfresh2, h1]
    · have h1 : (n + 1 ≤ idx) = (n ≤ idx) := by
        apply propext; constructor <;> intro h <;> omega
      by_cases hs : n ∈ skip
      · simp [hs, h1]
      · simp [hs, hni, h1]; ring

theorem markSelected_spec (k : Keeper) (pm : List StakeEntry) (st st1 : LoopState) (idx : Nat)
    (h : markSelected pm st idx = some st1) (hfresh : st.indexToSkip.contains idx = false)
    (ht : Tracks pm st) :
    Tracks pm st1 ∧ st1.indexToSkip = st.indexToSkip ++ [idx] ∧ st1.hashData = st.hashData ∧
      (SumInv k pm st → SumInv k pm st1) := by
  unfold markSelected at h
  cases he : pm[idx]? with
  | none => simp [he] at h
  | some e =>
    simp only [he] at h
    have hlt : idx < pm.length := by
      by_contra hcon
      have : pm[idx]? = none := List.getElem?_eq_none (by omega)
      rw [this] at he; cases he
    unfold Coin.Sub at h
    by_cases hd : st.stakeSum.Denom = e.Stake.Denom
    · by_cases ho : overflows (st.stakeSum.Amount - e.Stake.Amount) = true
      · simp [hd, ho] at h
      · by_cases hneg : st.stakeSum.Amount - e.Stake.Amount < 0
        · simp [hd, ho, hneg] at h
        · simp only [hd, ne_eq, not_true_eq_false, if_false, ho, Bool.false_eq_true,
            hneg] at h
          have hst : st1 = { st with
              returnedProviders := st.returnedProviders ++ [e]
              stakeSum := ⟨e.Stake.Denom, st.stakeSum.Amount - e.Stake.Amount⟩
              indexToSkip := st.indexToSkip ++ [idx] } := by
            simpa using h.symm
          subst hst
          refine ⟨⟨?_, ?_⟩, rfl, rfl, ?_⟩
          · have hfresh2 : idx ∉ st.indexToSkip := by simpa using hfresh
            simpa [List.nodup_append, hfresh2] using ht.1
          · simp [ht.2, he]
          · intro hs
            refine ⟨by simpa [hd] using hs.1, ?_⟩
            have := runningSum_mark pm st.indexToSkip idx hlt hfresh pm.length 0 (by omega)
            simp only [Nat.zero_le, if_true] at this
            simp only [this, stakeAt_of_get pm idx e he, hs.2]
    · simp [hd] at h

theorem selectIndex_hit (k : Keeper) (pm : List StakeEntry) (st : LoopState) (idx : Nat)
    (h : selectIndex k pm st = some (some idx)) :
    idx < pm.length ∧ st.indexToSkip.contains idx = false := by
  unfold selectIndex at h
  cases hm : IntMod (SetBytes (Sha256.sum st.hashData)) st.stakeSum.Amount with
  | none => simp [hm] at h
  | some r =>
    simp only [hm] at h
    exact (walk_hit pm st.indexToSkip r _ _ idx h).2

theorem afterWalk_next (count it : Nat) (st st1 : LoopState)
    (h : afterWalk count it st = .next st1) :
    st1 = { st with hashData := st.hashData ++ [it % 256] } ∧
      st.returnedProviders.length < count ∧ st.stakeSum.Amount ≠ 0 := by
  unfold afterWalk at h
  by_cases h1 : count ≤ st.returnedProviders.length
  · simp [h1] at h
  · by_cases h2 : st.stakeSum.IsZero
    · simp [h1, h2] at h
    · simp only [h1, h2, if_false, Bool.false_eq_true] at h
      refine ⟨by simpa using h.symm, by omega, ?_⟩
      simpa [Coin.IsZero] using h2

theorem afterWalk_done (count it : Nat) (st : LoopState) (out : List StakeEntry)
    (h : afterWalk count it st = .done out) : out = st.returnedProviders := by
  unfold afterWalk at h
  by_cases h1 : count ≤ st.returnedProviders.length
  · simp [h1] at h; exact h.symm
  · by_cases h2 : st.stakeSum.IsZero
    · simp [h1, h2] at h; exact h.symm
    · simp [h1, h2] at h

/-- One iteration that continues keeps the bookkeeping and appends the
iteration byte to the seed. -/
theorem iteration_next (k : Keeper) (pm : List StakeEntry) (count it : Nat)
    (st st1 : LoopState) (h : iteration k pm count it st = .next st1) (ht : Tracks pm st) :
    Tracks pm st1 ∧ (SumInv k pm st → SumInv k pm st1) ∧
      st1.hashData = st.hashData ++ [it % 256] ∧ st1.stakeSum.Amount ≠ 0 := by
  unfold iteration at h
  cases hs : selectIndex k pm st with
  | none => simp [hs] at h
  | some o =>
    cases o with
    | none =>
      simp only [hs] at h
      obtain ⟨h1, _, h3⟩ := afterWalk_next _ _ _ _ h
      subst h1
      exact ⟨ht, fun x => x, rfl, h3⟩
    | some idx =>
      simp only [hs] at h
      cases hm : markSelected pm st idx with
      | none => simp [hm] at h
      | some st2 =>
        simp only [hm] at h
        obtain ⟨h1, _, h3⟩ := afterWalk_next _ _ _ _ h
        obtain ⟨a, b, c, d⟩ := markSelected_spec k pm st st2 idx hm (selectIndex_hit k pm st idx hs).2 ht
        subst h1
        exact ⟨a, d, by simp [c], h3⟩

theorem iteration_done (k : Keeper) (pm : List StakeEntry) (count it : Nat)
    (st : LoopState) (out : List StakeEntry) (h : iteration k pm count it st = .done out)
    (ht : Tracks pm st) :
    ∃ idxs : List Nat, idxs.Nodup ∧ out.map some = idxs.map (fun i => pm[i]?) := by
  unfold iteration at h
  cases hs : selectIndex k pm st with
  | none => simp [hs] at h
  | some o =>
    cases o with
    | none =>
      simp only [hs] at h
      have := afterWalk_done _ _ _ _ h
      subst this
      exact ⟨_, ht.1, ht.2⟩
    | some idx =>
      simp only [hs] at h
      cases hm : markSelected pm st idx with
      | none => simp [hm] at h
      | some st2 =>
        simp only [hm] at h
        have := afterWalk_done _ _ _ _ h
        subst this
        obtain ⟨a, _, _, _⟩ := markSelected_spec k pm st st2 idx hm (selectIndex_hit k pm st idx hs).2 ht
        exact ⟨_, a.1, a.2⟩

/-- Whatever the outer loop returns is the list of entries at pairwise different
positions. -/
theorem forLoop_positions (k : Keeper) (pm : List StakeEntry) (count : Nat) :
    ∀ fuel it st out, forLoop k pm count fuel it st = some out → Tracks pm st →
      ∃ idxs : List Nat, idxs.Nodup ∧ out.map some = idxs.map (fun i => pm[i]?) := by
  intro fuel
  induction fuel with
  | zero =>
    intro it st out h ht
    simp [forLoop] at h
    subst h
    exact ⟨_, ht.1, ht.2⟩
  | succ fuel ih =>
    intro it st out h ht
    simp only [forLoop] at h
    cases hi : iteration k pm count it st with
    | panic => simp [hi] at h
    | done r =>
      simp [hi] at h
      subst h
      exact iteration_done k pm count it st r hi ht
    | next st1 =>
      simp only [hi] at h
      exact ih _ _ _ h (iteration_next k pm count it st st1 hi ht).1

theorem returnSubset_positions (k : Keeper) (clientAddress : List Nat) (pm : List StakeEntry)
    (count block : Nat) (chainID : String) (out : List StakeEntry)
    (h : returnSubsetOfProvidersByStake k clientAddress pm count block chainID = some out) :
    ∃ idxs : List Nat, idxs.Nodup ∧ out.map some = idxs.map (fun i => pm[i]?) := by
  unfold returnSubsetOfProvidersByStake at h
  cases hs : sumStakes pm ⟨k.TokenDenom, 0⟩ with
  | none => simp [hs] at h
  | some stakeSum =>
    simp only [hs] at h
    by_cases hz : stakeSum.IsZero
    · simp [hz] at h
      subst h
      exact ⟨[], List.nodup_nil, rfl⟩
    · simp only [hz, Bool.false_eq_true, if_false] at h
      cases hb : k.coreBlock (toInt64 block) with
      | none => simp [hb] at h
      | some hash =>
        simp only [hb] at h
        exact forLoop_positions k pm count _ _ _ out h ⟨List.nodup_nil, rfl⟩

/-! ## The walk under non-negative stakes -/

theorem denom_of_nonNeg (k : Keeper) (pm : List StakeEntry) (h : NonNegStakes k pm) :
    ∀ e ∈ pm, e.Stake.Denom = k.TokenDenom := fun e he => (h e he).1

theorem stakeAt_nonneg (k : Keeper) (pm : List StakeEntry) (h : NonNegStakes k pm) (i : Nat) :
    0 ≤ stakeAt pm i := by
  unfold stakeAt
  cases he : pm[i]? with
  | none => simp
  | some e => exact (h e (List.getElem?_mem he)).2

theorem runningSum_nonneg (k : Keeper) (pm : List StakeEntry) (h : NonNegStakes k pm)
    (skip : List Nat) (n : Nat) : 0 ≤ runningSum pm skip n := by
  unfold runningSum
  apply List.sum_nonneg
  intro x hx
  obtain ⟨i, _, rfl⟩ := List.mem_map.1 hx
  exact stakeAt_nonneg k pm h i

/-- Under non-negative stakes no running sum is above the sum of all stakes. -/
theorem runningSum_le_total (k : Keeper) (pm : List StakeEntry) (h : NonNegStakes k pm)
    (skip : List Nat) (n : Nat) :
    runningSum pm skip n ≤ (pm.map (fun e => e.Stake.Amount)).sum := by
  rw [← runningSum_nil_zero]
  unfold runningSum
  apply List.Sublist.sum_le_sum
  · apply List.Sublist.map
    unfold unselectedFrom
    have h0 : (List.range pm.length).filter (fun i => decide (0 ≤ i) && !([] : List Nat).contains i) =
        List.range pm.length := by
      apply List.filter_eq_self.2
      intro i _
      simp
    rw [h0]
    exact List.filter_sublist _
  · intro x hx
    obtain ⟨i, _, rfl⟩ := List.mem_map.1 hx
    exact stakeAt_nonneg k pm h i

/-- Under non-negative stakes that sum to less than `2 ^ maxBitLen` every
running sum passes the overflow test of `sdk.Int`. -/
theorem runningSum_fits (k : Keeper) (pm : List StakeEntry) (h : NonNegStakes k pm)
    (hfits : SumFits pm) (skip : List Nat) (n : Nat) :
    overflows (runningSum pm skip n) = false := by
  have h1 := runningSum_le_total k pm h skip n
  have h2 := runningSum_nonneg k pm h skip n
  unfold SumFits at hfits
  exact overflows_eq_false _ h2 (by omega)

/-- The walk of one iteration: with `S > 0` the stakes not yet selected and
`r` the hash modulo `S`, it stops at the highest position whose running sum
exceeds `r`. -/
theorem selectIndex_spec (k : Keeper) (pm : List StakeEntry) (st : LoopState)
    (hden : ∀ e ∈ pm, e.Stake.Denom = k.TokenDenom) (hs : SumInv k pm st)
    (hpos : 0 < st.stakeSum.Amount)
    (hfit : ∀ j, overflows (runningSum pm st.indexToSkip j) = false) :
    ∃ idx, selectIndex k pm st = some (some idx) ∧ idx < pm.length ∧
      st.indexToSkip.contains idx = false ∧
      SetBytes (Sha256.sum st.hashData) % st.stakeSum.Amount < runningSum pm st.indexToSkip idx ∧
      ∀ j, idx < j →
        runningSum pm st.indexToSkip j ≤ SetBytes (Sha256.sum st.hashData) % st.stakeSum.Amount := by
  have hne : st.stakeSum.Amount ≠ 0 := by omega
  have hr0 : 0 ≤ SetBytes (Sha256.sum st.hashData) % st.stakeSum.Amount := Int.emod_nonneg _ hne
  have hr1 : SetBytes (Sha256.sum st.hashData) % st.stakeSum.Amount < st.stakeSum.Amount :=
    Int.emod_lt_of_pos _ hpos
  unfold selectIndex IntMod
  simp only [hne, if_false]
  have hw := walk_spec k.TokenDenom pm st.indexToSkip
    (SetBytes (Sha256.sum st.hashData) % st.stakeSum.Amount) hden hfit pm.length (le_refl _)
    ⟨k.TokenDenom, 0⟩ rfl (by simp [runningSum_ge pm st.indexToSkip pm.length (le_refl _)])
    (by intro j hj; rw [runningSum_ge pm st.indexToSkip j hj]; exact hr0)
  rcases hw with ⟨_, h2⟩ | ⟨idx, h1, h2, h3, h4, h5⟩
  · have := h2 0
    rw [← hs.2] at this
    omega
  · exact ⟨idx, h1, h2, h3, h4, h5⟩

/-- Whatever the walk of one iteration returns, on any stakes: with `S > 0`
the stakes not yet selected and `r` the hash modulo `S`, the walk does not end
without a hit, and a hit is at the highest position whose running sum exceeds
`r`. -/
theorem selectIndex_sound (k : Keeper) (pm : List StakeEntry) (st : LoopState)
    (hs : SumInv k pm st) (hpos : 0 < st.stakeSum.Amount) :
    selectIndex k pm st ≠ some none ∧
    ∀ idx, selectIndex k pm st = some (some idx) → idx < pm.length ∧
      st.indexToSkip.contains idx = false ∧
      SetBytes (Sha256.sum st.hashData) % st.stakeSum.Amount < runningSum pm st.indexToSkip idx ∧
      ∀ j, idx < j →
        runningSum pm st.indexToSkip j ≤ SetBytes (Sha256.sum st.hashData) % st.stakeSum.Amount := by
  have hne : st.stakeSum.Amount ≠ 0 := by omega
  have hr0 : 0 ≤ SetBytes (Sha256.sum st.hashData) % st.stakeSum.Amount := Int.emod_nonneg _ hne
  have hr1 : SetBytes (Sha256.sum st.hashData) % st.stakeSum.Amount < st.stakeSum.Amount :=
    Int.emod_lt_of_pos _ hpos
  unfold selectIndex IntMod
  simp only [hne, if_false]
  obtain ⟨h1, h2⟩ := walk_sound pm st.indexToSkip
    (SetBytes (Sha256.sum st.hashData) % st.stakeSum.Amount) pm.length (le_refl _)
    ⟨k.TokenDenom, 0⟩ (by simp [runningSum_ge pm st.indexToSkip pm.length (le_refl _)])
    (by intro j hj; rw [runningSum_ge pm st.indexToSkip j hj]; exact hr0)
  refine ⟨?_, ?_⟩
  · intro hnone
    have := h1 hnone 0
    rw [← hs.2] at this
    omega
  · intro idx hidx
    obtain ⟨a, b, c, d⟩ := h2 idx hidx
    exact ⟨a, b, c, d⟩

/-- Under non-negative stakes that sum to less than `2 ^ maxBitLen` an
iteration entered with a non-zero `stakeSum` selects a position of strictly
positive stake. -/
theorem iteration_selects (k : Keeper) (pm : List StakeEntry) (st : LoopState)
    (hnn : NonNegStakes k pm) (hfits : SumFits pm) (hs : SumInv k pm st)
    (hne : st.stakeSum.Amount ≠ 0) :
    ∃ idx st1, selectIndex k pm st = some (some idx) ∧ markSelected pm st idx = some st1 ∧
      0 < stakeAt pm idx ∧ st.indexToSkip.contains idx = false := by
  have hge : 0 ≤ st.stakeSum.Amount := by rw [hs.2]; exact runningSum_nonneg k pm hnn _ _
  have hpos : 0 < st.stakeSum.Amount := by omega
  obtain ⟨idx, h1, h2, h3, h4, h5⟩ := selectIndex_spec k pm st (denom_of_nonNeg k pm hnn) hs hpos
    (runningSum_fits k pm hnn hfits st.indexToSkip)
  have hstep := runningSum_step pm st.indexToSkip idx h2
  simp only [h3, Bool.false_eq_true, if_false] at hstep
  have h6 := h5 (idx + 1) (by omega)
  have hposi : 0 < stakeAt pm idx := by omega
  obtain ⟨e, he⟩ : ∃ e, pm[idx]? = some e := ⟨pm[idx], by simp [h2]⟩
  have hmark := runningSum_mark pm st.indexToSkip idx h2 h3 pm.length 0 (by omega)
  simp only [Nat.zero_le, if_true] at hmark
  have hnn2 := runningSum_nonneg k pm hnn (st.indexToSkip ++ [idx]) 0
  have hamt := stakeAt_of_get pm idx e he
  have hd : st.stakeSum.Denom = e.Stake.Denom := by
    rw [hs.1, (hnn e (List.getElem?_mem he)).1]
  have hsub : ¬ st.stakeSum.Amount - e.Stake.Amount < 0 := by
    rw [hs.2, ← hamt]; omega
  have hov : overflows (st.stakeSum.Amount - e.Stake.Amount) = false := by
    have hfit2 := runningSum_fits k pm hnn hfits (st.indexToSkip ++ [idx]) 0
    rw [hmark] at hfit2
    rw [hs.2, ← hamt]
    exact hfit2
  refine ⟨idx, { st with
      returnedProviders := st.returnedProviders ++ [e]
      stakeSum := ⟨e.Stake.Denom, st.stakeSum.Amount - e.Stake.Amount⟩
      indexToSkip := st.indexToSkip ++ [idx] }, h1, ?_, hposi, h3⟩
  simp [markSelected, he, Coin.Sub, hd, hsub, hov]

/-- The positions of strictly positive stake, ascending. -/
theorem positive_positions_length (pm : List StakeEntry) :
    ((List.range pm.length).filter (fun i => decide (0 < stakeAt pm i))).length =
      positiveCount pm := by
  induction pm using List.reverseRecOn with
  | nil => rfl
  | append_singleton pm a ih =>
    have hcongr : (List.range pm.length).filter (fun i => decide (0 < stakeAt (pm ++ [a]) i)) =
        (List.range pm.length).filter (fun i => decide (0 < stakeAt pm i)) := by
      apply List.filter_congr
      intro i hi
      have hi2 : i < pm.length := List.mem_range.1 hi
      simp [stakeAt, List.getElem?_append_left hi2]
    have hlast : stakeAt (pm ++ [a]) pm.length = a.Stake.Amount := by
      simp [stakeAt]
    simp only [List.length_append, List.length_singleton, List.range_succ, List.filter_append,
      positiveCount, hcongr]
    unfold positiveCount at ih
    rw [ih]
    by_cases hp : 0 < a.Stake.Amount <;> simp [List.filter, hlast, hp]

theorem lt_length_of_stakeAt_pos (pm : List StakeEntry) (i : Nat) (h : 0 < stakeAt pm i) :
    i < pm.length := by
  by_contra hcon
  have : pm[i]? = none := List.getElem?_eq_none (by omega)
  simp [stakeAt, this] at h

/-- Pairwise different positions of positive stake are at most `positiveCount`. -/
theorem length_le_positiveCount (pm : List StakeEntry) (skip : List Nat) (hnd : skip.Nodup)
    (hpos : ∀ i ∈ skip, 0 < stakeAt pm i) : skip.length ≤ positiveCount pm := by
  rw [← positive_positions_length]
  apply List.Subperm.length_le
  apply List.subperm_of_subset hnd
  intro i hi
  have h1 := hpos i hi
  simp [List.mem_filter, h1, lt_length_of_stakeAt_pos pm i h1]

/-- When the stakes left sum to zero, every position of positive stake is marked. -/
theorem positiveCount_le_length (k : Keeper) (pm : List StakeEntry) (skip : List Nat)
    (hnn : NonNegStakes k pm) (hz : runningSum pm skip 0 = 0) :
    positiveCount pm ≤ skip.length := by
  rw [← positive_positions_length]
  apply List.Subperm.length_le
  apply List.subperm_of_subset ((List.nodup_range _).filter _)
  intro i hi
  simp only [List.mem_filter, List.mem_range, decide_eq_true_eq] at hi
  by_contra hcon
  have hmem : stakeAt pm i ∈ (unselectedFrom pm skip 0).map (stakeAt pm) := by
    apply List.mem_map_of_mem
    simp [unselectedFrom, hi.1, hcon]
  have hle : stakeAt pm i ≤ runningSum pm skip 0 := by
    unfold runningSum
    apply List.single_le_sum _ _ hmem
    intro x hx
    obtain ⟨j, _, rfl⟩ := List.mem_map.1 hx
    exact stakeAt_nonneg k pm hnn j
  omega

/-! ## Size of the selection -/

theorem Tracks_length (pm : List StakeEntry) (st : LoopState) (h : Tracks pm st) :
    st.returnedProviders.length = st.indexToSkip.length := by
  have := congrArg List.length h.2
  simpa using this

theorem toInt64_toNat (count : Nat) (h : count < 9223372036854775808) :
    (toInt64 count).toNat = count := by
  unfold toInt64
  have h1 : count % 18446744073709551616 = count := Nat.mod_eq_of_lt (by omega)
  simp [h1, h]

/-- Under non-negative stakes that sum to less than `2 ^ maxBitLen` the outer
loop returns, and it returns `min(count, positiveCount)` entries at pairwise
different positions of positive stake. -/
theorem forLoop_progress (k : Keeper) (pm : List StakeEntry) (count : Nat)
    (hnn : NonNegStakes k pm) (hfits : SumFits pm) :
    ∀ fuel it st, Tracks pm st → SumInv k pm st → (∀ i ∈ st.indexToSkip, 0 < stakeAt pm i) →
      st.stakeSum.Amount ≠ 0 → st.returnedProviders.length < count →
      count = fuel + st.returnedProviders.length →
      ∃ (out : List StakeEntry) (idxs : List Nat), forLoop k pm count fuel it st = some out ∧
        idxs.Nodup ∧
        out.map some = idxs.map (fun i => pm[i]?) ∧ (∀ i ∈ idxs, 0 < stakeAt pm i) ∧
        out.length = min count (positiveCount pm) := by
  intro fuel
  induction fuel with
  | zero => intro it st _ _ _ _ h1 h2; omega
  | succ fuel ih =>
    intro it st ht hs hp hne hlt hcount
    obtain ⟨idx, st1, h1, h2, h3, h4⟩ := iteration_selects k pm st hnn hfits hs hne
    obtain ⟨ht1, hskip, _, hs1⟩ := markSelected_spec k pm st st1 idx h2 h4 ht
    have hs1 := hs1 hs
    have hp1 : ∀ i ∈ st1.indexToSkip, 0 < stakeAt pm i := by
      intro i hi
      rw [hskip] at hi
      rcases List.mem_append.1 hi with hi | hi
      · exact hp i hi
      · simp at hi; subst hi; exact h3
    have hlen1 : st1.returnedProviders.length = st.returnedProviders.length + 1 := by
      rw [Tracks_length pm st1 ht1, Tracks_length pm st ht, hskip]; simp
    have hle := length_le_positiveCount pm st1.indexToSkip ht1.1 hp1
    rw [← Tracks_length pm st1 ht1] at hle
    have hiter : iteration k pm count it st = afterWalk count it st1 := by
      simp [iteration, h1, h2]
    simp only [forLoop, hiter]
    unfold afterWalk
    by_cases hc : count ≤ st1.returnedProviders.length
    · simp only [hc, if_true]
      exact ⟨_, st1.indexToSkip, rfl, ht1.1, ht1.2, hp1, by omega⟩
    · simp only [hc, if_false]
      by_cases hz : st1.stakeSum.IsZero
      · simp only [hz, if_true]
        have hz2 : runningSum pm st1.indexToSkip 0 = 0 := by
          rw [← hs1.2]; simpa [Coin.IsZero] using hz
        have hge := positiveCount_le_length k pm st1.indexToSkip hnn hz2
        rw [← Tracks_length pm st1 ht1] at hge
        exact ⟨_, st1.indexToSkip, rfl, ht1.1, ht1.2, hp1, by omega⟩
      · simp only [hz, Bool.false_eq_true, if_false]
        have hne1 : st1.stakeSum.Amount ≠ 0 := by simpa [Coin.IsZero] using hz
        exact ih (it + 1) _ ht1 hs1 hp1 hne1 (by simpa using Nat.lt_of_not_le hc)
          (by simp only [hlen1]; omega)

/-- On a list of non-negative stakes of the module's denomination that sum to
less than `2 ^ maxBitLen`, with the epoch-start block available and `count`
below `2 ^ 63`, the selection returns `min(count, positiveCount)` entries at
pairwise different positions of positive stake. -/
theorem returnSubset_total (k : Keeper) (clientAddress : List Nat) (pm : List StakeEntry)
    (count block : Nat) (chainID : String) (hnn : NonNegStakes k pm) (hfits : SumFits pm)
    (hb : k.coreBlock (toInt64 block) ≠ none) (hc : count < 9223372036854775808) :
    ∃ (out : List StakeEntry) (idxs : List Nat),
      returnSubsetOfProvidersByStake k clientAddress pm count block chainID = some out ∧
      idxs.Nodup ∧ out.map some = idxs.map (fun i => pm[i]?) ∧
      (∀ i ∈ idxs, 0 < stakeAt pm i) ∧ out.length = min count (positiveCount pm) := by
  have hsum := sumStakes_of_denom pm ⟨k.TokenDenom, 0⟩ hnn (le_refl _)
    (by simpa [SumFits] using hfits)
  simp only [zero_add] at hsum
  unfold returnSubsetOfProvidersByStake
  rw [hsum]
  simp only
  by_cases hz : (pm.map (fun e => e.Stake.Amount)).sum = 0
  · have hz2 : runningSum pm [] 0 = 0 := by rw [runningSum_nil_zero]; exact hz
    have := positiveCount_le_length k pm [] hnn hz2
    simp only [List.length_nil, Nat.le_zero] at this
    refine ⟨[], [], ?_, List.nodup_nil, rfl, ?_, ?_⟩
    · simp [Coin.IsZero, hz]
    · intro i hi; cases hi
    · simp [this]
  · obtain ⟨hash, hhash⟩ := Option.ne_none_iff_exists'.1 hb
    simp only [Coin.IsZero, hz, decide_False, Bool.false_eq_true, if_false, hhash,
      toInt64_toNat count hc]
    by_cases hc0 : count = 0
    · subst hc0
      refine ⟨[], [], rfl, List.nodup_nil, rfl, ?_, ?_⟩
      · intro i hi; cases hi
      · simp
    · exact forLoop_progress k pm count hnn hfits count 0 _ ⟨List.nodup_nil, rfl⟩
        ⟨rfl, by simp [runningSum_nil_zero]⟩ (fun i hi => by cases hi) hz (by simp; omega) (by simp)

/-- The bound on the sum is needed: on stakes that sum to `2 ^ maxBitLen` or
more the first loop panics in `sdk.Int.Add`, whatever the signs of the stakes. -/
theorem returnSubset_overflow (k : Keeper) (clientAddress : List Nat) (pm : List StakeEntry)
    (count block : Nat) (chainID : String) (hfits : ¬ SumFits pm) :
    returnSubsetOfProvidersByStake k clientAddress pm count block chainID = none := by
  unfold returnSubsetOfProvidersByStake
  cases hs : sumStakes pm ⟨k.TokenDenom, 0⟩ with
  | none => rfl
  | some stakeSum =>
    exfalso
    obtain ⟨_, _, h3⟩ := sumStakes_eq pm _ _ hs
    have h0 : overflows (0 : Int) = false := by decide
    have h4 := lt_of_overflows _ (sumStakes_fits pm _ _ hs h0)
    simp only [zero_add] at h3
    rw [h3] at h4
    exact hfits h4

/-! ## Iteration states, rearrangements -/

theorem iterationState_succ (k : Keeper) (pm : List StakeEntry) (count : Nat) (init : LoopState)
    (i : Nat) (st : LoopState) (h : iterationState k pm count init (i + 1) = some st) :
    ∃ st0, iterationState k pm count init i = some st0 ∧
      iteration k pm count i st0 = .next st ∧ i + 1 < (toInt64 count).toNat := by
  simp only [iterationState] at h
  cases h0 : iterationState k pm count init i with
  | none => simp [h0] at h
  | some st0 =>
    simp only [h0] at h
    cases hi : iteration k pm count i st0 with
    | panic => simp [hi] at h
    | done r => simp [hi] at h
    | next st1 =>
      simp only [hi] at h
      by_cases hlt : i + 1 < (toInt64 count).toNat
      · simp only [hlt, if_true, Option.some.injEq] at h
        subst h
        exact ⟨st0, rfl, hi, hlt⟩
      · simp [hlt] at h

/-- The states `iterationState` lists are the states of the run of the outer
loop: from iteration `i` on, the loop continues as from its beginning. -/
theorem forLoop_iterationState (k : Keeper) (pm : List StakeEntry) (count : Nat)
    (init : LoopState) : ∀ i st, iterationState k pm count init i = some st →
      i < (toInt64 count).toNat ∧
      forLoop k pm count (toInt64 count).toNat 0 init =
        forLoop k pm count ((toInt64 count).toNat - i) i st := by
  intro i
  induction i with
  | zero =>
    intro st h
    simp only [iterationState] at h
    by_cases hlt : 0 < (toInt64 count).toNat
    · simp only [hlt, if_true, Option.some.injEq] at h
      subst h
      exact ⟨hlt, rfl⟩
    · simp [hlt] at h
  | succ i ih =>
    intro st h
    obtain ⟨st0, h0, hi, hlt⟩ := iterationState_succ k pm count init i st h
    obtain ⟨_, heq⟩ := ih st0 h0
    refine ⟨hlt, ?_⟩
    rw [heq]
    have : (toInt64 count).toNat - i = ((toInt64 count).toNat - (i + 1)) + 1 := by omega
    rw [this]
    simp only [forLoop, hi]

/-- Invariants of the states at the start of the iterations. -/
theorem iterationState_inv (k : Keeper) (pm : List StakeEntry) (count : Nat)
    (init : LoopState) (hT : Tracks pm init) (hS : SumInv k pm init) :
    ∀ i st, iterationState k pm count init i = some st →
      Tracks pm st ∧ SumInv k pm st ∧
        st.hashData = init.hashData ++ (List.range i).map (fun j => j % 256) := by
  intro i
  induction i with
  | zero =>
    intro st h
    simp only [iterationState] at h
    by_cases hlt : 0 < (toInt64 count).toNat
    · simp only [hlt, if_true, Option.some.injEq] at h
      subst h
      exact ⟨hT, hS, by simp⟩
    · simp [hlt] at h
  | succ i ih =>
    intro st h
    obtain ⟨st0, h0, hi, _⟩ := iterationState_succ k pm count init i st h
    obtain ⟨a, b, c⟩ := ih st0 h0
    obtain ⟨a1, b1, c1, _⟩ := iteration_next k pm count i st0 st hi a
    refine ⟨a1, b1 b, ?_⟩
    rw [c1, c, List.range_succ, List.map_append, List.append_assoc]
    rfl

theorem map_getElem?_range (pm : List StakeEntry) :
    (List.range pm.length).map (fun i => pm[i]?) = pm.map some := by
  apply List.ext_getElem
  · simp
  · intro i h1 h2
    simp at h1
    simp [h1]

/-- Entries at pairwise different positions, as many as the list is long, are a
rearrangement of the list. -/
theorem perm_of_positions (pm out : List StakeEntry) (idxs : List Nat) (hnd : idxs.Nodup)
    (hmap : out.map some = idxs.map (fun i => pm[i]?)) (hlen : out.length = pm.length) :
    out.Perm pm := by
  have hlen2 : idxs.length = pm.length := by
    have := congrArg List.length hmap
    simp at this
    omega
  have hsub : idxs ⊆ List.range pm.length := by
    intro i hi
    rw [List.mem_range]
    by_contra hcon
    have hnone : pm[i]? = none := List.getElem?_eq_none (by omega)
    have hmem : (pm[i]?) ∈ idxs.map (fun i => pm[i]?) := List.mem_map_of_mem _ hi
    rw [← hmap, hnone] at hmem
    simp at hmem
  have hperm : idxs.Perm (List.range pm.length) :=
    (List.subperm_of_subset hnd hsub).perm_of_length_le (by simp [hlen2])
  have h2 := hperm.map (fun i => pm[i]?)
  rw [← hmap, map_getElem?_range] at h2
  have h3 := h2.filterMap id
  simpa [List.filterMap_map] using h3

theorem nodup_of_positions (pm out : List StakeEntry) (idxs : List Nat) (hnd : idxs.Nodup)
    (hmap : out.map some = idxs.map (fun i => pm[i]?)) (hpm : pm.Nodup) : out.Nodup := by
  apply List.Nodup.of_map some
  rw [hmap]
  apply List.Nodup.map_on _ hnd
  intro x hx y _ hxy
  have hlt : x < pm.length := by
    by_contra hcon
    have hnone : pm[x]? = none := List.getElem?_eq_none (by omega)
    have hmem : (pm[x]?) ∈ idxs.map (fun i => pm[i]?) := List.mem_map_of_mem _ hx
    rw [← hmap, hnone] at hmem
    simp at hmem
  exact List.getElem?_inj hlt hpm hxy

theorem mem_of_positions (pm out : List StakeEntry) (idxs : List Nat)
    (hmap : out.map some = idxs.map (fun i => pm[i]?)) : ∀ e ∈ out, e ∈ pm := by
  intro e he
  have hmem : some e ∈ out.map some := List.mem_map_of_mem _ he
  rw [hmap] at hmem
  obtain ⟨i, _, hi⟩ := List.mem_map.1 hmem
  exact List.getElem?_mem hi

theorem nonNeg_of_positive (k : Keeper) (pm : List StakeEntry) (h : PositiveStakes k pm) :
    NonNegStakes k pm := fun e he => ⟨(h e he).1, le_of_lt (h e he).2⟩

theorem positiveCount_of_positive (k : Keeper) (pm : List StakeEntry) (h : PositiveStakes k pm) :
    positiveCount pm = pm.length := by
  unfold positiveCount
  rw [List.filter_eq_self.2]
  intro e he
  simpa using (h e he).2

/-! ## Size, uniqueness and order of the selection -/

/-- C1, as stated, fails: with a zero-stake candidate in a list of four and
`count = 5` the selection returns three entries, while `min(count, number of
candidates)` is four. -/
theorem returnSubset_size_counterexample :
    returnSubsetOfProvidersByStake scenarioKeeper scenarioClient
        [provider1, provider2, provider3, provider4] 5 20 "ETH1" =
      some [provider3, provider1, provider2] ∧
    [provider3, provider1, provider2].length ≠
      min 5 [provider1, provider2, provider3, provider4].length := by
  decide!

/-- C1 (amended): for every candidate list whose stakes are of the module's
denomination, not negative, and sum to less than `2 ^ 256` (the largest sum
`sdk.Int.Add` returns), with the epoch-start block available and `count` below
`2 ^ 63`, `returnSubsetOfProvidersByStake` returns, and it returns exactly
`min(count, number of candidates with a strictly positive stake)` entries; when
every stake is strictly positive this is `min(count, number of candidates)`. -/
theorem returnSubset_length (k : Keeper) (clientAddress : List Nat)
    (providersMaps : List StakeEntry) (count block : Nat) (chainID : String)
    (hnn : NonNegStakes k providersMaps) (hfits : SumFits providersMaps)
    (hb : k.coreBlock (toInt64 block) ≠ none) (hc : count < 9223372036854775808) :
    ∃ out, returnSubsetOfProvidersByStake k clientAddress providersMaps count block chainID =
        some out ∧
      out.length = min count (positiveCount providersMaps) ∧
      (PositiveStakes k providersMaps → out.length = min count providersMaps.length) := by
  obtain ⟨out, idxs, h1, _, _, _, h5⟩ := returnSubset_total k clientAddress providersMaps count
    block chainID hnn hfits hb hc
  refine ⟨out, h1, h5, ?_⟩
  intro hpos
  rw [h5, positiveCount_of_positive k providersMaps hpos]

/-- C1 (amended), at the list with a zero stake and at scenario 1 of the
specification with `count = 2`. -/
theorem returnSubset_length_witness :
    (∃ out, returnSubsetOfProvidersByStake scenarioKeeper scenarioClient
        [provider1, provider2, provider3, provider4] 5 20 "ETH1" = some out ∧
      out.length = min 5 (positiveCount [provider1, provider2, provider3, provider4]) ∧
      (PositiveStakes scenarioKeeper [provider1, provider2, provider3, provider4] →
        out.length = min 5 [provider1, provider2, provider3, provider4].length)) ∧
    (PositiveStakes scenarioKeeper scenarioProviders ∧
      ∃ out, returnSubsetOfProvidersByStake scenarioKeeper scenarioClient scenarioProviders 2 20
        "ETH1" = some out ∧
      out.length = min 2 (positiveCount scenarioProviders) ∧
      (PositiveStakes scenarioKeeper scenarioProviders →
        out.length = min 2 scenarioProviders.length)) :=
  ⟨returnSubset_length scenarioKeeper scenarioClient [provider1, provider2, provider3, provider4]
      5 20 "ETH1" (by unfold NonNegStakes; decide) (by unfold SumFits; decide) (by decide)
      (by decide),
    by unfold PositiveStakes; decide,
    returnSubset_length scenarioKeeper scenarioClient scenarioProviders 2 20 "ETH1"
      (by unfold NonNegStakes; decide) (by unfold SumFits; decide) (by decide) (by decide)⟩

/-- C2: whatever `returnSubsetOfProvidersByStake` returns is the list of the
entries at pairwise different positions of the candidate list, in the order of
selection; so no position is selected twice, and when the candidates are
pairwise distinct no entry appears twice in the output. -/
theorem returnSubset_no_position_twice (k : Keeper) (clientAddress : List Nat)
    (providersMaps : List StakeEntry) (count block : Nat) (chainID : String)
    (out : List StakeEntry)
    (h : returnSubsetOfProvidersByStake k clientAddress providersMaps count block chainID =
      some out) :
    ∃ idxs : List Nat, idxs.Nodup ∧ out.map some = idxs.map (fun i => providersMaps[i]?) ∧
      (providersMaps.Nodup → out.Nodup) := by
  obtain ⟨idxs, h1, h2⟩ := returnSubset_positions k clientAddress providersMaps count block
    chainID out h
  exact ⟨idxs, h1, h2, nodup_of_positions providersMaps out idxs h1 h2⟩

/-- C2, at scenario 1 of the specification with `count = 2`. -/
theorem returnSubset_no_position_twice_witness :
    ∃ idxs : List Nat, idxs.Nodup ∧
      [provider3, provider1].map some = idxs.map (fun i => scenarioProviders[i]?) ∧
      (scenarioProviders.Nodup → [provider3, provider1].Nodup) :=
  returnSubset_no_position_twice scenarioKeeper scenarioClient scenarioProviders 2 20 "ETH1"
    [provider3, provider1] (by decide!)

/-- C3, as stated, fails: in scenario 2 of the specification (stakes 100, 200,
700, `count = 5`) the three candidates come back in the order 700, 100, 200 and
not in snapshot order. -/
theorem returnSubset_order_counterexample :
    scenarioProviders.length ≤ 5 ∧
    returnSubsetOfProvidersByStake scenarioKeeper scenarioClient scenarioProviders 5 20 "ETH1" =
      some [provider3, provider1, provider2] ∧
    [provider3, provider1, provider2] ≠ scenarioProviders := by
  decide!

/-- C3 (amended): for every candidate list of strictly positive stakes of the
module's denomination that sum to less than `2 ^ 256` (the largest sum
`sdk.Int.Add` returns), whose length is at most `count` (`count` below `2 ^ 63`,
epoch-start block available), `returnSubsetOfProvidersByStake` returns all the
candidates, each position once, in the order in which the iterations selected
them: the output is a rearrangement of the candidate list. -/
theorem returnSubset_perm_of_length_le (k : Keeper) (clientAddress : List Nat)
    (providersMaps : List StakeEntry) (count block : Nat) (chainID : String)
    (hpos : PositiveStakes k providersMaps) (hfits : SumFits providersMaps)
    (hb : k.coreBlock (toInt64 block) ≠ none)
    (hc : count < 9223372036854775808) (hlen : providersMaps.length ≤ count) :
    ∃ out, returnSubsetOfProvidersByStake k clientAddress providersMaps count block chainID =
        some out ∧ out.Perm providersMaps := by
  obtain ⟨out, idxs, h1, h2, h3, _, h5⟩ := returnSubset_total k clientAddress providersMaps count
    block chainID (nonNeg_of_positive k providersMaps hpos) hfits hb hc
  rw [positiveCount_of_positive k providersMaps hpos, Nat.min_eq_right hlen] at h5
  exact ⟨out, h1, perm_of_positions providersMaps out idxs h2 h3 h5⟩

/-- C3 (amended), at scenario 2 of the specification. -/
theorem returnSubset_perm_of_length_le_witness :
    ∃ out, returnSubsetOfProvidersByStake scenarioKeeper scenarioClient scenarioProviders 5 20
        "ETH1" = some out ∧ out.Perm scenarioProviders :=
  returnSubset_perm_of_length_le scenarioKeeper scenarioClient scenarioProviders 5 20 "ETH1"
    (by unfold PositiveStakes; decide) (by unfold SumFits; decide) (by decide) (by decide)
    (by decide)

/-! ## Per-iteration selection and seed -/

theorem markSelected_returned (pm : List StakeEntry) (st st1 : LoopState) (idx : Nat)
    (h : markSelected pm st idx = some st1) :
    st1.returnedProviders.map some = st.returnedProviders.map some ++ [pm[idx]?] ∧
      st1.indexToSkip = st.indexToSkip ++ [idx] := by
  unfold markSelected at h
  cases he : pm[idx]? with
  | none => simp [he] at h
  | some e =>
    simp only [he] at h
    cases hsub : st.stakeSum.Sub e.Stake with
    | none => simp [hsub] at h
    | some s =>
      simp only [hsub, Option.some.injEq] at h
      subst h
      simp

/-- The state in which `returnSubsetOfProvidersByStake` enters its loop keeps
the bookkeeping and holds the sum of all stakes. -/
theorem entry_state_inv (k : Keeper) (pm : List StakeEntry) (stakeSum : Coin) (d : List Nat)
    (hsum : sumStakes pm ⟨k.TokenDenom, 0⟩ = some stakeSum) :
    Tracks pm ⟨[], stakeSum, [], d⟩ ∧ SumInv k pm ⟨[], stakeSum, [], d⟩ := by
  obtain ⟨_, h2, h3⟩ := sumStakes_eq pm _ _ hsum
  refine ⟨⟨List.nodup_nil, rfl⟩, h2, ?_⟩
  simp only [zero_add] at h3
  simp only [h3, runningSum_nil_zero]

theorem returnSubset_eq_forLoop (k : Keeper) (clientAddress : List Nat) (pm : List StakeEntry)
    (count block : Nat) (chainID : String) (stakeSum : Coin) (hash : List Nat)
    (hsum : sumStakes pm ⟨k.TokenDenom, 0⟩ = some stakeSum) (hnz : stakeSum.IsZero = false)
    (hblock : k.coreBlock (toInt64 block) = some hash) :
    returnSubsetOfProvidersByStake k clientAddress pm count block chainID =
      forLoop k pm count (toInt64 count).toNat 0
        ⟨[], stakeSum, [], initialHashData hash chainID clientAddress⟩ := by
  simp [returnSubsetOfProvidersByStake, hsum, hnz, hblock]

/-- C4: at the start of every iteration of `returnSubsetOfProvidersByStake`
the variable `stakeSum` is the sum `S` of the stakes not yet selected; when
`S > 0`, with `r` the SHA-256 digest of the seed read as a big-endian number
modulo `S`, the walk never ends without a hit, and the position `idx` it
selects was not selected before, its running sum (the stakes of the unselected
positions from the last down to `idx`, its own included) is strictly greater
than `r`, while the running sum at every unselected position above `idx` is at
most `r`; the entry appended to the output is the one at `idx`. When no stake is
negative the walk does select a position (with stakes of both signs a running
sum can exceed the 256 bits of `sdk.Int` and the walk panic, although the sum
of all stakes does not). -/
theorem selection_walk_first_exceeding (k : Keeper) (clientAddress : List Nat)
    (providersMaps : List StakeEntry) (count block : Nat) (chainID : String)
    (stakeSum : Coin) (hash : List Nat)
    (hsum : sumStakes providersMaps ⟨k.TokenDenom, 0⟩ = some stakeSum)
    (hnz : stakeSum.IsZero = false) (hblock : k.coreBlock (toInt64 block) = some hash)
    (i : Nat) (st : LoopState)
    (hst : iterationState k providersMaps count
      ⟨[], stakeSum, [], initialHashData hash chainID clientAddress⟩ i = some st)
    (hpos : 0 < st.stakeSum.Amount) :
    returnSubsetOfProvidersByStake k clientAddress providersMaps count block chainID =
        forLoop k providersMaps count ((toInt64 count).toNat - i) i st ∧
      st.stakeSum.Amount = runningSum providersMaps st.indexToSkip 0 ∧
      ((∀ e ∈ providersMaps, 0 ≤ e.Stake.Amount) →
        ∃ idx, selectIndex k providersMaps st = some (some idx)) ∧
      selectIndex k providersMaps st ≠ some none ∧
      ∀ idx, selectIndex k providersMaps st = some (some idx) →
        idx < providersMaps.length ∧ idx ∉ st.indexToSkip ∧
        SetBytes (Sha256.sum st.hashData) % st.stakeSum.Amount <
          runningSum providersMaps st.indexToSkip idx ∧
        (∀ j, idx < j → j < providersMaps.length → j ∉ st.indexToSkip →
          runningSum providersMaps st.indexToSkip j ≤
            SetBytes (Sha256.sum st.hashData) % st.stakeSum.Amount) ∧
        ∀ st1, markSelected providersMaps st idx = some st1 →
          st1.returnedProviders.map some =
            st.returnedProviders.map some ++ [providersMaps[idx]?] := by
  obtain ⟨hT, hS⟩ := entry_state_inv k providersMaps stakeSum
    (initialHashData hash chainID clientAddress) hsum
  obtain ⟨_, hS1, _⟩ := iterationState_inv k providersMaps count _ hT hS i st hst
  obtain ⟨hden, _, htotal⟩ := sumStakes_eq providersMaps _ _ hsum
  obtain ⟨hsome, hall⟩ := selectIndex_sound k providersMaps st hS1 hpos
  refine ⟨?_, hS1.2, ?_, hsome, ?_⟩
  · rw [returnSubset_eq_forLoop k clientAddress providersMaps count block chainID stakeSum hash
      hsum hnz hblock]
    exact (forLoop_iterationState k providersMaps count _ i st hst).2
  · intro hnonneg
    have hnn : NonNegStakes k providersMaps := fun e he => ⟨hden e he, hnonneg e he⟩
    have h0 : overflows (0 : Int) = false := by decide
    have hfits : SumFits providersMaps := by
      have h4 := lt_of_overflows _ (sumStakes_fits providersMaps _ _ hsum h0)
      simp only [zero_add] at htotal
      rw [htotal] at h4
      exact h4
    obtain ⟨idx, h1, _⟩ := selectIndex_spec k providersMaps st hden hS1 hpos
      (runningSum_fits k providersMaps hnn hfits st.indexToSkip)
    exact ⟨idx, h1⟩
  · intro idx hidx
    obtain ⟨h2, h3, h4, h5⟩ := hall idx hidx
    refine ⟨h2, by simpa using h3, h4, fun j hj _ _ => h5 j hj, ?_⟩
    intro st1 hm
    exact (markSelected_returned providersMaps st st1 idx hm).1

/-- C4, at the second iteration of scenario 2 of the specification. -/
theorem selection_walk_first_exceeding_witness :
    returnSubsetOfProvidersByStake scenarioKeeper scenarioClient scenarioProviders 5 20 "ETH1" =
        forLoop scenarioKeeper scenarioProviders 5 ((toInt64 5).toNat - 1) 1 scenarioSecond ∧
      scenarioSecond.stakeSum.Amount =
        runningSum scenarioProviders scenarioSecond.indexToSkip 0 ∧
      ((∀ e ∈ scenarioProviders, 0 ≤ e.Stake.Amount) →
        ∃ idx, selectIndex scenarioKeeper scenarioProviders scenarioSecond = some (some idx)) ∧
      selectIndex scenarioKeeper scenarioProviders scenarioSecond ≠ some none ∧
      ∀ idx, selectIndex scenarioKeeper scenarioProviders scenarioSecond = some (some idx) →
        idx < scenarioProviders.length ∧ idx ∉ scenarioSecond.indexToSkip ∧
        SetBytes (Sha256.sum scenarioSecond.hashData) % scenarioSecond.stakeSum.Amount <
          runningSum scenarioProviders scenarioSecond.indexToSkip idx ∧
        (∀ j, idx < j → j < scenarioProviders.length → j ∉ scenarioSecond.indexToSkip →
          runningSum scenarioProviders scenarioSecond.indexToSkip j ≤
            SetBytes (Sha256.sum scenarioSecond.hashData) % scenarioSecond.stakeSum.Amount) ∧
        ∀ st1, markSelected scenarioProviders scenarioSecond idx = some st1 →
          st1.returnedProviders.map some =
            scenarioSecond.returnedProviders.map some ++ [scenarioProviders[idx]?] :=
  selection_walk_first_exceeding scenarioKeeper scenarioClient scenarioProviders 5 20 "ETH1"
    ⟨"ulava", 1000⟩ (List.replicate 31 0 ++ [1]) (by decide) (by decide) (by decide) 1
    scenarioSecond (by decide!) (by decide)

/-- C5: the state at the start of iteration `i` (0-based) of
`returnSubsetOfProvidersByStake` holds as seed the block hash of the epoch
start, then the chain ID bytes, then the client address bytes, then one byte
`j mod 256` for every earlier iteration `j = 0 .. i-1`; this is the byte string
the iteration hashes, and for `i = 0` it is the three-part concatenation alone. -/
theorem seed_of_iteration (k : Keeper) (clientAddress : List Nat)
    (providersMaps : List StakeEntry) (count block : Nat) (chainID : String)
    (stakeSum : Coin) (hash : List Nat)
    (hsum : sumStakes providersMaps ⟨k.TokenDenom, 0⟩ = some stakeSum)
    (hnz : stakeSum.IsZero = false) (hblock : k.coreBlock (toInt64 block) = some hash)
    (i : Nat) (st : LoopState)
    (hst : iterationState k providersMaps count
      ⟨[], stakeSum, [], initialHashData hash chainID clientAddress⟩ i = some st) :
    returnSubsetOfProvidersByStake k clientAddress providersMaps count block chainID =
        forLoop k providersMaps count ((toInt64 count).toNat - i) i st ∧
      st.hashData = seedOfIteration hash chainID clientAddress i ∧
      selectIndex k providersMaps st =
        (match IntMod (SetBytes (Sha256.sum (seedOfIteration hash chainID clientAddress i)))
            st.stakeSum.Amount with
          | none => none
          | some modRes =>
            walk providersMaps st.indexToSkip modRes providersMaps.length ⟨k.TokenDenom, 0⟩) ∧
      seedOfIteration hash chainID clientAddress 0 = hash ++ stringBytes chainID ++ clientAddress := by
  obtain ⟨hT, hS⟩ := entry_state_inv k providersMaps stakeSum
    (initialHashData hash chainID clientAddress) hsum
  obtain ⟨_, _, hd⟩ := iterationState_inv k providersMaps count _ hT hS i st hst
  have hseed : st.hashData = seedOfIteration hash chainID clientAddress i := by
    rw [hd]; rfl
  refine ⟨?_, hseed, ?_, by simp [seedOfIteration]⟩
  · rw [returnSubset_eq_forLoop k clientAddress providersMaps count block chainID stakeSum hash
      hsum hnz hblock]
    exact (forLoop_iterationState k providersMaps count _ i st hst).2
  · rw [← hseed]; rfl

/-- C5, at the second iteration of scenario 2 of the specification: the seed
is the 56 bytes of iteration 0 followed by the byte 0. -/
theorem seed_of_iteration_witness :
    returnSubsetOfProvidersByStake scenarioKeeper scenarioClient scenarioProviders 5 20 "ETH1" =
        forLoop scenarioKeeper scenarioProviders 5 ((toInt64 5).toNat - 1) 1 scenarioSecond ∧
      scenarioSecond.hashData =
        seedOfIteration (List.replicate 31 0 ++ [1]) "ETH1" scenarioClient 1 ∧
      selectIndex scenarioKeeper scenarioProviders scenarioSecond =
        (match IntMod (SetBytes (Sha256.sum
              (seedOfIteration (List.replicate 31 0 ++ [1]) "ETH1" scenarioClient 1)))
            scenarioSecond.stakeSum.Amount with
          | none => none
          | some modRes =>
            walk scenarioProviders scenarioSecond.indexToSkip modRes scenarioProviders.length
              ⟨scenarioKeeper.TokenDenom, 0⟩) ∧
      seedOfIteration (List.replicate 31 0 ++ [1]) "ETH1" scenarioClient 0 =
        (List.replicate 31 0 ++ [1]) ++ stringBytes "ETH1" ++ scenarioClient :=
  seed_of_iteration scenarioKeeper scenarioClient scenarioProviders 5 20 "ETH1"
    ⟨"ulava", 1000⟩ (List.replicate 31 0 ++ [1]) (by decide) (by decide) (by decide) 1
    scenarioSecond (by decide!)

/-! ## Candidate filtering -/

/-- The filtering loop appends, in snapshot order, the entries that pass both gates. -/
theorem validProvidersLoop_eq_filter (blockHeight geolocation : Nat)
    (providers : List StakeEntry) : ∀ validProviders : List StakeEntry,
    validProvidersLoop blockHeight geolocation providers validProviders =
      validProviders ++ providers.filter
        (fun e => decide (e.Deadline ≤ blockHeight) && decide (e.Geolocation &&& geolocation ≠ 0)) := by
  induction providers with
  | nil => intro acc; simp [validProvidersLoop]
  | cons e rest ih =>
    intro acc
    simp only [validProvidersLoop]
    by_cases hd : e.Deadline > blockHeight
    · have hd2 : ¬ e.Deadline ≤ blockHeight := by omega
      simp [hd, hd2, ih, List.filter]
    · have hd2 : e.Deadline ≤ blockHeight := by omega
      by_cases hg : e.Geolocation &&& geolocation = 0
      · simp [hd, hd2, hg, ih, List.filter]
      · simp [hd, hd2, hg, ih, List.filter]

/-- C6: the loop of `calculatePairingForClient` that builds the candidate list
yields the provider snapshot restricted to the entries with `deadline ≤ current
block height` and `(provider geolocation AND client geolocation) ≠ 0`, in the
order of the snapshot, and an entry whose deadline equals the current height
(and that shares a geolocation bit) is kept; when the epoch start is not above
the current height and the pairing count is read, that restricted list is the
one handed to `returnSubsetOfProvidersByStake`. -/
theorem calculatePairing_candidates (k : Keeper) (providers : List StakeEntry)
    (clientAddress : List Nat) (epochStartBlock : Nat) (chainID : String) (geolocation : Nat) :
    validProvidersLoop (toUint64 k.BlockHeight) geolocation providers [] =
        providers.filter (fun e =>
          decide (e.Deadline ≤ toUint64 k.BlockHeight) &&
            decide (e.Geolocation &&& geolocation ≠ 0)) ∧
      (validProvidersLoop (toUint64 k.BlockHeight) geolocation providers []).Sublist providers ∧
      (∀ e ∈ providers, e.Deadline = toUint64 k.BlockHeight → e.Geolocation &&& geolocation ≠ 0 →
        e ∈ validProvidersLoop (toUint64 k.BlockHeight) geolocation providers []) ∧
      (epochStartBlock ≤ toUint64 k.BlockHeight →
        ∀ servicersToPairCount, k.ServicersToPairCount epochStartBlock = .ok servicersToPairCount →
        calculatePairingForClient k providers clientAddress epochStartBlock chainID geolocation =
          withAddrList k
            (returnSubsetOfProvidersByStake k clientAddress
              (providers.filter (fun e =>
                decide (e.Deadline ≤ toUint64 k.BlockHeight) &&
                  decide (e.Geolocation &&& geolocation ≠ 0)))
              servicersToPairCount epochStartBlock chainID)) := by
  have hf := validProvidersLoop_eq_filter (toUint64 k.BlockHeight) geolocation providers []
  simp only [List.nil_append] at hf
  refine ⟨hf, ?_, ?_, ?_⟩
  · rw [hf]; exact List.filter_sublist _
  · intro e he hd hg
    rw [hf, List.mem_filter]
    exact ⟨he, by simp [hd, hg]⟩
  · intro hstart n hn
    have hs : ¬ epochStartBlock > toUint64 k.BlockHeight := by omega
    simp only [calculatePairingForClient, hs, if_false, hn, hf]

/-- The candidate list of the scenario, evaluated: the late provider and the
provider without a common geolocation bit are left out, the others keep their
order. -/
theorem calculatePairing_candidates_scenario :
    validProvidersLoop (toUint64 scenarioKeeper.BlockHeight) 5
        [provider1, providerLate, provider2, providerFar, provider3] [] =
      [provider1, provider2, provider3] ∧
    calculatePairingForClient scenarioKeeper
        [provider1, providerLate, provider2, providerFar, provider3] scenarioClient 20 "ETH1" 5 =
      .ok ([provider3, provider1], [stringBytes "provider3", stringBytes "provider1"]) := by
  decide!

/-- What `calculatePairingForClient` returns comes from the filtered snapshot. -/
theorem calculatePairing_mem (k : Keeper) (providers : List StakeEntry)
    (clientAddress : List Nat) (epochStartBlock : Nat) (chainID : String) (geolocation : Nat)
    (validProviders : List StakeEntry) (addrList : List (List Nat))
    (h : calculatePairingForClient k providers clientAddress epochStartBlock chainID geolocation =
      .ok (validProviders, addrList)) :
    ∀ e ∈ validProviders, e ∈ providers ∧ e.Deadline ≤ toUint64 k.BlockHeight ∧
      e.Geolocation &&& geolocation ≠ 0 := by
  unfold calculatePairingForClient at h
  by_cases hs : epochStartBlock > toUint64 k.BlockHeight
  · simp [hs] at h
  · simp only [hs, if_false] at h
    cases hn : k.ServicersToPairCount epochStartBlock with
    | error e => simp [hn] at h
    | ok n =>
      simp only [hn, withAddrList] at h
      cases hr : returnSubsetOfProvidersByStake k clientAddress
          (validProvidersLoop (toUint64 k.BlockHeight) geolocation providers []) n
          epochStartBlock chainID with
      | none => simp [hr] at h
      | some vp =>
        simp only [hr] at h
        cases ha : addrListLoop k vp [] with
        | none => simp [ha] at h
        | some al =>
          simp only [ha, Result.ok.injEq, Prod.mk.injEq] at h
          obtain ⟨h1, _⟩ := h
          subst h1
          obtain ⟨idxs, _, hmap⟩ := returnSubset_positions k clientAddress _ n epochStartBlock
            chainID vp hr
          intro e he
          have hmem := mem_of_positions _ vp idxs hmap e he
          have hf := validProvidersLoop_eq_filter (toUint64 k.BlockHeight) geolocation providers []
          simp only [List.nil_append] at hf
          rw [hf, List.mem_filter] at hmem
          obtain ⟨hm1, hm2⟩ := hmem
          simp only [Bool.and_eq_true, decide_eq_true_eq] at hm2
          exact ⟨hm1, hm2.1, hm2.2⟩

/-! ## Eligibility of the returned providers and of the verified client -/

/-- C7: every provider `calculatePairingForClient` returns is an entry of the
snapshot with `deadline ≤ current block height` that shares a geolocation bit
with the client, and so is every provider `GetPairingForClient` returns, for
the provider snapshot of the current epoch and the geolocation of the verified
client; a provider with `deadline = height + 1`, or with geolocation `0b0010`
against the client geolocation `0b0101`, is not among them. -/
theorem pairing_only_eligible (k : Keeper) (chainID : String) (clientAddress : List Nat) :
    (∀ (providers : List StakeEntry) (epochStartBlock geolocation : Nat)
        (validProviders : List StakeEntry) (addrList : List (List Nat)),
      calculatePairingForClient k providers clientAddress epochStartBlock chainID geolocation =
          .ok (validProviders, addrList) →
        ∀ e ∈ validProviders,
          (e ∈ providers ∧ e.Deadline ≤ toUint64 k.BlockHeight ∧
            e.Geolocation &&& geolocation ≠ 0) ∧
          e.Deadline ≠ toUint64 k.BlockHeight + 1 ∧
          ¬ (e.Geolocation = 2 ∧ geolocation = 5)) ∧
    (∀ providers : List StakeEntry, GetPairingForClient k chainID clientAddress = .ok providers →
      ∃ possibleProviders clientStakeEntry,
        k.GetEpochStakeEntries k.GetEpochStart .ProviderKey chainID = some possibleProviders ∧
        VerifyPairingData k chainID clientAddress k.GetEpochStart = .ok clientStakeEntry ∧
        ∀ e ∈ providers,
          (e ∈ possibleProviders ∧ e.Deadline ≤ toUint64 k.BlockHeight ∧
            e.Geolocation &&& clientStakeEntry.Geolocation ≠ 0) ∧
          e.Deadline ≠ toUint64 k.BlockHeight + 1 ∧
          ¬ (e.Geolocation = 2 ∧ clientStakeEntry.Geolocation = 5)) := by
  have key : ∀ (providers : List StakeEntry) (epochStartBlock geolocation : Nat)
      (validProviders : List StakeEntry) (addrList : List (List Nat)),
      calculatePairingForClient k providers clientAddress epochStartBlock chainID geolocation =
          .ok (validProviders, addrList) →
        ∀ e ∈ validProviders,
          (e ∈ providers ∧ e.Deadline ≤ toUint64 k.BlockHeight ∧
            e.Geolocation &&& geolocation ≠ 0) ∧
          e.Deadline ≠ toUint64 k.BlockHeight + 1 ∧
          ¬ (e.Geolocation = 2 ∧ geolocation = 5) := by
    intro providers epochStartBlock geolocation validProviders addrList h e he
    have hm := calculatePairing_mem k providers clientAddress epochStartBlock chainID geolocation
      validProviders addrList h e he
    refine ⟨hm, by omega, ?_⟩
    rintro ⟨h2, h5⟩
    apply hm.2.2
    rw [h2, h5]
    decide
  refine ⟨key, ?_⟩
  intro providers h
  unfold GetPairingForClient at h
  cases hv : VerifyPairingData k chainID clientAddress k.GetEpochStart with
  | panic => simp [hv] at h
  | err e => simp [hv] at h
  | ok clientStakeEntry =>
    simp only [hv] at h
    cases hp : k.GetEpochStakeEntries k.GetEpochStart .ProviderKey chainID with
    | none => simp [hp] at h
    | some possibleProviders =>
      simp only [hp] at h
      cases hc : calculatePairingForClient k possibleProviders clientAddress k.GetEpochStart
          chainID clientStakeEntry.Geolocation with
      | panic => simp [hc] at h
      | err e => simp [hc] at h
      | ok res =>
        obtain ⟨vp, al⟩ := res
        simp only [hc, Result.ok.injEq] at h
        subst h
        exact ⟨possibleProviders, clientStakeEntry, rfl, rfl, key _ _ _ _ _ hc⟩

theorem findClientStakeEntry_ok (k : Keeper) (chainID : String) (clientAddress : List Nat)
    (block : Nat) (entries : List StakeEntry) (e : StakeEntry)
    (h : findClientStakeEntry k chainID clientAddress block entries = .ok e) :
    e ∈ entries ∧ k.AccAddressFromBech32 e.Address = some clientAddress ∧ e.Deadline ≤ block := by
  induction entries with
  | nil => simp [findClientStakeEntry] at h
  | cons x rest ih =>
    simp only [findClientStakeEntry] at h
    cases ha : k.AccAddressFromBech32 x.Address with
    | none => simp [ha] at h
    | some addr =>
      simp only [ha] at h
      by_cases heq : addr = clientAddress
      · simp only [heq, if_true] at h
        by_cases hd : x.Deadline > block
        · simp [hd] at h
        · simp only [hd, if_false, Result.ok.injEq] at h
          subst h
          exact ⟨List.mem_cons_self _ _, by rw [ha, heq], by omega⟩
      · simp only [heq, if_false] at h
        obtain ⟨h1, h2⟩ := ih h
        exact ⟨List.mem_cons_of_mem _ h1, h2⟩

/-- C8: whenever `VerifyPairingData(chainID, client, block)` returns an entry,
that entry belongs to the client snapshot of (epoch start of `block`,
`chainID`), its address decodes to `client` and its deadline is at most
`block`. -/
theorem verifyPairingData_ok (k : Keeper) (chainID : String) (clientAddress : List Nat)
    (block : Nat) (clientStakeEntry : StakeEntry)
    (h : VerifyPairingData k chainID clientAddress block = .ok clientStakeEntry) :
    ∃ requestedEpochStart userStakedEntries,
      k.GetEpochStartForBlock block = .ok requestedEpochStart ∧
      k.GetEpochStakeEntries requestedEpochStart .ClientKey chainID = some userStakedEntries ∧
      clientStakeEntry ∈ userStakedEntries ∧
      k.AccAddressFromBech32 clientStakeEntry.Address = some clientAddress ∧
      clientStakeEntry.Deadline ≤ block := by
  unfold VerifyPairingData at h
  by_cases h1 : k.IsSpecFoundAndActive chainID
  · by_cases h2 : block < k.GetEarliestEpochStart
    · simp [h1, h2] at h
    · simp only [h1, h2, Bool.not_true, Bool.false_eq_true, if_false] at h
      cases h3 : k.GetEpochStartForBlock block with
      | error e => simp [h3] at h
      | ok req =>
        simp only [h3] at h
        by_cases h4 : req > k.GetEpochStart
        · simp [h4] at h
        · simp only [h4, if_false] at h
          cases h5 : k.BlocksToSave (toUint64 k.BlockHeight) with
          | error e => simp [h5] at h
          | ok bts =>
            simp only [h5] at h
            by_cases h6 : (req + bts) % 18446744073709551616 < k.GetEpochStart
            · simp [h6] at h
            · simp only [h6, if_false] at h
              cases h7 : k.GetEpochStakeEntries req .ClientKey chainID with
              | none => simp [h7] at h
              | some entries =>
                simp only [h7] at h
                exact ⟨req, entries, rfl, h7,
                  findClientStakeEntry_ok k chainID clientAddress block entries _ h⟩
  · simp [h1] at h

/-- C8, in the scenario: the entry of the client has deadline 20 and is
accepted at block 20. -/
theorem verifyPairingData_ok_witness :
    ∃ requestedEpochStart userStakedEntries,
      scenarioKeeper.GetEpochStartForBlock 20 = .ok requestedEpochStart ∧
      scenarioKeeper.GetEpochStakeEntries requestedEpochStart .ClientKey "ETH1" =
        some userStakedEntries ∧
      scenarioClientEntry ∈ userStakedEntries ∧
      scenarioKeeper.AccAddressFromBech32 scenarioClientEntry.Address = some scenarioClient ∧
      scenarioClientEntry.Deadline ≤ 20 :=
  verifyPairingData_ok scenarioKeeper "ETH1" scenarioClient 20 scenarioClientEntry (by decide!)

/-! ## The scenario, evaluated through the theorems above -/

/-- C6, in the scenario: the epoch start is the current height and the pairing count
is 2: the list handed to the selection is the filtered snapshot. -/
theorem calculatePairing_candidates_witness :
    calculatePairingForClient scenarioKeeper
        [provider1, providerLate, provider2, providerFar, provider3] scenarioClient 20 "ETH1" 5 =
      withAddrList scenarioKeeper
        (returnSubsetOfProvidersByStake scenarioKeeper scenarioClient
          ([provider1, providerLate, provider2, providerFar, provider3].filter (fun e =>
            decide (e.Deadline ≤ toUint64 scenarioKeeper.BlockHeight) &&
              decide (e.Geolocation &&& 5 ≠ 0)))
          2 20 "ETH1") :=
  (calculatePairing_candidates scenarioKeeper
    [provider1, providerLate, provider2, providerFar, provider3] scenarioClient 20 "ETH1"
    5).2.2.2 (by decide) 2 rfl

/-- C7, in the scenario: `GetPairingForClient` returns the providers of stakes 700
and 100; the late provider and the one without a common geolocation bit, both
of stake 5000, are not returned. -/
theorem pairing_only_eligible_witness :
    ∃ possibleProviders clientStakeEntry,
      scenarioKeeper.GetEpochStakeEntries scenarioKeeper.GetEpochStart .ProviderKey "ETH1" =
        some possibleProviders ∧
      VerifyPairingData scenarioKeeper "ETH1" scenarioClient scenarioKeeper.GetEpochStart =
        .ok clientStakeEntry ∧
      ∀ e ∈ [provider3, provider1],
        (e ∈ possibleProviders ∧ e.Deadline ≤ toUint64 scenarioKeeper.BlockHeight ∧
          e.Geolocation &&& clientStakeEntry.Geolocation ≠ 0) ∧
        e.Deadline ≠ toUint64 scenarioKeeper.BlockHeight + 1 ∧
        ¬ (e.Geolocation = 2 ∧ clientStakeEntry.Geolocation = 5) :=
  (pairing_only_eligible scenarioKeeper "ETH1" scenarioClient).2 [provider3, provider1]
    (by decide!)

/-! ## Order of the checks of `VerifyPairingData` -/

/-- The scan of the client snapshot: entries of other accounts are passed
over, and the first entry of the client decides between the deadline error and
success; without an entry of the client the result is the not-staked error. -/
theorem findClientStakeEntry_cases (k : Keeper) (chainID : String) (clientAddress : List Nat)
    (block : Nat) :
    (∀ entries : List StakeEntry,
      (∀ x ∈ entries, ∃ a, k.AccAddressFromBech32 x.Address = some a ∧ a ≠ clientAddress) →
      findClientStakeEntry k chainID clientAddress block entries =
        .err (.clientNotStaked chainID block)) ∧
    (∀ (pre : List StakeEntry) (e : StakeEntry) (post : List StakeEntry),
      (∀ x ∈ pre, ∃ a, k.AccAddressFromBech32 x.Address = some a ∧ a ≠ clientAddress) →
      k.AccAddressFromBech32 e.Address = some clientAddress →
      findClientStakeEntry k chainID clientAddress block (pre ++ e :: post) =
        if e.Deadline > block then .err (.deadlineBiggerThanBlock e.Deadline block) else .ok e) := by
  constructor
  · intro entries
    induction entries with
    | nil => intro _; rfl
    | cons x rest ih =>
      intro h
      obtain ⟨a, ha, hne⟩ := h x (List.mem_cons_self _ _)
      simp only [findClientStakeEntry, ha, hne, if_false]
      exact ih (fun y hy => h y (List.mem_cons_of_mem _ hy))
  · intro pre
    induction pre with
    | nil =>
      intro e post _ he
      simp [findClientStakeEntry, he]
    | cons x rest ih =>
      intro e post h he
      obtain ⟨a, ha, hne⟩ := h x (List.mem_cons_self _ _)
      simp only [List.cons_append, findClientStakeEntry, ha, hne, if_false]
      exact ih e post (fun y hy => h y (List.mem_cons_of_mem _ hy)) he

/-- C9: `VerifyPairingData` checks its preconditions in the listed order and
returns the error of the first that fails, each of its own kind: a spec that is
not found and active gives the spec error whatever the block; with an active
spec, a block before the earliest saved epoch gives the too-old error; then
come the failure of the epoch lookup, a requested epoch after the current one,
a requested epoch outside the retention window (once the window is read), a
missing client snapshot, and last, over a snapshot whose scanned addresses
decode, client not staked against client found with a deadline after the
block; when nothing fails the entry of the client is returned. -/
theorem verifyPairingData_checks_in_order (k : Keeper) (chainID : String)
    (clientAddress : List Nat) (block : Nat) :
    (k.IsSpecFoundAndActive chainID = false →
      VerifyPairingData k chainID clientAddress block = .err (.specNotFoundAndActive chainID)) ∧
    (k.IsSpecFoundAndActive chainID = true →
      (block < k.GetEarliestEpochStart →
        VerifyPairingData k chainID clientAddress block =
          .err (.blockEarlierThanEarliestSaved block k.GetEarliestEpochStart)) ∧
      (k.GetEarliestEpochStart ≤ block →
        (∀ e, k.GetEpochStartForBlock block = .error e →
          VerifyPairingData k chainID clientAddress block = .err (.epochStartForBlock e)) ∧
        (∀ requestedEpochStart, k.GetEpochStartForBlock block = .ok requestedEpochStart →
          (k.GetEpochStart < requestedEpochStart →
            VerifyPairingData k chainID clientAddress block =
              .err (.requestedEpochTooNew block requestedEpochStart k.GetEpochStart)) ∧
          (requestedEpochStart ≤ k.GetEpochStart →
            ∀ blocksToSave, k.BlocksToSave (toUint64 k.BlockHeight) = .ok blocksToSave →
            ((requestedEpochStart + blocksToSave) % 18446744073709551616 < k.GetEpochStart →
              VerifyPairingData k chainID clientAddress block =
                .err (.earlierByMoreThanBlocksToSave requestedEpochStart k.GetEpochStart
                  blocksToSave)) ∧
            (k.GetEpochStart ≤ (requestedEpochStart + blocksToSave) % 18446744073709551616 →
              (k.GetEpochStakeEntries requestedEpochStart .ClientKey chainID = none →
                VerifyPairingData k chainID clientAddress block =
                  .err (.noEpochStakeEntries chainID requestedEpochStart)) ∧
              (∀ userStakedEntries,
                k.GetEpochStakeEntries requestedEpochStart .ClientKey chainID =
                  some userStakedEntries →
                ((∀ x ∈ userStakedEntries,
                    ∃ a, k.AccAddressFromBech32 x.Address = some a ∧ a ≠ clientAddress) →
                  VerifyPairingData k chainID clientAddress block =
                    .err (.clientNotStaked chainID block)) ∧
                (∀ pre e post, userStakedEntries = pre ++ e :: post →
                  (∀ x ∈ pre,
                    ∃ a, k.AccAddressFromBech32 x.Address = some a ∧ a ≠ clientAddress) →
                  k.AccAddressFromBech32 e.Address = some clientAddress →
                  (block < e.Deadline →
                    VerifyPairingData k chainID clientAddress block =
                      .err (.deadlineBiggerThanBlock e.Deadline block)) ∧
                  (e.Deadline ≤ block →
                    VerifyPairingData k chainID clientAddress block = .ok e)))))))) ∧
    (∀ (e1 e2 : String) (b1 b2 b3 b4 b5 b6 b7 b8 b9 b10 : Nat) (c1 c2 c3 : String),
      [PairingError.specNotFoundAndActive c1, .blockEarlierThanEarliestSaved b1 b2,
        .epochStartForBlock e1, .requestedEpochTooNew b3 b4 b5, .blocksToSave e2,
        .earlierByMoreThanBlocksToSave b6 b7 b8, .noEpochStakeEntries c2 b9,
        .clientNotStaked c3 b10, .deadlineBiggerThanBlock b1 b2].Pairwise (fun a b => a ≠ b)) := by
  refine ⟨?_, ?_, ?_⟩
  · intro h1
    simp [VerifyPairingData, h1]
  · intro h1
    refine ⟨?_, ?_⟩
    · intro h2
      simp [VerifyPairingData, h1, h2]
    · intro h2
      have h2n : ¬ block < k.GetEarliestEpochStart := by omega
      refine ⟨?_, ?_⟩
      · intro e h3
        simp [VerifyPairingData, h1, h2n, h3]
      · intro req h3
        refine ⟨?_, ?_⟩
        · intro h4
          simp [VerifyPairingData, h1, h2n, h3, h4]
        · intro h4 bts h5
          have h4n : ¬ req > k.GetEpochStart := by omega
          refine ⟨?_, ?_⟩
          · intro h6
            simp [VerifyPairingData, h1, h2n, h3, h4n, h5, h6]
          · intro h6
            have h6n : ¬ (req + bts) % 18446744073709551616 < k.GetEpochStart := by omega
            refine ⟨?_, ?_⟩
            · intro h7
              simp [VerifyPairingData, h1, h2n, h3, h4n, h5, h6n, h7]
            · intro entries h7
              have hv : VerifyPairingData k chainID clientAddress block =
                  findClientStakeEntry k chainID clientAddress block entries := by
                simp [VerifyPairingData, h1, h2n, h3, h4n, h5, h6n, h7]
              rw [hv]
              obtain ⟨hA, hB⟩ := findClientStakeEntry_cases k chainID clientAddress block
              refine ⟨hA entries, ?_⟩
              intro pre e post hsplit hpre he
              rw [hsplit, hB pre e post hpre he]
              refine ⟨?_, ?_⟩
              · intro hd
                simp [hd]
              · intro hd
                have : ¬ e.Deadline > block := by omega
                simp [this]
  · intro e1 e2 b1 b2 b3 b4 b5 b6 b7 b8 b9 b10 c1 c2 c3
    simp

/-- C9, in the scenario: every check passes and the entry of the client, whose
deadline is the block itself, is returned. -/
theorem verifyPairingData_checks_in_order_witness :
    VerifyPairingData scenarioKeeper "ETH1" scenarioClient 20 = .ok scenarioClientEntry :=
  ((((((((verifyPairingData_checks_in_order scenarioKeeper "ETH1" scenarioClient 20).2.1
    (by decide)).2 (by decide)).2 20 rfl).2 (by decide) 100 rfl).2
    (by decide)).2 [scenarioClientEntry] (by decide)).2 [] scenarioClientEntry [] rfl
    (by intro x hx; cases hx) (by decide)).2 (by decide)

/-- C10, at the failing input: requested epoch start 10, current epoch start
20 and a retention window of `2 ^ 64 - 5` blocks. The request is within the
window (`20 - 10 ≤ 2 ^ 64 - 5`), all earlier checks pass, and
`VerifyPairingData` rejects it as outside the window, because the sum
`10 + (2 ^ 64 - 5)` wraps to 5 in 64 bits. -/
theorem retention_check_wraps :
    wideRetentionKeeper.IsSpecFoundAndActive "ETH1" = true ∧
    wideRetentionKeeper.GetEarliestEpochStart ≤ 10 ∧
    wideRetentionKeeper.GetEpochStartForBlock 10 = .ok 10 ∧
    wideRetentionKeeper.GetEpochStart = 20 ∧
    wideRetentionKeeper.BlocksToSave (toUint64 wideRetentionKeeper.BlockHeight) =
      .ok 18446744073709551611 ∧
    18446744073709551611 < 18446744073709551616 ∧
    20 - 10 ≤ 18446744073709551611 ∧
    VerifyPairingData wideRetentionKeeper "ETH1" scenarioClient 10 =
      .err (.earlierByMoreThanBlocksToSave 10 20 18446744073709551611) :=
  ⟨by decide, by decide, rfl, rfl, rfl, by decide, by decide, by decide!⟩

/-- When the sum `requestedEpochStart + blocksToSave` fits 64 bits, the
retention check of `VerifyPairingData` is the exact comparison. -/
theorem retention_check_exact (requestedEpochStart currentEpochStart blocksToSave : Nat)
    (hfit : requestedEpochStart + blocksToSave < 18446744073709551616)
    (hle : requestedEpochStart ≤ currentEpochStart) :
    (requestedEpochStart + blocksToSave) % 18446744073709551616 < currentEpochStart ↔
      blocksToSave < currentEpochStart - requestedEpochStart := by
  rw [Nat.mod_eq_of_lt hfit]
  omega

/-! ## Past-pairing validation -/

/-- The search loop, entered with index `idx`, returns `idx + i` for the first
position `i` that holds the address, and nothing when no position holds it. -/
theorem findProviderIndex_spec (providerAddress : List Nat) (validAddresses : List (List Nat)) :
    ∀ idx : Nat,
      (findProviderIndex providerAddress validAddresses idx = none ∧
        providerAddress ∉ validAddresses) ∨
      (∃ i, findProviderIndex providerAddress validAddresses idx = some (idx + i) ∧
        i < validAddresses.length ∧ validAddresses[i]? = some providerAddress ∧
        ∀ j, j < i → validAddresses[j]? ≠ some providerAddress) := by
  induction validAddresses with
  | nil =>
    intro idx
    exact Or.inl ⟨rfl, List.not_mem_nil _⟩
  | cons a rest ih =>
    intro idx
    by_cases ha : a = providerAddress
    · right
      refine ⟨0, by simp [findProviderIndex, ha], by simp, by simp [ha], ?_⟩
      intro j hj
      omega
    · rcases ih (idx + 1) with ⟨h1, h2⟩ | ⟨i, h1, h2, h3, h4⟩
      · left
        refine ⟨by simp [findProviderIndex, ha, h1], ?_⟩
        intro hmem
        rcases List.mem_cons.1 hmem with h | h
        · exact ha h.symm
        · exact h2 h
      · right
        refine ⟨i + 1, ?_, by simp; omega, by simpa using h3, ?_⟩
        · simp only [findProviderIndex, ha, if_false, h1]
          congr 1
          omega
        · intro j hj
          cases j with
          | zero =>
            simp only [List.getElem?_cons_zero, ne_eq, Option.some.injEq]
            exact ha
          | succ j =>
            simp only [List.getElem?_cons_succ]
            exact h4 j (by omega)

/-- With its lookups successful, `ValidatePairingForClient` answers `true`
with the first position of an address that is in the recomputed list. -/
theorem validatePairing_hit (k : Keeper) (chainID : String)
    (clientAddress providerAddress : List Nat) (block epochStart : Nat) (userStake : StakeEntry)
    (providerStakeEntries validProviders : List StakeEntry) (validAddresses : List (List Nat))
    (h1 : k.GetEpochStartForBlock block = .ok epochStart)
    (h2 : VerifyPairingData k chainID clientAddress epochStart = .ok userStake)
    (h3 : k.GetEpochStakeEntries epochStart .ProviderKey chainID = some providerStakeEntries)
    (h4 : calculatePairingForClient k providerStakeEntries clientAddress epochStart chainID
      userStake.Geolocation = .ok (validProviders, validAddresses))
    (hmem : providerAddress ∈ validAddresses) :
    ∃ i : Nat, i < validAddresses.length ∧ validAddresses[i]? = some providerAddress ∧
      (∀ j, j < i → validAddresses[j]? ≠ some providerAddress) ∧
      ValidatePairingForClient k chainID clientAddress providerAddress block =
        some ⟨true, some userStake, (i : Int), none⟩ := by
  rcases findProviderIndex_spec providerAddress validAddresses 0 with ⟨_, hn⟩ | ⟨i, hf, hi⟩
  · exact absurd hmem hn
  · refine ⟨i, hi.1, hi.2.1, hi.2.2, ?_⟩
    simp only [ValidatePairingForClient, h1, h2, h3, h4, hf, Nat.zero_add]

/-- With its lookups successful, `ValidatePairingForClient` answers `false`
with the index `-2` for an address that is not in the recomputed list. -/
theorem validatePairing_miss (k : Keeper) (chainID : String)
    (clientAddress providerAddress : List Nat) (block epochStart : Nat) (userStake : StakeEntry)
    (providerStakeEntries validProviders : List StakeEntry) (validAddresses : List (List Nat))
    (h1 : k.GetEpochStartForBlock block = .ok epochStart)
    (h2 : VerifyPairingData k chainID clientAddress epochStart = .ok userStake)
    (h3 : k.GetEpochStakeEntries epochStart .ProviderKey chainID = some providerStakeEntries)
    (h4 : calculatePairingForClient k providerStakeEntries clientAddress epochStart chainID
      userStake.Geolocation = .ok (validProviders, validAddresses))
    (hmem : providerAddress ∉ validAddresses) :
    ValidatePairingForClient k chainID clientAddress providerAddress block =
      some ⟨false, some userStake, -2, none⟩ := by
  rcases findProviderIndex_spec providerAddress validAddresses 0 with ⟨hf, _⟩ | ⟨i, _, _, hi, _⟩
  · simp only [ValidatePairingForClient, h1, h2, h3, h4, hf]
    rfl
  · exact absurd (List.getElem?_mem hi) hmem

/-- C11: when none of its lookups fails (the epoch start of the block is found,
the client is verified, the provider snapshot is found and the pairing is
recomputed), `ValidatePairingForClient` returns `(true, client entry, i, no
error)` with `i` the first position of the provider address in the recomputed
address list if the address is in that list, and `(false, client entry, -2, no
error)` otherwise; so the verdict is `true` exactly when the index is not `-2`,
and then the index is a position of the list. -/
theorem validatePairing_result (k : Keeper) (chainID : String)
    (clientAddress providerAddress : List Nat) (block epochStart : Nat) (userStake : StakeEntry)
    (providerStakeEntries validProviders : List StakeEntry) (validAddresses : List (List Nat))
    (h1 : k.GetEpochStartForBlock block = .ok epochStart)
    (h2 : VerifyPairingData k chainID clientAddress epochStart = .ok userStake)
    (h3 : k.GetEpochStakeEntries epochStart .ProviderKey chainID = some providerStakeEntries)
    (h4 : calculatePairingForClient k providerStakeEntries clientAddress epochStart chainID
      userStake.Geolocation = .ok (validProviders, validAddresses)) :
    (providerAddress ∈ validAddresses →
      ∃ i : Nat, i < validAddresses.length ∧ validAddresses[i]? = some providerAddress ∧
        (∀ j, j < i → validAddresses[j]? ≠ some providerAddress) ∧
        ValidatePairingForClient k chainID clientAddress providerAddress block =
          some ⟨true, some userStake, (i : Int), none⟩) ∧
    (providerAddress ∉ validAddresses →
      ValidatePairingForClient k chainID clientAddress providerAddress block =
        some ⟨false, some userStake, -2, none⟩) ∧
    (∃ r, ValidatePairingForClient k chainID clientAddress providerAddress block = some r ∧
      r.errorRet = none ∧ (r.isValidPairing = true ↔ r.foundIndex ≠ -2) ∧
      (r.isValidPairing = true → 0 ≤ r.foundIndex ∧ r.foundIndex < validAddresses.length)) := by
  have hA := validatePairing_hit k chainID clientAddress providerAddress block epochStart
    userStake providerStakeEntries validProviders validAddresses h1 h2 h3 h4
  have hB := validatePairing_miss k chainID clientAddress providerAddress block epochStart
    userStake providerStakeEntries validProviders validAddresses h1 h2 h3 h4
  refine ⟨hA, hB, ?_⟩
  by_cases hmem : providerAddress ∈ validAddresses
  · obtain ⟨i, hi, _, _, hr⟩ := hA hmem
    refine ⟨_, hr, rfl, ?_, ?_⟩
    · simp only [true_iff]
      omega
    · intro _
      simp only
      omega
  · exact ⟨_, hB hmem, rfl, by simp, by simp⟩

/-- C11, in the scenario at block 25: the address of provider 1 is at position
1 of the recomputed pairing. -/
theorem validatePairing_result_witness :
    (stringBytes "provider1" ∈ [stringBytes "provider3", stringBytes "provider1"] →
      ∃ i : Nat, i < [stringBytes "provider3", stringBytes "provider1"].length ∧
        [stringBytes "provider3", stringBytes "provider1"][i]? = some (stringBytes "provider1") ∧
        (∀ j, j < i →
          [stringBytes "provider3", stringBytes "provider1"][j]? ≠
            some (stringBytes "provider1")) ∧
        ValidatePairingForClient scenarioKeeper "ETH1" scenarioClient (stringBytes "provider1")
          25 = some ⟨true, some scenarioClientEntry, (i : Int), none⟩) ∧
    (stringBytes "provider1" ∉ [stringBytes "provider3", stringBytes "provider1"] →
      ValidatePairingForClient scenarioKeeper "ETH1" scenarioClient (stringBytes "provider1") 25 =
        some ⟨false, some scenarioClientEntry, -2, none⟩) ∧
    (∃ r, ValidatePairingForClient scenarioKeeper "ETH1" scenarioClient
        (stringBytes "provider1") 25 = some r ∧
      r.errorRet = none ∧ (r.isValidPairing = true ↔ r.foundIndex ≠ -2) ∧
      (r.isValidPairing = true → 0 ≤ r.foundIndex ∧
        r.foundIndex < [stringBytes "provider3", stringBytes "provider1"].length)) :=
  validatePairing_result scenarioKeeper "ETH1" scenarioClient (stringBytes "provider1") 25 20
    scenarioClientEntry [provider1, providerLate, provider2, providerFar, provider3]
    [provider3, provider1] [stringBytes "provider3", stringBytes "provider1"] rfl (by decide!)
    (by decide) (by decide!)

/-- A successful `GetPairingForClient` went through a verified client, a found
provider snapshot and a computed pairing. -/
theorem getPairingForClient_ok (k : Keeper) (chainID : String) (clientAddress : List Nat)
    (providers : List StakeEntry) (h : GetPairingForClient k chainID clientAddress = .ok providers) :
    ∃ clientStakeEntry possibleProviders addrList,
      VerifyPairingData k chainID clientAddress k.GetEpochStart = .ok clientStakeEntry ∧
      k.GetEpochStakeEntries k.GetEpochStart .ProviderKey chainID = some possibleProviders ∧
      calculatePairingForClient k possibleProviders clientAddress k.GetEpochStart chainID
        clientStakeEntry.Geolocation = .ok (providers, addrList) := by
  unfold GetPairingForClient at h
  cases hv : VerifyPairingData k chainID clientAddress k.GetEpochStart with
  | panic => simp [hv] at h
  | err e => simp [hv] at h
  | ok clientStakeEntry =>
    simp only [hv] at h
    cases hp : k.GetEpochStakeEntries k.GetEpochStart .ProviderKey chainID with
    | none => simp [hp] at h
    | some possibleProviders =>
      simp only [hp] at h
      cases hc : calculatePairingForClient k possibleProviders clientAddress k.GetEpochStart
          chainID clientStakeEntry.Geolocation with
      | panic => simp [hc] at h
      | err e => simp [hc] at h
      | ok res =>
        obtain ⟨vp, al⟩ := res
        simp only [hc, Result.ok.injEq] at h
        subst h
        exact ⟨clientStakeEntry, possibleProviders, al, rfl, rfl, hc⟩

theorem addrListLoop_spec (k : Keeper) (l : List StakeEntry) :
    ∀ acc r : List (List Nat), addrListLoop k l acc = some r →
      r.map some = acc.map some ++ l.map (fun e => k.AccAddressFromBech32 e.Address) := by
  induction l with
  | nil =>
    intro acc r h
    simp only [addrListLoop, Option.some.injEq] at h
    subst h
    simp
  | cons e rest ih =>
    intro acc r h
    simp only [addrListLoop] at h
    cases ha : k.AccAddressFromBech32 e.Address with
    | none => simp [ha] at h
    | some a =>
      simp only [ha] at h
      rw [ih _ _ h]
      simp [ha]

/-- The address list `calculatePairingForClient` returns holds the decoded
addresses of the providers it returns, in the same order. -/
theorem calculatePairing_addrList (k : Keeper) (providers : List StakeEntry)
    (clientAddress : List Nat) (epochStartBlock : Nat) (chainID : String) (geolocation : Nat)
    (validProviders : List StakeEntry) (addrList : List (List Nat))
    (h : calculatePairingForClient k providers clientAddress epochStartBlock chainID geolocation =
      .ok (validProviders, addrList)) :
    addrList.map some = validProviders.map (fun e => k.AccAddressFromBech32 e.Address) := by
  unfold calculatePairingForClient at h
  by_cases hs : epochStartBlock > toUint64 k.BlockHeight
  · simp [hs] at h
  · simp only [hs, if_false] at h
    cases hn : k.ServicersToPairCount epochStartBlock with
    | error e => simp [hn] at h
    | ok n =>
      simp only [hn, withAddrList] at h
      cases hr : returnSubsetOfProvidersByStake k clientAddress
          (validProvidersLoop (toUint64 k.BlockHeight) geolocation providers []) n
          epochStartBlock chainID with
      | none => simp [hr] at h
      | some vp =>
        simp only [hr] at h
        cases ha : addrListLoop k vp [] with
        | none => simp [ha] at h
        | some al =>
          simp only [ha, Result.ok.injEq, Prod.mk.injEq] at h
          obtain ⟨h1, h2⟩ := h
          subst h1 h2
          simpa using addrListLoop_spec k vp [] al ha

/-! ## Round trip between pairing and validation -/

/-- The first position of an address in a list is the only position that holds
it with no earlier position holding it. -/
theorem first_position_unique (l : List (List Nat)) (a : List Nat) (i j : Nat)
    (hi : l[i]? = some a) (hi2 : ∀ m, m < i → l[m]? ≠ some a)
    (hj : l[j]? = some a) (hj2 : ∀ m, m < j → l[m]? ≠ some a) : i = j := by
  rcases Nat.lt_trichotomy i j with h | h | h
  · exact absurd hi (hj2 i h)
  · exact h
  · exact absurd hj (hi2 j h)

/-- C12: in a chain state in which the epoch start of `block` is the current
epoch start, if `GetPairingForClient(chainID, client)` returns the list `L`,
then the addresses of `L` decode, and `ValidatePairingForClient(chainID,
client, a, block)` returns `(true, client entry, i)` without error for the
address `a` at position `i` of `L`, where `i` is the first position holding
`a` (the position of the provider when the addresses of `L` are pairwise
different), and `(false, client entry, -2)` without error for every address
that is not an address of `L`. -/
theorem pairing_validation_round_trip (k : Keeper) (chainID : String)
    (clientAddress : List Nat) (block : Nat) (providers : List StakeEntry)
    (hblock : k.GetEpochStartForBlock block = .ok k.GetEpochStart)
    (hget : GetPairingForClient k chainID clientAddress = .ok providers) :
    ∃ (userStake : StakeEntry) (addrList : List (List Nat)),
      addrList.map some = providers.map (fun e => k.AccAddressFromBech32 e.Address) ∧
      (∀ (i : Nat) (a : List Nat), addrList[i]? = some a →
        (∀ j, j < i → addrList[j]? ≠ some a) →
        ValidatePairingForClient k chainID clientAddress a block =
          some ⟨true, some userStake, (i : Int), none⟩) ∧
      (∀ (i : Nat) (e : StakeEntry), providers[i]? = some e → addrList.Nodup →
        ∃ a, k.AccAddressFromBech32 e.Address = some a ∧
          ValidatePairingForClient k chainID clientAddress a block =
            some ⟨true, some userStake, (i : Int), none⟩) ∧
      (∀ e ∈ providers, ∃ (a : List Nat) (i : Nat),
        k.AccAddressFromBech32 e.Address = some a ∧ addrList[i]? = some a ∧
        ValidatePairingForClient k chainID clientAddress a block =
          some ⟨true, some userStake, (i : Int), none⟩) ∧
      (∀ q, q ∉ addrList →
        ValidatePairingForClient k chainID clientAddress q block =
          some ⟨false, some userStake, -2, none⟩) := by
  obtain ⟨userStake, possibleProviders, addrList, hv, hp, hc⟩ :=
    getPairingForClient_ok k chainID clientAddress providers hget
  have hmap := calculatePairing_addrList k possibleProviders clientAddress k.GetEpochStart
    chainID userStake.Geolocation providers addrList hc
  have hfirst : ∀ (i : Nat) (a : List Nat), addrList[i]? = some a →
      (∀ j, j < i → addrList[j]? ≠ some a) →
      ValidatePairingForClient k chainID clientAddress a block =
        some ⟨true, some userStake, (i : Int), none⟩ := by
    intro i a hi hi2
    obtain ⟨i1, _, h2, h3, h4⟩ := validatePairing_hit k chainID clientAddress a block
      k.GetEpochStart userStake possibleProviders providers addrList hblock hv hp hc
      (List.getElem?_mem hi)
    rw [first_position_unique addrList a i i1 hi hi2 h2 h3]
    exact h4
  have hdecode : ∀ (i : Nat) (e : StakeEntry), providers[i]? = some e →
      ∃ a, k.AccAddressFromBech32 e.Address = some a ∧ addrList[i]? = some a := by
    intro i e hi
    have h1 : (addrList.map some)[i]? =
        (providers.map (fun e => k.AccAddressFromBech32 e.Address))[i]? := by rw [hmap]
    simp only [List.getElem?_map, hi, Option.map_some'] at h1
    cases ha : addrList[i]? with
    | none => simp [ha] at h1
    | some a =>
      simp only [ha, Option.map_some', Option.some.injEq] at h1
      exact ⟨a, h1.symm, rfl⟩
  refine ⟨userStake, addrList, hmap, hfirst, ?_, ?_, ?_⟩
  · intro i e hi hnd
    obtain ⟨a, ha, hai⟩ := hdecode i e hi
    refine ⟨a, ha, hfirst i a hai ?_⟩
    intro j hj hja
    have hlt : j < addrList.length := by
      by_contra hcon
      have : addrList[j]? = none := List.getElem?_eq_none (by omega)
      rw [this] at hja
      cases hja
    have := List.getElem?_inj hlt hnd (hja.trans hai.symm)
    omega
  · intro e he
    obtain ⟨i, hi⟩ := List.getElem?_of_mem he
    obtain ⟨a, ha, hai⟩ := hdecode i e hi
    obtain ⟨i1, _, h2, _, h4⟩ := validatePairing_hit k chainID clientAddress a block
      k.GetEpochStart userStake possibleProviders providers addrList hblock hv hp hc
      (List.getElem?_mem hai)
    exact ⟨a, i1, ha, h2, h4⟩
  · intro q hq
    exact validatePairing_miss k chainID clientAddress q block k.GetEpochStart userStake
      possibleProviders providers addrList hblock hv hp hc hq

/-- C12, in the scenario at block 25, whose epoch starts at the current epoch
start 20: the pairing is providers 3 and 1. -/
theorem pairing_validation_round_trip_witness :
    ∃ (userStake : StakeEntry) (addrList : List (List Nat)),
      addrList.map some =
        [provider3, provider1].map (fun e => scenarioKeeper.AccAddressFromBech32 e.Address) ∧
      (∀ (i : Nat) (a : List Nat), addrList[i]? = some a →
        (∀ j, j < i → addrList[j]? ≠ some a) →
        ValidatePairingForClient scenarioKeeper "ETH1" scenarioClient a 25 =
          some ⟨true, some userStake, (i : Int), none⟩) ∧
      (∀ (i : Nat) (e : StakeEntry), [provider3, provider1][i]? = some e → addrList.Nodup →
        ∃ a, scenarioKeeper.AccAddressFromBech32 e.Address = some a ∧
          ValidatePairingForClient scenarioKeeper "ETH1" scenarioClient a 25 =
            some ⟨true, some userStake, (i : Int), none⟩) ∧
      (∀ e ∈ [provider3, provider1], ∃ (a : List Nat) (i : Nat),
        scenarioKeeper.AccAddressFromBech32 e.Address = some a ∧ addrList[i]? = some a ∧
        ValidatePairingForClient scenarioKeeper "ETH1" scenarioClient a 25 =
          some ⟨true, some userStake, (i : Int), none⟩) ∧
      (∀ q, q ∉ addrList →
        ValidatePairingForClient scenarioKeeper "ETH1" scenarioClient q 25 =
          some ⟨false, some userStake, -2, none⟩) :=
  pairing_validation_round_trip scenarioKeeper "ETH1" scenarioClient 25 [provider3, provider1]
    rfl (by decide!)

/-! ## Residues that select a position -/

/-- Under non-negative stakes the running sum does not grow along the walk:
it is larger at lower positions. -/
theorem runningSum_antitone (k : Keeper) (pm : List StakeEntry) (hnn : NonNegStakes k pm)
    (skip : List Nat) : ∀ d a, runningSum pm skip (a + d) ≤ runningSum pm skip a := by
  intro d
  induction d with
  | zero => intro a; exact le_refl _
  | succ d ih =>
    intro a
    have h1 := ih (a + 1)
    have h2 : runningSum pm skip (a + 1) ≤ runningSum pm skip a := by
      by_cases ha : a < pm.length
      · rw [runningSum_step pm skip a ha]
        have := stakeAt_nonneg k pm hnn a
        by_cases hc : skip.contains a
        · simp only [hc, if_true]
          omega
        · simp only [hc, Bool.false_eq_true, if_false]
          omega
      · rw [runningSum_ge pm skip a (by omega), runningSum_ge pm skip (a + 1) (by omega)]
    have h3 : a + (d + 1) = a + 1 + d := by omega
    rw [h3]
    exact le_trans h1 h2

/-- With nothing selected yet, the walk stops at position `i` exactly for the
residues from the running sum above `i` up to, and without, the running sum at
`i`. -/
theorem walk_eq_iff (k : Keeper) (pm : List StakeEntry) (hnn : NonNegStakes k pm)
    (hfits : SumFits pm) (r : Int) (hr0 : 0 ≤ r) (hr1 : r < runningSum pm [] 0) (i : Nat) :
    walk pm [] r pm.length ⟨k.TokenDenom, 0⟩ = some (some i) ↔
      runningSum pm [] (i + 1) ≤ r ∧ r < runningSum pm [] i := by
  have hw := walk_spec k.TokenDenom pm [] r (denom_of_nonNeg k pm hnn)
    (runningSum_fits k pm hnn hfits []) pm.length (le_refl _)
    ⟨k.TokenDenom, 0⟩ rfl (by simp [runningSum_ge pm [] pm.length (le_refl _)])
    (by intro j hj; rw [runningSum_ge pm [] j hj]; exact hr0)
  rcases hw with ⟨_, h2⟩ | ⟨idx, h1, _, _, h4, h5⟩
  · have := h2 0
    omega
  · constructor
    · intro h
      rw [h1] at h
      have hidx : idx = i := by simpa using h
      subst hidx
      exact ⟨h5 (idx + 1) (by omega), h4⟩
    · rintro ⟨ha, hb⟩
      rcases Nat.lt_trichotomy idx i with h | h | h
      · have := h5 i h
        omega
      · rw [h1, h]
      · have hanti := runningSum_antitone k pm hnn [] (idx - (i + 1)) (i + 1)
        have hidx : i + 1 + (idx - (i + 1)) = idx := by omega
        rw [hidx] at hanti
        omega

/-- On non-negative stakes that sum to less than `2 ^ maxBitLen`, the number of
residues below `S`, the sum of all stakes, at which the walk stops at position
`i` is the stake at `i`. -/
theorem walk_residue_count (k : Keeper) (pm : List StakeEntry) (hnn : NonNegStakes k pm)
    (hfits : SumFits pm) (i : Nat) :
    ((Finset.range (runningSum pm [] 0).toNat).filter
      (fun r : Nat => walk pm [] (r : Int) pm.length ⟨k.TokenDenom, 0⟩ = some (some i))).card =
      (stakeAt pm i).toNat := by
  have hU0 := runningSum_nonneg k pm hnn [] i
  have hU1 := runningSum_nonneg k pm hnn [] (i + 1)
  have hS := runningSum_nonneg k pm hnn [] 0
  have htop := runningSum_antitone k pm hnn [] i 0
  rw [Nat.zero_add] at htop
  have hset : (Finset.range (runningSum pm [] 0).toNat).filter
      (fun r : Nat => walk pm [] (r : Int) pm.length ⟨k.TokenDenom, 0⟩ = some (some i)) =
      Finset.Ico (runningSum pm [] (i + 1)).toNat (runningSum pm [] i).toNat := by
    ext r
    simp only [Finset.mem_filter, Finset.mem_range, Finset.mem_Ico]
    constructor
    · rintro ⟨hr, hw⟩
      have := (walk_eq_iff k pm hnn hfits (r : Int) (by omega) (by omega) i).1 hw
      omega
    · rintro ⟨h1, h2⟩
      have hr : r < (runningSum pm [] 0).toNat := by omega
      exact ⟨hr, (walk_eq_iff k pm hnn hfits (r : Int) (by omega) (by omega) i).2 (by omega)⟩
  rw [hset, Nat.card_Ico]
  by_cases hi : i < pm.length
  · have hstep := runningSum_step pm [] i hi
    simp only [List.contains_nil, Bool.false_eq_true, if_false] at hstep
    omega
  · rw [runningSum_ge pm [] i (by omega), runningSum_ge pm [] (i + 1) (by omega)]
    have : pm[i]? = none := List.getElem?_eq_none (by omega)
    simp [stakeAt, this]

/-- With `count = 1` the selection returns the entry at the position where the
walk stops for the residue of the first hash. -/
theorem returnSubset_one (k : Keeper) (clientAddress : List Nat) (pm : List StakeEntry)
    (block : Nat) (chainID : String) (hash : List Nat) (hnn : NonNegStakes k pm)
    (hfits : SumFits pm) (hS : 0 < runningSum pm [] 0)
    (hblock : k.coreBlock (toInt64 block) = some hash) :
    ∃ idx e,
      walk pm []
        (SetBytes (Sha256.sum (initialHashData hash chainID clientAddress)) % runningSum pm [] 0)
        pm.length ⟨k.TokenDenom, 0⟩ = some (some idx) ∧
      pm[idx]? = some e ∧
      returnSubsetOfProvidersByStake k clientAddress pm 1 block chainID = some [e] := by
  have hsum := sumStakes_of_denom pm ⟨k.TokenDenom, 0⟩ hnn (le_refl _)
    (by simpa [SumFits] using hfits)
  simp only [zero_add] at hsum
  rw [← runningSum_nil_zero] at hsum
  have hnz : (⟨k.TokenDenom, runningSum pm [] 0⟩ : Coin).IsZero = false := by
    simp [Coin.IsZero]; omega
  obtain ⟨hT, hSI⟩ := entry_state_inv k pm _ (initialHashData hash chainID clientAddress) hsum
  obtain ⟨idx, st1, h1, h2, _, _⟩ := iteration_selects k pm _ hnn hfits hSI (by simp; omega)
  obtain ⟨hret, _⟩ := markSelected_returned pm _ st1 idx h2
  have hlt : idx < pm.length := (selectIndex_hit k pm _ idx h1).1
  have hne : runningSum pm [] 0 ≠ 0 := by omega
  refine ⟨idx, pm[idx], ?_, by simp [hlt], ?_⟩
  · simpa [selectIndex, IntMod, hne] using h1
  · rw [returnSubset_eq_forLoop k clientAddress pm 1 block chainID _ hash hsum hnz hblock]
    have hone : (toInt64 1).toNat = 1 := by decide
    have hst1 : st1.returnedProviders = [pm[idx]] := by
      have h3 : st1.returnedProviders.map some = [some pm[idx]] := by
        simpa [hlt] using hret
      cases hl : st1.returnedProviders with
      | nil => simp [hl] at h3
      | cons x rest =>
        simp only [hl, List.map_cons, List.cons.injEq, Option.some.injEq, List.map_eq_nil_iff] at h3
        rw [h3.1, h3.2]
    simp only [hone, forLoop, iteration, h1, h2, afterWalk, hst1, List.length_singleton,
      le_refl, if_true]

/-! ## Proportional selection, denominations, absence of panics -/

/-- C13, as stated for every list of non-negative stakes, fails: two stakes
of `2 ^ 255` are not negative and sum to `S = 2 ^ 256 > 0`, but `sdk.Int.Add`
panics on that sum. The selection with `count = 1` panics in its first loop,
and in the walk no residue selects position 0 (the walk stops at position 1
for `r < 2 ^ 255` and panics for every other `r`), although the stake at
position 0 is `2 ^ 255`. -/
theorem count_one_residues_counterexample :
    NonNegStakes scenarioKeeper [providerHuge1, providerHuge2] ∧
    0 < ([providerHuge1, providerHuge2].map (fun e : StakeEntry => e.Stake.Amount)).sum ∧
    returnSubsetOfProvidersByStake scenarioKeeper scenarioClient [providerHuge1, providerHuge2]
      1 20 "ETH1" = none ∧
    ((Finset.range (([providerHuge1, providerHuge2].map
          (fun e : StakeEntry => e.Stake.Amount)).sum).toNat).filter
        (fun r : Nat =>
          walk [providerHuge1, providerHuge2] [] (r : Int) 2 ⟨scenarioKeeper.TokenDenom, 0⟩ =
            some (some 0))).card = 0 ∧
    (stakeAt [providerHuge1, providerHuge2] 0).toNat ≠ 0 := by
  refine ⟨by unfold NonNegStakes; decide, by decide, by decide, ?_, by decide⟩
  rw [Finset.card_eq_zero, Finset.filter_eq_empty_iff]
  intro r _
  have h1 : [providerHuge1, providerHuge2][1]? = some providerHuge2 := rfl
  have h0 : [providerHuge1, providerHuge2][0]? = some providerHuge1 := rfl
  have hadd1 : Coin.Add ⟨scenarioKeeper.TokenDenom, 0⟩ providerHuge2.Stake =
      some providerHuge2.Stake := by decide
  have hadd0 : Coin.Add providerHuge2.Stake providerHuge1.Stake = none := by decide
  simp only [walk, h1, h0, List.contains_nil, Bool.false_eq_true, if_false, hadd1, hadd0]
  split <;> simp

/-- C13 (amended): for `count = 1` and a candidate list of non-negative stakes
of total `S` with `0 < S < 2 ^ 256` (the sums `sdk.Int.Add` returns), for each
position `i` exactly `stake(i)` of the `S` residues `r` in `[0, S)` make the
last-to-first walk of `returnSubsetOfProvidersByStake` stop at `i`, and the
selection returns the entry at the position where the walk stops for the
residue of the hash of the seed. -/
theorem count_one_residues (k : Keeper) (clientAddress : List Nat)
    (providersMaps : List StakeEntry) (block : Nat) (chainID : String) (hash : List Nat)
    (hnn : NonNegStakes k providersMaps) (hfits : SumFits providersMaps)
    (hS : 0 < (providersMaps.map (fun e : StakeEntry => e.Stake.Amount)).sum)
    (hblock : k.coreBlock (toInt64 block) = some hash) :
    (∀ i, ((Finset.range ((providersMaps.map (fun e : StakeEntry => e.Stake.Amount)).sum).toNat).filter
        (fun r : Nat =>
          walk providersMaps [] (r : Int) providersMaps.length ⟨k.TokenDenom, 0⟩ =
            some (some i))).card = (stakeAt providersMaps i).toNat) ∧
    ∃ idx e,
      walk providersMaps []
        (SetBytes (Sha256.sum (initialHashData hash chainID clientAddress)) %
          (providersMaps.map (fun e : StakeEntry => e.Stake.Amount)).sum)
        providersMaps.length ⟨k.TokenDenom, 0⟩ = some (some idx) ∧
      providersMaps[idx]? = some e ∧
      returnSubsetOfProvidersByStake k clientAddress providersMaps 1 block chainID =
        some [e] := by
  rw [← runningSum_nil_zero] at hS ⊢
  exact ⟨walk_residue_count k providersMaps hnn hfits,
    returnSubset_one k clientAddress providersMaps block chainID hash hnn hfits hS hblock⟩

/-- C13 (amended), at scenario 1 of the specification: 100, 200 and 700 of the
1000 residues select the three providers. -/
theorem count_one_residues_witness :
    (∀ i, ((Finset.range ((scenarioProviders.map (fun e : StakeEntry => e.Stake.Amount)).sum).toNat).filter
        (fun r : Nat =>
          walk scenarioProviders [] (r : Int) scenarioProviders.length
            ⟨scenarioKeeper.TokenDenom, 0⟩ = some (some i))).card =
        (stakeAt scenarioProviders i).toNat) ∧
    ∃ idx e,
      walk scenarioProviders []
        (SetBytes (Sha256.sum
            (initialHashData (List.replicate 31 0 ++ [1]) "ETH1" scenarioClient)) %
          (scenarioProviders.map (fun e : StakeEntry => e.Stake.Amount)).sum)
        scenarioProviders.length ⟨scenarioKeeper.TokenDenom, 0⟩ = some (some idx) ∧
      scenarioProviders[idx]? = some e ∧
      returnSubsetOfProvidersByStake scenarioKeeper scenarioClient scenarioProviders 1 20
        "ETH1" = some [e] :=
  count_one_residues scenarioKeeper scenarioClient scenarioProviders 20 "ETH1"
    (List.replicate 31 0 ++ [1]) (by unfold NonNegStakes; decide) (by unfold SumFits; decide)
    (by decide) (by decide)

/-- C14: a candidate list whose stakes are not all of one denomination makes
`returnSubsetOfProvidersByStake` panic in its first loop, so it yields no
selection, and `calculatePairingForClient` yields no pairing when the list it
filtered is such a list. -/
theorem mixed_denominations_rejected (k : Keeper) (clientAddress : List Nat)
    (providersMaps : List StakeEntry) (count block : Nat) (chainID : String)
    (hmixed : ∃ e1 ∈ providersMaps, ∃ e2 ∈ providersMaps, e1.Stake.Denom ≠ e2.Stake.Denom) :
    returnSubsetOfProvidersByStake k clientAddress providersMaps count block chainID = none ∧
    ∀ (providers : List StakeEntry) (epochStartBlock geolocation : Nat),
      validProvidersLoop (toUint64 k.BlockHeight) geolocation providers [] = providersMaps →
      ∀ res, calculatePairingForClient k providers clientAddress epochStartBlock chainID
        geolocation ≠ .ok res := by
  have hsum : sumStakes providersMaps ⟨k.TokenDenom, 0⟩ = none := by
    cases hs : sumStakes providersMaps ⟨k.TokenDenom, 0⟩ with
    | none => rfl
    | some s =>
      obtain ⟨e1, h1, e2, h2, hne⟩ := hmixed
      have hd := (sumStakes_eq providersMaps _ _ hs).1
      exact absurd ((hd e1 h1).trans (hd e2 h2).symm) hne
  have hnone : ∀ c b, returnSubsetOfProvidersByStake k clientAddress providersMaps c b chainID =
      none := by
    intro c b
    simp [returnSubsetOfProvidersByStake, hsum]
  refine ⟨hnone count block, ?_⟩
  intro providers epochStartBlock geolocation hvalid res
  unfold calculatePairingForClient
  by_cases hs : epochStartBlock > toUint64 k.BlockHeight
  · simp [hs]
  · simp only [hs, if_false]
    cases hn : k.ServicersToPairCount epochStartBlock with
    | error e => simp
    | ok n => simp [hvalid, hnone, withAddrList]

/-- C14, at a list of two denominations. -/
theorem mixed_denominations_rejected_witness :
    returnSubsetOfProvidersByStake scenarioKeeper scenarioClient
        [provider1, providerOtherDenom, provider3] 2 20 "ETH1" = none ∧
    ∀ (providers : List StakeEntry) (epochStartBlock geolocation : Nat),
      validProvidersLoop (toUint64 scenarioKeeper.BlockHeight) geolocation providers [] =
        [provider1, providerOtherDenom, provider3] →
      ∀ res, calculatePairingForClient scenarioKeeper providers scenarioClient epochStartBlock
        "ETH1" geolocation ≠ .ok res :=
  mixed_denominations_rejected scenarioKeeper scenarioClient
    [provider1, providerOtherDenom, provider3] 2 20 "ETH1"
    ⟨provider1, by decide, providerOtherDenom, by decide, by decide⟩

/-- Under non-negative stakes that sum to less than `2 ^ maxBitLen` the outer
loop ends without a panic, whatever the count. -/
theorem forLoop_isSome (k : Keeper) (pm : List StakeEntry) (count : Nat)
    (hnn : NonNegStakes k pm) (hfits : SumFits pm) :
    ∀ fuel it st, Tracks pm st → SumInv k pm st → st.stakeSum.Amount ≠ 0 →
      ∃ out, forLoop k pm count fuel it st = some out := by
  intro fuel
  induction fuel with
  | zero => intro it st _ _ _; exact ⟨_, rfl⟩
  | succ fuel ih =>
    intro it st ht hs hne
    obtain ⟨idx, st1, h1, h2, _, h4⟩ := iteration_selects k pm st hnn hfits hs hne
    obtain ⟨ht1, _, _, hs1⟩ := markSelected_spec k pm st st1 idx h2 h4 ht
    have hiter : iteration k pm count it st = afterWalk count it st1 := by
      simp [iteration, h1, h2]
    simp only [forLoop, hiter]
    unfold afterWalk
    by_cases hc : count ≤ st1.returnedProviders.length
    · simp only [hc, if_true]
      exact ⟨_, rfl⟩
    · simp only [hc, if_false]
      by_cases hz : st1.stakeSum.IsZero
      · simp only [hz, if_true]
        exact ⟨_, rfl⟩
      · simp only [hz, Bool.false_eq_true, if_false]
        have hne1 : st1.stakeSum.Amount ≠ 0 := by simpa [Coin.IsZero] using hz
        exact ih (it + 1) _ ht1 (hs1 hs) hne1

/-- On non-negative stakes of the module's denomination that sum to less than
`2 ^ maxBitLen`, with the epoch-start block available, the selection does not
panic, whatever the count. -/
theorem returnSubset_isSome (k : Keeper) (clientAddress : List Nat) (pm : List StakeEntry)
    (count block : Nat) (chainID : String) (hnn : NonNegStakes k pm) (hfits : SumFits pm)
    (hb : k.coreBlock (toInt64 block) ≠ none) :
    ∃ out, returnSubsetOfProvidersByStake k clientAddress pm count block chainID = some out := by
  have hsum := sumStakes_of_denom pm ⟨k.TokenDenom, 0⟩ hnn (le_refl _)
    (by simpa [SumFits] using hfits)
  simp only [zero_add] at hsum
  unfold returnSubsetOfProvidersByStake
  rw [hsum]
  simp only
  by_cases hz : (pm.map (fun e => e.Stake.Amount)).sum = 0
  · exact ⟨[], by simp [Coin.IsZero, hz]⟩
  · obtain ⟨hash, hhash⟩ := Option.ne_none_iff_exists'.1 hb
    simp only [Coin.IsZero, hz, decide_False, Bool.false_eq_true, if_false, hhash]
    exact forLoop_isSome k pm count hnn hfits _ 0 _ ⟨List.nodup_nil, rfl⟩
      ⟨rfl, by simp [runningSum_nil_zero]⟩ hz

/-- A part of a list of non-negative stakes sums to no more than the list. -/
theorem sumFits_filter (l : List StakeEntry) (p : StakeEntry → Bool)
    (h0 : ∀ e ∈ l, 0 ≤ e.Stake.Amount) (hfits : SumFits l) : SumFits (l.filter p) := by
  unfold SumFits at *
  have hle : ((l.filter p).map (fun e => e.Stake.Amount)).sum ≤
      (l.map (fun e => e.Stake.Amount)).sum := by
    apply List.Sublist.sum_le_sum ((List.filter_sublist l).map _)
    intro x hx
    obtain ⟨e, he, rfl⟩ := List.mem_map.1 hx
    exact h0 e he
  omega

theorem addrListLoop_isSome (k : Keeper) (l : List StakeEntry)
    (h : ∀ e ∈ l, k.AccAddressFromBech32 e.Address ≠ none) :
    ∀ acc, ∃ r, addrListLoop k l acc = some r := by
  induction l with
  | nil => intro acc; exact ⟨acc, rfl⟩
  | cons e rest ih =>
    intro acc
    obtain ⟨a, ha⟩ := Option.ne_none_iff_exists'.1 (h e (List.mem_cons_self _ _))
    simp only [addrListLoop, ha]
    exact ih (fun x hx => h x (List.mem_cons_of_mem _ hx)) _

theorem findClientStakeEntry_ne_panic (k : Keeper) (chainID : String) (clientAddress : List Nat)
    (block : Nat) (entries : List StakeEntry)
    (h : ∀ e ∈ entries, k.AccAddressFromBech32 e.Address ≠ none) :
    findClientStakeEntry k chainID clientAddress block entries ≠ .panic := by
  induction entries with
  | nil => simp [findClientStakeEntry]
  | cons e rest ih =>
    obtain ⟨a, ha⟩ := Option.ne_none_iff_exists'.1 (h e (List.mem_cons_self _ _))
    simp only [findClientStakeEntry, ha]
    by_cases heq : a = clientAddress
    · by_cases hd : e.Deadline > block <;> simp [heq, hd]
    · simp only [heq, if_false]
      exact ih (fun x hx => h x (List.mem_cons_of_mem _ hx))

theorem verifyPairingData_ne_panic (k : Keeper) (chainID : String) (clientAddress : List Nat)
    (block : Nat)
    (h : ∀ epoch entries, k.GetEpochStakeEntries epoch .ClientKey chainID = some entries →
      ∀ e ∈ entries, k.AccAddressFromBech32 e.Address ≠ none) :
    VerifyPairingData k chainID clientAddress block ≠ .panic := by
  unfold VerifyPairingData
  by_cases h1 : k.IsSpecFoundAndActive chainID
  · by_cases h2 : block < k.GetEarliestEpochStart
    · simp [h1, h2]
    · simp only [h1, h2, Bool.not_true, Bool.false_eq_true, if_false]
      cases h3 : k.GetEpochStartForBlock block with
      | error e => simp
      | ok req =>
        simp only
        by_cases h4 : req > k.GetEpochStart
        · simp [h4]
        · simp only [h4, if_false]
          cases h5 : k.BlocksToSave (toUint64 k.BlockHeight) with
          | error e => simp
          | ok bts =>
            simp only
            by_cases h6 : (req + bts) % 18446744073709551616 < k.GetEpochStart
            · simp [h6]
            · simp only [h6, if_false]
              cases h7 : k.GetEpochStakeEntries req .ClientKey chainID with
              | none => simp
              | some entries =>
                exact findClientStakeEntry_ne_panic k chainID clientAddress block entries
                  (h req entries h7)
  · simp [h1]

theorem calculatePairing_ne_panic (k : Keeper) (providers : List StakeEntry)
    (clientAddress : List Nat) (epochStartBlock : Nat) (chainID : String) (geolocation : Nat)
    (hstart : epochStartBlock ≤ toUint64 k.BlockHeight)
    (hwf : ∀ e ∈ providers, k.AccAddressFromBech32 e.Address ≠ none ∧
      e.Stake.Denom = k.TokenDenom ∧ 0 ≤ e.Stake.Amount)
    (hfits : SumFits providers)
    (hb : k.coreBlock (toInt64 epochStartBlock) ≠ none) :
    calculatePairingForClient k providers clientAddress epochStartBlock chainID geolocation ≠
      .panic := by
  have hs : ¬ epochStartBlock > toUint64 k.BlockHeight := by omega
  have hf := validProvidersLoop_eq_filter (toUint64 k.BlockHeight) geolocation providers []
  simp only [List.nil_append] at hf
  simp only [calculatePairingForClient, hs, if_false]
  cases hn : k.ServicersToPairCount epochStartBlock with
  | error e => simp
  | ok n =>
    simp only
    have hnn : NonNegStakes k
        (validProvidersLoop (toUint64 k.BlockHeight) geolocation providers []) := by
      intro e he
      rw [hf] at he
      exact (hwf e (List.mem_filter.1 he).1).2
    have hfits2 : SumFits
        (validProvidersLoop (toUint64 k.BlockHeight) geolocation providers []) := by
      rw [hf]
      exact sumFits_filter providers _ (fun e he => (hwf e he).2.2) hfits
    obtain ⟨out, hout⟩ := returnSubset_isSome k clientAddress _ n epochStartBlock chainID hnn
      hfits2 hb
    obtain ⟨idxs, _, hmap⟩ := returnSubset_positions k clientAddress _ n epochStartBlock
      chainID out hout
    have hdec : ∀ e ∈ out, k.AccAddressFromBech32 e.Address ≠ none := by
      intro e he
      have hmem := mem_of_positions _ out idxs hmap e he
      rw [hf] at hmem
      exact (hwf e (List.mem_filter.1 hmem).1).1
    obtain ⟨al, hal⟩ := addrListLoop_isSome k out hdec []
    simp [hout, withAddrList, hal]

/-! ## Absence of panics on well-formed inputs -/

/-- Every iteration of the selection loop is entered with a non-zero `stakeSum`. -/
theorem iterationState_nonzero (k : Keeper) (pm : List StakeEntry) (count : Nat)
    (init : LoopState) (hT : Tracks pm init) (h0 : init.stakeSum.Amount ≠ 0) :
    ∀ i st, iterationState k pm count init i = some st → st.stakeSum.Amount ≠ 0 := by
  intro i
  cases i with
  | zero =>
    intro st h
    simp only [iterationState] at h
    by_cases hlt : 0 < (toInt64 count).toNat
    · simp only [hlt, if_true, Option.some.injEq] at h
      subst h
      exact h0
    · simp [hlt] at h
  | succ i =>
    intro st h
    obtain ⟨st0, hst0, hi, _⟩ := iterationState_succ k pm count init i st h
    have hT0 : Tracks pm st0 := by
      have : ∀ j s, iterationState k pm count init j = some s → Tracks pm s := by
        intro j
        induction j with
        | zero =>
          intro s hs
          simp only [iterationState] at hs
          by_cases hlt : 0 < (toInt64 count).toNat
          · simp only [hlt, if_true, Option.some.injEq] at hs
            subst hs
            exact hT
          · simp [hlt] at hs
        | succ j ihj =>
          intro s hs
          obtain ⟨s0, hs0, hj, _⟩ := iterationState_succ k pm count init j s hs
          exact (iteration_next k pm count j s0 s hj (ihj s0 hs0)).1
      exact this i st0 hst0
    exact (iteration_next k pm count i st0 st hi hT0).2.2.2

theorem validatePairing_isSome (k : Keeper) (chainID : String)
    (clientAddress providerAddress : List Nat) (block : Nat)
    (hwf : WellFormedSnapshots k chainID)
    (hfits : ∀ epoch entries, k.GetEpochStakeEntries epoch .ProviderKey chainID = some entries →
      SumFits entries)
    (hepoch : ∀ epochStart, k.GetEpochStartForBlock block = .ok epochStart →
      epochStart ≤ toUint64 k.BlockHeight ∧ k.coreBlock (toInt64 epochStart) ≠ none) :
    ∃ r, ValidatePairingForClient k chainID clientAddress providerAddress block = some r := by
  unfold ValidatePairingForClient
  cases h1 : k.GetEpochStartForBlock block with
  | error e => exact ⟨_, rfl⟩
  | ok epochStart =>
    simp only
    have hv := verifyPairingData_ne_panic k chainID clientAddress epochStart
      (fun epoch entries he e hmem => (hwf epoch .ClientKey entries he e hmem).1)
    cases h2 : VerifyPairingData k chainID clientAddress epochStart with
    | panic => exact absurd h2 hv
    | err e => exact ⟨_, rfl⟩
    | ok userStake =>
      simp only
      cases h3 : k.GetEpochStakeEntries epochStart .ProviderKey chainID with
      | none => exact ⟨_, rfl⟩
      | some providerStakeEntries =>
        simp only
        obtain ⟨hle, hb⟩ := hepoch epochStart h1
        have hc := calculatePairing_ne_panic k providerStakeEntries clientAddress epochStart
          chainID userStake.Geolocation hle (hwf epochStart .ProviderKey providerStakeEntries h3)
          (hfits epochStart providerStakeEntries h3) hb
        cases h4 : calculatePairingForClient k providerStakeEntries clientAddress epochStart
            chainID userStake.Geolocation with
        | panic => exact absurd h4 hc
        | err e => exact ⟨_, rfl⟩
        | ok res =>
          obtain ⟨vp, al⟩ := res
          simp only
          cases findProviderIndex providerAddress al 0 <;> exact ⟨_, rfl⟩

/-- C15, as stated, fails: two provider stakes of `2 ^ 255` are well formed
(addresses decode, stakes not negative and of the module's denomination, epoch
start 20 at height 20, block 20 in the block store), yet their sum needs 257
bits and `sdk.Int.Add` panics in the first loop of the selection; the panic
reaches `calculatePairingForClient` and `ValidatePairingForClient`. -/
theorem no_panic_counterexample :
    WellFormedSnapshots hugeStakeKeeper "ETH1" ∧
    NonNegStakes hugeStakeKeeper [providerHuge1, providerHuge2] ∧
    hugeStakeKeeper.GetEpochStartForBlock 20 = .ok 20 ∧
    20 ≤ toUint64 hugeStakeKeeper.BlockHeight ∧
    hugeStakeKeeper.coreBlock (toInt64 20) ≠ none ∧
    sumStakes [providerHuge1, providerHuge2] ⟨hugeStakeKeeper.TokenDenom, 0⟩ = none ∧
    returnSubsetOfProvidersByStake hugeStakeKeeper scenarioClient [providerHuge1, providerHuge2]
      2 20 "ETH1" = none ∧
    calculatePairingForClient hugeStakeKeeper [providerHuge1, providerHuge2] scenarioClient 20
      "ETH1" 5 = .panic ∧
    ValidatePairingForClient hugeStakeKeeper "ETH1" scenarioClient (stringBytes "providerHuge1")
      20 = none := by
  refine ⟨?_, by unfold NonNegStakes; decide, rfl, by decide, by decide, by decide, by decide,
    by decide, by decide⟩
  intro epoch key entries h
  cases key with
  | ClientKey =>
    have : entries = [scenarioClientEntry] := by
      simpa [hugeStakeKeeper, scenarioKeeper] using h.symm
    subst this
    decide
  | ProviderKey =>
    have : entries = [providerHuge1, providerHuge2] := by
      simpa [hugeStakeKeeper, scenarioKeeper] using h.symm
    subst this
    decide

/-- C15 (amended): on well-formed inputs (every stored address decodes, the
epoch start is not above the current block height, all stakes are non-negative
and of the module's denomination, the block store returns the epoch-start
block) whose provider stakes sum to less than `2 ^ 256`, the largest sum
`sdk.Int.Add` returns, `VerifyPairingData`, `returnSubsetOfProvidersByStake`,
`calculatePairingForClient` and `ValidatePairingForClient` do not panic; in the
selection, once the first loop has summed the stakes, every iteration is
entered with a strictly positive `stakeSum`, so the modulus is not zero, it
finds a position, and the subtraction of the selected stake leaves a
non-negative `stakeSum`. -/
theorem no_panic_on_well_formed (k : Keeper) (chainID : String) (clientAddress : List Nat) :
    (∀ block : Nat,
      (∀ epoch entries, k.GetEpochStakeEntries epoch .ClientKey chainID = some entries →
        ∀ e ∈ entries, k.AccAddressFromBech32 e.Address ≠ none) →
      VerifyPairingData k chainID clientAddress block ≠ .panic) ∧
    (∀ (providersMaps : List StakeEntry) (count block : Nat),
      NonNegStakes k providersMaps → SumFits providersMaps →
      k.coreBlock (toInt64 block) ≠ none →
      returnSubsetOfProvidersByStake k clientAddress providersMaps count block chainID ≠ none) ∧
    (∀ (providersMaps : List StakeEntry) (count : Nat) (stakeSum : Coin) (d : List Nat)
        (i : Nat) (st : LoopState),
      NonNegStakes k providersMaps →
      sumStakes providersMaps ⟨k.TokenDenom, 0⟩ = some stakeSum → stakeSum.IsZero = false →
      iterationState k providersMaps count ⟨[], stakeSum, [], d⟩ i = some st →
      0 < st.stakeSum.Amount ∧
        ∃ idx st1, selectIndex k providersMaps st = some (some idx) ∧
          markSelected providersMaps st idx = some st1 ∧ 0 ≤ st1.stakeSum.Amount) ∧
    (∀ (providers : List StakeEntry) (epochStartBlock geolocation : Nat),
      epochStartBlock ≤ toUint64 k.BlockHeight →
      (∀ e ∈ providers, k.AccAddressFromBech32 e.Address ≠ none ∧
        e.Stake.Denom = k.TokenDenom ∧ 0 ≤ e.Stake.Amount) →
      SumFits providers →
      k.coreBlock (toInt64 epochStartBlock) ≠ none →
      calculatePairingForClient k providers clientAddress epochStartBlock chainID geolocation ≠
        .panic) ∧
    (∀ (providerAddress : List Nat) (block : Nat),
      WellFormedSnapshots k chainID →
      (∀ epoch entries, k.GetEpochStakeEntries epoch .ProviderKey chainID = some entries →
        SumFits entries) →
      (∀ epochStart, k.GetEpochStartForBlock block = .ok epochStart →
        epochStart ≤ toUint64 k.BlockHeight ∧ k.coreBlock (toInt64 epochStart) ≠ none) →
      ValidatePairingForClient k chainID clientAddress providerAddress block ≠ none) := by
  refine ⟨?_, ?_, ?_, ?_, ?_⟩
  · intro block h
    exact verifyPairingData_ne_panic k chainID clientAddress block h
  · intro pm count block hnn hfits hb
    obtain ⟨out, hout⟩ := returnSubset_isSome k clientAddress pm count block chainID hnn hfits hb
    rw [hout]
    simp
  · intro pm count stakeSum d i st hnn hsum hnz hst
    obtain ⟨hT, hS⟩ := entry_state_inv k pm stakeSum d hsum
    have hne0 : stakeSum.Amount ≠ 0 := by simpa [Coin.IsZero] using hnz
    have h0 : overflows (0 : Int) = false := by decide
    have hfits : SumFits pm := by
      have h4 := lt_of_overflows _ (sumStakes_fits pm _ _ hsum h0)
      have htotal := (sumStakes_eq pm _ _ hsum).2.2
      simp only [zero_add] at htotal
      rw [htotal] at h4
      exact h4
    obtain ⟨hT1, hS1, _⟩ := iterationState_inv k pm count _ hT hS i st hst
    have hne := iterationState_nonzero k pm count _ hT hne0 i st hst
    have hge : 0 ≤ st.stakeSum.Amount := by
      rw [hS1.2]; exact runningSum_nonneg k pm hnn _ _
    obtain ⟨idx, st1, h1, h2, _, h4⟩ := iteration_selects k pm st hnn hfits hS1 hne
    obtain ⟨_, _, _, hs1⟩ := markSelected_spec k pm st st1 idx h2 h4 hT1
    refine ⟨by omega, idx, st1, h1, h2, ?_⟩
    rw [(hs1 hS1).2]
    exact runningSum_nonneg k pm hnn _ _
  · intro providers epochStartBlock geolocation hstart hwf hfits hb
    exact calculatePairing_ne_panic k providers clientAddress epochStartBlock chainID geolocation
      hstart hwf hfits hb
  · intro providerAddress block hwf hfits hepoch
    obtain ⟨r, hr⟩ := validatePairing_isSome k chainID clientAddress providerAddress block hwf
      hfits hepoch
    rw [hr]
    simp

/-- The snapshots of the scenario are well formed. -/
theorem scenario_wellFormed : WellFormedSnapshots scenarioKeeper "ETH1" := by
  intro epoch key entries h
  cases key with
  | ClientKey =>
    have : entries = [scenarioClientEntry] := by
      simpa [scenarioKeeper] using h.symm
    subst this
    decide
  | ProviderKey =>
    have : entries = [provider1, providerLate, provider2, providerFar, provider3] := by
      simpa [scenarioKeeper] using h.symm
    subst this
    decide

/-- C15 (amended), in the scenario: the validation of provider 1 at block 25
does not panic. -/
theorem no_panic_on_well_formed_witness :
    ValidatePairingForClient scenarioKeeper "ETH1" scenarioClient (stringBytes "provider1") 25 ≠
      none :=
  (no_panic_on_well_formed scenarioKeeper "ETH1" scenarioClient).2.2.2.2
    (stringBytes "provider1") 25 scenario_wellFormed
    (by
      intro epoch entries h
      have : entries = [provider1, providerLate, provider2, providerFar, provider3] := by
        simpa [scenarioKeeper] using h.symm
      subst this
      unfold SumFits
      decide)
    (by
      intro epochStart h
      have : epochStart = 20 := by
        have h2 : (Except.ok 20 : Except String Nat) = .ok epochStart := h
        cases h2
        rfl
      subst this
      exact ⟨by decide, by decide⟩)

/-! ## The sampling loop of the estimator -/

theorem toInt64_of_lt (x : Nat) (h : x < 9223372036854775808) : toInt64 x = (x : Int) := by
  unfold toInt64
  have h1 : x % 18446744073709551616 = x := Nat.mod_eq_of_lt (by omega)
  simp [h1, h]

theorem addInt64_eq (x y : Int) (h0 : 0 ≤ x + y) (h1 : x + y < 9223372036854775808) :
    addInt64 x y = x + y := by
  unfold addInt64 toUint64
  have h2 : (x + y) % 18446744073709551616 = x + y := Int.emod_eq_of_lt h0 (by omega)
  rw [h2, toInt64_of_lt _ (by omega)]
  omega

theorem sampleStepOf_eq (epochBlocks : Nat) (h : epochBlocks < 9223372036854775808) :
    sampleStepOf epochBlocks = ((max 1 (epochBlocks / 5) : Nat) : Int) := by
  unfold sampleStepOf EpochBlocksDivider MinSampleStep
  by_cases h5 : epochBlocks > 5
  · have hdiv : Int.tdiv (epochBlocks : Int) ((5 : Nat) : Int) = ((epochBlocks / 5 : Nat) : Int) := by
      rw [Int.tdiv_eq_ediv (by omega) (by omega)]
      norm_cast
    simp only [h5, if_true, toInt64_of_lt _ h, hdiv]
    have : 1 ≤ epochBlocks / 5 := by omega
    rw [Nat.max_eq_right this]
  · simp only [h5, if_false]
    have : epochBlocks / 5 ≤ 1 := by omega
    rw [Nat.max_eq_left this]

theorem startBlockOf_eq (prevEpoch : Nat) (h : prevEpoch < 9223372036854775808) :
    startBlockOf prevEpoch = ((max prevEpoch 1 : Nat) : Int) := by
  unfold startBlockOf
  rw [toInt64_of_lt _ h]
  by_cases h0 : prevEpoch = 0
  · subst h0
    simp
  · have h1 : ¬ ((prevEpoch : Int) = 0) := by omega
    have h2 : 1 ≤ prevEpoch := by omega
    simp only [h1, if_false, Nat.max_eq_left h2]

/-- The sampling loop: when it ends without error, every block it sampled has
a positive sample, the value left is at most every sample (and at most the
value it was entered with, when that was positive) and is either the value it
was entered with or one of the samples. -/
theorem sampleLoop_spec {F : Type} [LinearOrder F] (fl : Float64Ops F) (k : Keeper)
    (s E : Int) (hs : 1 ≤ s) (hs2 : s < 4611686018427387904) (hE : E < 4611686018427387904) :
    ∀ (fuel : Nat) (block prevTs : Int) (avg avg1 : F), 0 ≤ block →
      prevTs = timeAt k (block - s) → (avg = fl.ofInt64 0 ∨ fl.ofInt64 0 < avg) →
      sampleLoop fl k s E fuel block prevTs avg = some (none, avg1) →
      (∀ j : Nat, block + j * s < E →
        (k.coreBlockTime (block + j * s)).isSome ∧ fl.ofInt64 0 < sampleAt fl k s (block + j * s) ∧
          avg1 ≤ sampleAt fl k s (block + j * s)) ∧
      (fl.ofInt64 0 < avg → avg1 ≤ avg) ∧
      (avg1 = avg ∨ ∃ j : Nat, block + j * s < E ∧ avg1 = sampleAt fl k s (block + j * s)) ∧
      (fl.ofInt64 0 < avg ∨ block < E → fl.ofInt64 0 < avg1) := by
  intro fuel
  induction fuel with
  | zero =>
    intro block prevTs avg avg1 _ _ _ h
    simp only [sampleLoop] at h
    by_cases hlt : block < E
    · simp [hlt] at h
    · simp only [hlt, if_false, Option.some.injEq, Prod.mk.injEq, true_and] at h
      subst h
      refine ⟨?_, fun _ => le_refl _, Or.inl rfl, ?_⟩
      · intro j hj
        have : 0 ≤ (j : Int) * s := by positivity
        omega
      · rintro (hp | hp)
        · exact hp
        · exact absurd hp hlt
  | succ fuel ih =>
    intro block prevTs avg avg1 hb hprev havg h
    simp only [sampleLoop] at h
    by_cases hlt : block < E
    · simp only [hlt, if_true] at h
      cases hts : k.coreBlockTime block with
      | none => simp [hts] at h
      | some ts =>
        simp only [hts] at h
        have hcur : currentAverageBlockTime fl ts prevTs s = sampleAt fl k s block := by
          simp [sampleAt, timeAt, hts, hprev]
        rw [hcur] at h
        by_cases hle : sampleAt fl k s block ≤ fl.ofInt64 0
        · simp [hle] at h
        · simp only [hle, if_false] at h
          have hpos : fl.ofInt64 0 < sampleAt fl k s block := lt_of_not_le hle
          rw [addInt64_eq block s (by omega) (by omega)] at h
          have hts2 : ts = timeAt k (block + s - s) := by
            simp [timeAt, hts]
          have hnew : fl.ofInt64 0 <
                (if avg > sampleAt fl k s block ∨ avg = fl.ofInt64 0 then sampleAt fl k s block
                  else avg) ∧
              (if avg > sampleAt fl k s block ∨ avg = fl.ofInt64 0 then sampleAt fl k s block
                  else avg) ≤ sampleAt fl k s block ∧
              (fl.ofInt64 0 < avg →
                (if avg > sampleAt fl k s block ∨ avg = fl.ofInt64 0 then sampleAt fl k s block
                  else avg) ≤ avg) := by
            by_cases hc : avg > sampleAt fl k s block ∨ avg = fl.ofInt64 0
            · simp only [hc, if_true]
              refine ⟨hpos, le_refl _, ?_⟩
              intro hav
              rcases hc with hc | hc
              · exact le_of_lt hc
              · rw [hc] at hav
                exact absurd hav (lt_irrefl _)
            · simp only [hc, if_false]
              push_neg at hc
              rcases havg with havg | havg
              · exact absurd havg hc.2
              · exact ⟨havg, hc.1, fun _ => le_refl _⟩
          obtain ⟨hn1, hn2, hn3⟩ := hnew
          obtain ⟨hA, hB, hC, hD⟩ := ih (block + s) ts _ avg1 (by omega) hts2 (Or.inr hn1) h
          have hle1 := hB hn1
          refine ⟨?_, ?_, ?_, fun _ => hD (Or.inl hn1)⟩
          · intro j hj
            cases j with
            | zero =>
              simp only [Nat.cast_zero, zero_mul, add_zero]
              exact ⟨by simp [hts], hpos, le_trans hle1 hn2⟩
            | succ j =>
              have heq : block + ((j + 1 : Nat) : Int) * s = block + s + (j : Int) * s := by
                push_cast
                ring
              rw [heq]
              exact hA j (by rw [← heq]; exact hj)
          · intro hav
            exact le_trans hle1 (hn3 hav)
          · rcases hC with hC | ⟨j, hj1, hj2⟩
            · by_cases hc : avg > sampleAt fl k s block ∨ avg = fl.ofInt64 0
              · right
                refine ⟨0, by simpa using hlt, ?_⟩
                simp only [hc, if_true] at hC
                simpa using hC
              · left
                simp only [hc, if_false] at hC
                exact hC
            · right
              have heq : block + ((j + 1 : Nat) : Int) * s = block + s + (j : Int) * s := by
                push_cast
                ring
              exact ⟨j + 1, by rw [heq]; exact hj1, by rw [heq]; exact hj2⟩
    · simp only [hlt, if_false, Option.some.injEq, Prod.mk.injEq, true_and] at h
      subst h
      refine ⟨?_, fun _ => le_refl _, Or.inl rfl, ?_⟩
      · intro j hj
        have : 0 ≤ (j : Int) * s := by positivity
        omega
      · rintro (hp | hp)
        · exact hp
        · exact absurd hp hlt

/-- The bound on the iterations of the sampling loop is enough: the loop ends. -/
theorem sampleLoop_isSome {F : Type} [LinearOrder F] (fl : Float64Ops F) (k : Keeper)
    (s E : Int) (hs : 1 ≤ s) (hs2 : s < 4611686018427387904) (hE : E < 4611686018427387904) :
    ∀ (fuel : Nat) (block prevTs : Int) (avg : F), 0 ≤ block → (E - block).toNat ≤ fuel →
      ∃ r, sampleLoop fl k s E fuel block prevTs avg = some r := by
  intro fuel
  induction fuel with
  | zero =>
    intro block prevTs avg _ hf
    have hlt : ¬ block < E := by omega
    exact ⟨(none, avg), by simp [sampleLoop, hlt]⟩
  | succ fuel ih =>
    intro block prevTs avg hb hf
    simp only [sampleLoop]
    by_cases hlt : block < E
    · simp only [hlt, if_true]
      cases hts : k.coreBlockTime block with
      | none => exact ⟨_, rfl⟩
      | some ts =>
        simp only
        by_cases hle : currentAverageBlockTime fl ts prevTs s ≤ fl.ofInt64 0
        · simp only [hle, if_true]
          exact ⟨_, rfl⟩
        · simp only [hle, if_false]
          rw [addInt64_eq block s (by omega) (by omega)]
          exact ih _ _ _ (by omega) (by omega)
    · simp only [hlt, if_false]
      exact ⟨_, rfl⟩

/-! ## Average block time and time to the next epoch -/

/-- With the epoch start below `2 ^ 62`, `calculateAverageBlockTime` ends: the
bound on the iterations of its loop is enough. -/
theorem calculateAverageBlockTime_isSome {F : Type} [LinearOrder F] (fl : Float64Ops F)
    (k : Keeper) (averageBlockTime : F) (epoch : Nat) (hE : epoch < 4611686018427387904) :
    ∃ r, calculateAverageBlockTime fl k averageBlockTime epoch = some r := by
  unfold calculateAverageBlockTime
  cases hp : k.GetPreviousEpochStartForBlock epoch with
  | error e => exact ⟨_, rfl⟩
  | ok prev =>
    simp only
    by_cases h1 : epoch < prev
    · simp only [h1, if_true]
      exact ⟨_, rfl⟩
    · simp only [h1, if_false]
      by_cases h2 : MinSampleStep > epoch - prev
      · simp only [h2, if_true]
        exact ⟨_, rfl⟩
      · simp only [h2, if_false]
        cases ht : k.coreBlockTime (startBlockOf prev) with
        | none => exact ⟨_, rfl⟩
        | some ts =>
          simp only
          have hs := sampleStepOf_eq (epoch - prev) (by omega)
          have hst := startBlockOf_eq prev (by omega)
          have hmax1 : (max 1 ((epoch - prev) / 5) : Nat) ≤ max 1 (epoch - prev) :=
            max_le_max (le_refl _) (Nat.div_le_self _ _)
          have hmax2 : (max 1 (epoch - prev) : Nat) < 4611686018427387904 := by
            rcases Nat.le_total 1 (epoch - prev) with h | h
            · rw [Nat.max_eq_right h]; omega
            · rw [Nat.max_eq_left h]; omega
          have hmax3 : 1 ≤ (max 1 ((epoch - prev) / 5) : Nat) := le_max_left _ _
          have hmax4 : (max prev 1 : Nat) ≤ epoch := by
            unfold MinSampleStep at h2
            exact max_le (by omega) (by omega)
          have hmax5 : 1 ≤ (max prev 1 : Nat) := le_max_right _ _
          rw [hs, hst, toInt64_of_lt epoch (by omega),
            addInt64_eq _ _ (by omega) (by omega)]
          exact sampleLoop_isSome fl k _ _ (by omega) (by omega) (by omega) _ _ _ _ (by omega)
            (le_refl _)

/-- What a successful `calculateAverageBlockTime` leaves in `averageBlockTime`:
a value that is at most every sample, that is one of the samples when there is
one, and that is zero when there is none. -/
theorem calculateAverageBlockTime_spec {F : Type} [LinearOrder F] (fl : Float64Ops F)
    (k : Keeper) (averageBlockTime avg : F) (epoch prev : Nat)
    (hprev : k.GetPreviousEpochStartForBlock epoch = .ok prev)
    (hE : epoch < 4611686018427387904)
    (h : calculateAverageBlockTime fl k averageBlockTime epoch = some (none, avg)) :
    (∀ j : Nat, 1 ≤ j →
      startBlockOf prev + j * sampleStepOf (epoch - prev) < epoch →
      avg ≤ sampleAt fl k (sampleStepOf (epoch - prev))
          (startBlockOf prev + j * sampleStepOf (epoch - prev)) ∧
        fl.ofInt64 0 <
          sampleAt fl k (sampleStepOf (epoch - prev))
            (startBlockOf prev + j * sampleStepOf (epoch - prev))) ∧
    ((∃ j : Nat, 1 ≤ j ∧ startBlockOf prev + j * sampleStepOf (epoch - prev) < epoch) →
      fl.ofInt64 0 < avg ∧
      ∃ j : Nat, 1 ≤ j ∧ startBlockOf prev + j * sampleStepOf (epoch - prev) < epoch ∧
        avg = sampleAt fl k (sampleStepOf (epoch - prev))
          (startBlockOf prev + j * sampleStepOf (epoch - prev))) ∧
    ((¬ ∃ j : Nat, 1 ≤ j ∧ startBlockOf prev + j * sampleStepOf (epoch - prev) < epoch) →
      avg = fl.ofInt64 0) := by
  unfold calculateAverageBlockTime at h
  simp only [hprev] at h
  by_cases h1 : epoch < prev
  · simp [h1] at h
  · simp only [h1, if_false] at h
    by_cases h2 : MinSampleStep > epoch - prev
    · simp [h2] at h
    · simp only [h2, if_false] at h
      cases ht : k.coreBlockTime (startBlockOf prev) with
      | none => simp [ht] at h
      | some ts =>
        simp only [ht] at h
        have hs := sampleStepOf_eq (epoch - prev) (by omega)
        have hst := startBlockOf_eq prev (by omega)
        have hmax1 : (max 1 ((epoch - prev) / 5) : Nat) ≤ max 1 (epoch - prev) :=
          max_le_max (le_refl _) (Nat.div_le_self _ _)
        have hmax2 : (max 1 (epoch - prev) : Nat) < 4611686018427387904 := by
          rcases Nat.le_total 1 (epoch - prev) with h | h
          · rw [Nat.max_eq_right h]; omega
          · rw [Nat.max_eq_left h]; omega
        have hmax3 : 1 ≤ (max 1 ((epoch - prev) / 5) : Nat) := le_max_left _ _
        have hmax4 : (max prev 1 : Nat) ≤ epoch := by
          unfold MinSampleStep at h2
          exact max_le (by omega) (by omega)
        have hmax5 : 1 ≤ (max prev 1 : Nat) := le_max_right _ _
        have hsum : addInt64 (startBlockOf prev) (sampleStepOf (epoch - prev)) =
            startBlockOf prev + sampleStepOf (epoch - prev) := by
          rw [hs, hst]
          exact addInt64_eq _ _ (by omega) (by omega)
        rw [hsum, toInt64_of_lt epoch (by omega)] at h
        have hts : ts = timeAt k (startBlockOf prev + sampleStepOf (epoch - prev) -
            sampleStepOf (epoch - prev)) := by
          simp [timeAt, ht]
        obtain ⟨hA, _, hC, hD⟩ := sampleLoop_spec fl k (sampleStepOf (epoch - prev)) (epoch : Int)
          (by rw [hs]; omega) (by rw [hs]; omega) (by omega) _ _ ts (fl.ofInt64 0) avg
          (by rw [hs, hst]; omega) hts (Or.inl rfl) h
        have hshift : ∀ j : Nat, startBlockOf prev + sampleStepOf (epoch - prev) +
            (j : Int) * sampleStepOf (epoch - prev) =
            startBlockOf prev + ((j + 1 : Nat) : Int) * sampleStepOf (epoch - prev) := by
          intro j
          push_cast
          ring
        have hsome : (∃ j : Nat, 1 ≤ j ∧
            startBlockOf prev + j * sampleStepOf (epoch - prev) < epoch) →
            startBlockOf prev + sampleStepOf (epoch - prev) < (epoch : Int) := by
          rintro ⟨j, hj, hlt⟩
          have hmul : sampleStepOf (epoch - prev) ≤ (j : Int) * sampleStepOf (epoch - prev) := by
            have h1 : (1 : Int) ≤ (j : Int) := by omega
            have h0 : (0 : Int) ≤ sampleStepOf (epoch - prev) := by rw [hs]; omega
            nlinarith
          omega
        refine ⟨?_, ?_, ?_⟩
        · intro j hj hlt
          obtain ⟨j0, rfl⟩ : ∃ j0, j = j0 + 1 := ⟨j - 1, by omega⟩
          have := hA j0 (by rw [hshift]; exact hlt)
          rw [hshift] at this
          exact ⟨this.2.2, this.2.1⟩
        · intro hex
          have hpos := hD (Or.inr (hsome hex))
          refine ⟨hpos, ?_⟩
          rcases hC with hC | ⟨j, hj1, hj2⟩
          · rw [hC] at hpos
            exact absurd hpos (lt_irrefl _)
          · rw [hshift] at hj1 hj2
            exact ⟨j + 1, by omega, hj1, hj2⟩
        · intro hno
          rcases hC with hC | ⟨j, hj1, hj2⟩
          · exact hC
          · rw [hshift] at hj1
            exact absurd ⟨j + 1, by omega, hj1⟩ hno

/-- The result of a successful `calculateNextEpochTime`: the blocks up to the
next epoch with the overlap, times `uint64(averageBlockTime)`, in 64 bits. -/
theorem calculateNextEpochTime_ok {F : Type} [LinearOrder F] (fl : Float64Ops F) (k : Keeper)
    (cache cache1 : EpochTimeCache F) (t : Nat)
    (h : calculateNextEpochTime fl k cache = some (.ok t, cache1)) :
    ∃ nextEpochStart, k.GetNextEpoch k.GetEpochStart = .ok nextEpochStart ∧
      t = toUint64 ((nextEpochStart : Int) + k.EpochBlocksOverlap - toUint64 k.BlockHeight) *
        fl.toUint64 cache1.averageBlockTime % 18446744073709551616 ∧
      cache1.latestEpochBlockTimeCalculation = k.GetEpochStart := by
  have htail : ∀ c : EpochTimeCache F, timeLeftToNextEpoch fl k c = (.ok t, cache1) →
      ∃ nextEpochStart, k.GetNextEpoch k.GetEpochStart = .ok nextEpochStart ∧
        t = toUint64 ((nextEpochStart : Int) + k.EpochBlocksOverlap - toUint64 k.BlockHeight) *
          fl.toUint64 cache1.averageBlockTime % 18446744073709551616 ∧ c = cache1 := by
    intro c hc
    unfold timeLeftToNextEpoch at hc
    cases hn : k.GetNextEpoch k.GetEpochStart with
    | error e => simp [hn] at hc
    | ok n =>
      simp only [hn, Prod.mk.injEq, Result.ok.injEq] at hc
      obtain ⟨h1, h2⟩ := hc
      subst h2
      exact ⟨n, rfl, h1.symm, rfl⟩
  unfold calculateNextEpochTime at h
  by_cases hne : k.GetEpochStart ≠ cache.latestEpochBlockTimeCalculation
  · rw [if_pos hne] at h
    cases hc : calculateAverageBlockTime fl k cache.averageBlockTime k.GetEpochStart with
    | none => simp [hc] at h
    | some r =>
      obtain ⟨e, a⟩ := r
      cases e with
      | some e => simp [hc] at h
      | none =>
        simp only [hc, Option.some.injEq] at h
        obtain ⟨n, h1, h2, h3⟩ := htail _ h
        exact ⟨n, h1, h2, by rw [← h3]⟩
  · rw [if_neg hne] at h
    simp only [Option.some.injEq] at h
    obtain ⟨n, h1, h2, h3⟩ := htail _ h
    refine ⟨n, h1, h2, ?_⟩
    rw [← h3]
    exact (not_not.1 hne).symm

/-! ## The query and the estimator -/

/-- C16, as stated, fails: in the scenario with a failing lookup of the next
epoch the pairing is computed (providers 3 and 1), the time estimation fails,
and `GetPairing` returns the error of the estimation and no providers. -/
theorem getPairing_estimator_counterexample :
    GetPairingForClient noNextEpochKeeper "ETH1" scenarioClient = .ok [provider3, provider1] ∧
    calculateNextEpochTime exactFloat64 noNextEpochKeeper (initialCache exactFloat64) =
      some (.err (.nextEpochStart "no next epoch"), ⟨3 / 2, 20⟩) ∧
    GetPairing exactFloat64 noNextEpochKeeper (initialCache exactFloat64)
        (some ⟨"ETH1", "client1"⟩) =
      some (.err (.timeToNextPairing (.nextEpochStart "no next epoch")), ⟨3 / 2, 20⟩) := by
  decide!

/-- C16 (amended): if the request is well formed, the spec is found and active
and `GetPairingForClient` returns the providers, but `calculateNextEpochTime`
fails, then `GetPairing` returns that failure as its error (could not calculate
time to next pairing) and no response. -/
theorem getPairing_estimator_error {F : Type} [LinearOrder F] (fl : Float64Ops F) (k : Keeper)
    (cache cache1 : EpochTimeCache F) (req : QueryGetPairingRequest) (clientAddr : List Nat)
    (providers : List StakeEntry) (e : PairingError)
    (haddr : k.AccAddressFromBech32 req.Client = some clientAddr)
    (hspec : k.IsSpecFoundAndActive req.ChainID = true)
    (hpairing : GetPairingForClient k req.ChainID clientAddr = .ok providers)
    (htime : calculateNextEpochTime fl k cache = some (.err e, cache1)) :
    GetPairing fl k cache (some req) = some (.err (.timeToNextPairing e), cache1) := by
  simp [GetPairing, haddr, hspec, hpairing, htime]

/-- C16 (amended), in the scenario with a failing lookup of the next epoch. -/
theorem getPairing_estimator_error_witness :
    GetPairing exactFloat64 noNextEpochKeeper (initialCache exactFloat64)
        (some ⟨"ETH1", "client1"⟩) =
      some (.err (.timeToNextPairing (.nextEpochStart "no next epoch")), ⟨3 / 2, 20⟩) :=
  getPairing_estimator_error exactFloat64 noNextEpochKeeper (initialCache exactFloat64)
    ⟨3 / 2, 20⟩ ⟨"ETH1", "client1"⟩ scenarioClient [provider3, provider1]
    (.nextEpochStart "no next epoch") (by decide) (by decide) (by decide!) (by decide!)

/-- C17, at the failing input: blocks 1.5 seconds apart, current epoch start
and height 20, next epoch start 30, overlap 2. The average block time left in
the cache is 3/2 seconds, there are 12 blocks to go, and
`calculateNextEpochTime` returns 12 seconds, the blocks times the average cut
to whole seconds, while 12 blocks of 3/2 seconds are 18 seconds. -/
theorem nextEpochTime_truncates_average :
    calculateNextEpochTime exactFloat64 scenarioKeeper (initialCache exactFloat64) =
      some (.ok 12, ⟨3 / 2, 20⟩) ∧
    scenarioKeeper.GetNextEpoch scenarioKeeper.GetEpochStart = .ok 30 ∧
    scenarioKeeper.EpochBlocksOverlap = 2 ∧
    toUint64 scenarioKeeper.BlockHeight = 20 ∧
    ((30 : ℚ) + 2 - 20) * (3 / 2) = 18 :=
  ⟨by decide!, rfl, rfl, by decide, by decide!⟩

/-- C18: with `prev` and `curr` the previous and current epoch starts (`curr`
below `2 ^ 62`), the step is `max(1, (curr - prev) / 5)` and the start block is
`max(prev, 1)`; `calculateAverageBlockTime` ends, and when it ends without
error the value it leaves is at most the sample `(t[b] - t[b - step]) / step`
of every sampled block `b = start + j * step` (`j ≥ 1`, `b < curr`) and, when a
block is sampled, it is the sample of one of them: it is their minimum. So
timestamps at one-second increments give 1, and ten more seconds between two
samples leave 1. -/
theorem averageBlockTime_is_minimum {F : Type} [LinearOrder F] (fl : Float64Ops F)
    (k : Keeper) (averageBlockTime : F) (epoch prev : Nat)
    (hprev : k.GetPreviousEpochStartForBlock epoch = .ok prev)
    (hE : epoch < 4611686018427387904) :
    (prev ≤ epoch →
      sampleStepOf (epoch - prev) = ((max 1 ((epoch - prev) / 5) : Nat) : Int) ∧
      startBlockOf prev = ((max prev 1 : Nat) : Int)) ∧
    (∃ r, calculateAverageBlockTime fl k averageBlockTime epoch = some r) ∧
    (∀ avg, calculateAverageBlockTime fl k averageBlockTime epoch = some (none, avg) →
      (∀ j : Nat, 1 ≤ j →
        startBlockOf prev + j * sampleStepOf (epoch - prev) < epoch →
        avg ≤ sampleAt fl k (sampleStepOf (epoch - prev))
          (startBlockOf prev + j * sampleStepOf (epoch - prev))) ∧
      ((∃ j : Nat, 1 ≤ j ∧ startBlockOf prev + j * sampleStepOf (epoch - prev) < epoch) →
        ∃ j : Nat, 1 ≤ j ∧ startBlockOf prev + j * sampleStepOf (epoch - prev) < epoch ∧
          avg = sampleAt fl k (sampleStepOf (epoch - prev))
            (startBlockOf prev + j * sampleStepOf (epoch - prev)))) ∧
    calculateAverageBlockTime exactFloat64 oneSecondKeeper (-1) 100 = some (none, 1) ∧
    calculateAverageBlockTime exactFloat64 oneGapKeeper (-1) 100 = some (none, 1) := by
  refine ⟨?_, calculateAverageBlockTime_isSome fl k averageBlockTime epoch hE, ?_,
    by decide!, by decide!⟩
  · intro hle
    exact ⟨sampleStepOf_eq _ (by omega), startBlockOf_eq prev (by omega)⟩
  · intro avg h
    obtain ⟨hA, hC, _⟩ := calculateAverageBlockTime_spec fl k averageBlockTime avg epoch prev
      hprev hE h
    exact ⟨fun j hj hlt => (hA j hj hlt).1, fun hex => (hC hex).2⟩

/-! ## The estimator at concrete inputs -/

/-- C18, at scenario 6 of the specification: previous epoch start 0, current
epoch start 100, blocks one second apart. -/
theorem averageBlockTime_is_minimum_witness :
    (0 ≤ 100 →
      sampleStepOf (100 - 0) = ((max 1 ((100 - 0) / 5) : Nat) : Int) ∧
      startBlockOf 0 = ((max 0 1 : Nat) : Int)) ∧
    (∃ r, calculateAverageBlockTime exactFloat64 oneSecondKeeper (-1) 100 = some r) ∧
    (∀ avg, calculateAverageBlockTime exactFloat64 oneSecondKeeper (-1) 100 = some (none, avg) →
      (∀ j : Nat, 1 ≤ j →
        startBlockOf 0 + j * sampleStepOf (100 - 0) < (100 : Nat) →
        avg ≤ sampleAt exactFloat64 oneSecondKeeper (sampleStepOf (100 - 0))
          (startBlockOf 0 + j * sampleStepOf (100 - 0))) ∧
      ((∃ j : Nat, 1 ≤ j ∧ startBlockOf 0 + j * sampleStepOf (100 - 0) < (100 : Nat)) →
        ∃ j : Nat, 1 ≤ j ∧ startBlockOf 0 + j * sampleStepOf (100 - 0) < (100 : Nat) ∧
          avg = sampleAt exactFloat64 oneSecondKeeper (sampleStepOf (100 - 0))
            (startBlockOf 0 + j * sampleStepOf (100 - 0)))) ∧
    calculateAverageBlockTime exactFloat64 oneSecondKeeper (-1) 100 = some (none, 1) ∧
    calculateAverageBlockTime exactFloat64 oneGapKeeper (-1) 100 = some (none, 1) :=
  averageBlockTime_is_minimum exactFloat64 oneSecondKeeper (-1) 100 0 rfl (by decide)

/-- C19, at the failing input: cached average 3/2 seconds computed for the
epoch of block 10, current epoch start 20, and a block store that has block 10
but not block 12. The computation fails at the first sample and leaves 0 in
`averageBlockTime`: the cached pair is not what it was before the call. -/
theorem failed_average_changes_cache :
    calculateAverageBlockTime exactFloat64 prunedKeeper (3 / 2) 20 =
      some (some (.currentBlockHeader 12), 0) ∧
    calculateNextEpochTime exactFloat64 prunedKeeper ⟨3 / 2, 10⟩ =
      some (.err (.averageBlockTime (.currentBlockHeader 12)), ⟨0, 10⟩) ∧
    (⟨0, 10⟩ : EpochTimeCache ℚ) ≠ ⟨3 / 2, 10⟩ := by
  decide!

/-- C20, at the failing input: previous epoch start 10 and current epoch
start 11. The function accepts the pair, samples no block and returns without
error, and the average block time it leaves is 0. -/
theorem average_zero_without_sample :
    oneBlockEpochKeeper.GetPreviousEpochStartForBlock 11 = .ok 10 ∧
    calculateAverageBlockTime exactFloat64 oneBlockEpochKeeper (3 / 2) 11 = some (none, 0) ∧
    calculateNextEpochTime exactFloat64 oneBlockEpochKeeper ⟨3 / 2, 10⟩ =
      some (.ok 0, ⟨0, 11⟩) :=
  ⟨rfl, by decide!, by decide!⟩

/-- When at least one block is sampled, a successful
`calculateAverageBlockTime` leaves a strictly positive value. -/
theorem averageBlockTime_pos_of_sample {F : Type} [LinearOrder F] (fl : Float64Ops F)
    (k : Keeper) (averageBlockTime avg : F) (epoch prev : Nat)
    (hprev : k.GetPreviousEpochStartForBlock epoch = .ok prev)
    (hE : epoch < 4611686018427387904)
    (h : calculateAverageBlockTime fl k averageBlockTime epoch = some (none, avg))
    (hsample : ∃ j : Nat, 1 ≤ j ∧
      startBlockOf prev + j * sampleStepOf (epoch - prev) < epoch) :
    fl.ofInt64 0 < avg :=
  ((calculateAverageBlockTime_spec fl k averageBlockTime avg epoch prev hprev hE h).2.1
    hsample).1

/-- The error paths of `calculateNextEpochTime` leave
`latestEpochBlockTimeCalculation` as it was. -/
theorem calculateNextEpochTime_err_latest {F : Type} [LinearOrder F] (fl : Float64Ops F)
    (k : Keeper) (cache cache1 : EpochTimeCache F) (e : PairingError)
    (h : calculateNextEpochTime fl k cache = some (.err (.averageBlockTime e), cache1)) :
    cache1.latestEpochBlockTimeCalculation = cache.latestEpochBlockTimeCalculation := by
  unfold calculateNextEpochTime at h
  by_cases hne : k.GetEpochStart ≠ cache.latestEpochBlockTimeCalculation
  · rw [if_pos hne] at h
    cases hc : calculateAverageBlockTime fl k cache.averageBlockTime k.GetEpochStart with
    | none => simp [hc] at h
    | some r =>
      obtain ⟨e1, a⟩ := r
      cases e1 with
      | some e1 =>
        simp only [hc, Option.some.injEq, Prod.mk.injEq] at h
        rw [← h.2]
      | none =>
        simp only [hc, Option.some.injEq] at h
        unfold timeLeftToNextEpoch at h
        cases hn : k.GetNextEpoch k.GetEpochStart with
        | error e2 => simp [hn] at h
        | ok n => simp [hn] at h
  · rw [if_neg hne] at h
    simp only [Option.some.injEq] at h
    unfold timeLeftToNextEpoch at h
    cases hn : k.GetNextEpoch k.GetEpochStart with
    | error e2 => simp [hn] at h
    | ok n => simp [hn] at h

/-! ## Validation of the servicer parameters -/

/-- The five validators on a `uint64` value: the type assertion succeeds, so the
result is decided by the range check alone. -/
theorem validators_on_uint64 (v : Nat) :
    (validateMinStake (.uint64 v) = none ↔ v ≠ 0) ∧
    validateCoinsPerCU (.uint64 v) = none ∧
    (validateUnstakeHoldBlocks (.uint64 v) = none ↔ v ≤ 15000000) ∧
    (validateFraudStakeSlashingFactor (.uint64 v) = none ↔ v ≤ 1000000) ∧
    validateFraudSlashingAmount (.uint64 v) = none := by
  refine ⟨?_, rfl, ?_, ?_, rfl⟩
  · unfold validateMinStake
    by_cases h : v = 0 <;> simp [h]
  · unfold validateUnstakeHoldBlocks
    by_cases h : v > 15000000
    · simp only [h, if_true]
      constructor
      · intro h1; cases h1
      · intro h1; omega
    · simp only [h, if_false, true_iff]
      omega
  · unfold validateFraudStakeSlashingFactor
    by_cases h : v > 1000000
    · simp only [h, if_true]
      constructor
      · intro h1; cases h1
      · intro h1; omega
    · simp only [h, if_false, true_iff]
      omega

/-- `Params.Validate` returns the error of the first validator that fails, in
the order MinStake, UnstakeHoldBlocks, FraudStakeSlashingFactor. -/
theorem params_validate_eq (p : Params) :
    Params.Validate p =
      if p.MinStake = 0 then some (.invalidMinStake p.MinStake)
      else if p.UnstakeHoldBlocks > 15000000 then
        some (.invalidUnstakeHoldBlocks p.UnstakeHoldBlocks)
      else if p.FraudStakeSlashingFactor > 1000000 then
        some (.invalidFraudStakeSlashingFactor p.FraudStakeSlashingFactor)
      else none := by
  unfold Params.Validate validateMinStake validateCoinsPerCU validateUnstakeHoldBlocks
    validateFraudStakeSlashingFactor validateFraudSlashingAmount
  by_cases h1 : p.MinStake = 0
  · simp [h1]
  · by_cases h2 : p.UnstakeHoldBlocks > 15000000
    · simp [h1, h2]
    · by_cases h3 : p.FraudStakeSlashingFactor > 1000000
      · simp [h1, h2, h3]
      · simp [h1, h2, h3]

/-- C21: for all five parameter values, `Params.Validate` returns no error if
and only if MinStake is not zero, UnstakeHoldBlocks is at most 15000000 and
FraudStakeSlashingFactor is at most 1000000; the result does not depend on
CoinsPerCU and FraudSlashingAmount; and `DefaultParams()` passes. The values
range over all natural numbers, the unsigned 64-bit ones among them. -/
theorem params_validate_iff (minStake coinsPerCU unstakeHoldBlocks fraudStakeSlashingFactor
    fraudSlashingAmount : Nat) :
    (Params.Validate (NewParams minStake coinsPerCU unstakeHoldBlocks fraudStakeSlashingFactor
        fraudSlashingAmount) = none ↔
      0 < minStake ∧ unstakeHoldBlocks ≤ 15000000 ∧ fraudStakeSlashingFactor ≤ 1000000) ∧
    (∀ otherCoinsPerCU otherFraudSlashingAmount : Nat,
      Params.Validate (NewParams minStake otherCoinsPerCU unstakeHoldBlocks
          fraudStakeSlashingFactor otherFraudSlashingAmount) =
        Params.Validate (NewParams minStake coinsPerCU unstakeHoldBlocks
          fraudStakeSlashingFactor fraudSlashingAmount)) ∧
    Params.Validate DefaultParams = none := by
  refine ⟨?_, ?_, by decide⟩
  · rw [params_validate_eq]
    simp only [NewParams]
    by_cases h1 : minStake = 0
    · simp [h1]
    · by_cases h2 : unstakeHoldBlocks > 15000000
      · simp only [h1, h2, if_true, if_false]
        constructor
        · intro h; cases h
        · intro h; omega
      · by_cases h3 : fraudStakeSlashingFactor > 1000000
        · simp only [h1, h2, h3, if_true, if_false]
          constructor
          · intro h; cases h
          · intro h; omega
        · simp only [h1, h2, h3, if_false, true_iff]
          omega
  · intro c f
    rw [params_validate_eq, params_validate_eq]
    simp only [NewParams]

/-- C21, at the largest accepted values, at the first rejected value of each
constrained parameter, and at the largest 64-bit values of the two
unconstrained ones. -/
theorem params_validate_iff_examples :
    Params.Validate (NewParams 1 0 15000000 1000000 0) = none ∧
    Params.Validate (NewParams 1 18446744073709551615 0 0 18446744073709551615) = none ∧
    Params.Validate (NewParams 0 10000 10 500000 0) = some (.invalidMinStake 0) ∧
    Params.Validate (NewParams 1000 10000 15000001 500000 0) =
      some (.invalidUnstakeHoldBlocks 15000001) ∧
    Params.Validate (NewParams 1000 10000 10 1000001 0) =
      some (.invalidFraudStakeSlashingFactor 1000001) := by
  decide

/-! ## Zero stakes and large counts in the selection -/

/-- An entry of the output sits at one of the selected positions. -/
theorem position_of_mem (pm out : List StakeEntry) (idxs : List Nat)
    (hmap : out.map some = idxs.map (fun i => pm[i]?)) :
    ∀ e ∈ out, ∃ i ∈ idxs, pm[i]? = some e := by
  intro e he
  have hmem : some e ∈ out.map some := List.mem_map_of_mem _ he
  rw [hmap] at hmem
  obtain ⟨i, hi, hpm⟩ := List.mem_map.1 hmem
  exact ⟨i, hi, hpm⟩

/-- With `count` from `2 ^ 63` to `2 ^ 64 - 1` the loop bound `int(count)` is
negative. -/
theorem toInt64_toNat_large (count : Nat) (h1 : 9223372036854775808 ≤ count)
    (h2 : count < 18446744073709551616) : (toInt64 count).toNat = 0 := by
  unfold toInt64
  have h3 : count % 18446744073709551616 = count := Nat.mod_eq_of_lt h2
  have h4 : ¬ count < 9223372036854775808 := by omega
  simp only [h3, h4, if_false]
  omega

/-- With `count` from `2 ^ 63` to `2 ^ 64 - 1` the outer loop runs no iteration:
on non-negative stakes of the module's denomination that sum to less than
`2 ^ maxBitLen`, with the epoch-start block available, the selection returns
the empty list. -/
theorem returnSubset_large_count (k : Keeper) (clientAddress : List Nat) (pm : List StakeEntry)
    (count block : Nat) (chainID : String) (hnn : NonNegStakes k pm) (hfits : SumFits pm)
    (hb : k.coreBlock (toInt64 block) ≠ none) (h1 : 9223372036854775808 ≤ count)
    (h2 : count < 18446744073709551616) :
    returnSubsetOfProvidersByStake k clientAddress pm count block chainID = some [] := by
  have hsum := sumStakes_of_denom pm ⟨k.TokenDenom, 0⟩ hnn (le_refl _)
    (by simpa [SumFits] using hfits)
  obtain ⟨hash, hhash⟩ := Option.ne_none_iff_exists'.1 hb
  unfold returnSubsetOfProvidersByStake
  rw [hsum]
  simp only [hhash, toInt64_toNat_large count h1 h2]
  split
  · rfl
  · rfl

/-- C22 fails at `count = 2 ^ 63`: the loop bound `int(count)` is negative, no
iteration runs, and the selection over three candidates of stakes 100, 200 and
700 returns no entry, while `min(count, number of candidates with a strictly
positive stake)` is three. With `count = 2 ^ 63 - 1` the same call returns the
three candidates. -/
theorem selection_empty_at_large_count :
    (∀ e ∈ scenarioProviders, e.Stake.Denom = scenarioKeeper.TokenDenom ∧ 0 ≤ e.Stake.Amount) ∧
    returnSubsetOfProvidersByStake scenarioKeeper scenarioClient scenarioProviders
        9223372036854775808 20 "ETH1" = some [] ∧
    min 9223372036854775808 (positiveCount scenarioProviders) = 3 ∧
    ([] : List StakeEntry).length ≠ min 9223372036854775808 (positiveCount scenarioProviders) ∧
    toInt64 9223372036854775808 = -9223372036854775808 ∧
    returnSubsetOfProvidersByStake scenarioKeeper scenarioClient scenarioProviders
        9223372036854775807 20 "ETH1" = some [provider3, provider1, provider2] := by
  decide!

/-- Where the claim of C22 holds: for every candidate list whose stakes are of
the module's denomination, not negative, and sum to less than `2 ^ maxBitLen`,
with the epoch-start block available and `count` below `2 ^ 63`,
`returnSubsetOfProvidersByStake` returns exactly
`min(count, number of candidates with a strictly positive stake)` entries, taken
at pairwise different positions of the list, and a candidate with zero stake is
never selected: every selected position, and every returned entry, has a
strictly positive stake. -/
theorem returnSubset_positive_only (k : Keeper) (clientAddress : List Nat)
    (providersMaps : List StakeEntry) (count block : Nat) (chainID : String)
    (hnn : NonNegStakes k providersMaps) (hfits : SumFits providersMaps)
    (hb : k.coreBlock (toInt64 block) ≠ none) (hc : count < 9223372036854775808) :
    ∃ (out : List StakeEntry) (idxs : List Nat),
      returnSubsetOfProvidersByStake k clientAddress providersMaps count block chainID =
        some out ∧
      idxs.Nodup ∧ out.map some = idxs.map (fun i => providersMaps[i]?) ∧
      out.length = min count (positiveCount providersMaps) ∧
      (∀ i, stakeAt providersMaps i = 0 → i ∉ idxs) ∧
      (∀ e ∈ out, 0 < e.Stake.Amount) := by
  obtain ⟨out, idxs, h1, h2, h3, h4, h5⟩ := returnSubset_total k clientAddress providersMaps
    count block chainID hnn hfits hb hc
  refine ⟨out, idxs, h1, h2, h3, h5, ?_, ?_⟩
  · intro i hi hmem
    have := h4 i hmem
    omega
  · intro e he
    obtain ⟨i, hi, hpm⟩ := position_of_mem providersMaps out idxs h3 e he
    have := h4 i hi
    rw [stakeAt_of_get providersMaps i e hpm] at this
    exact this

/-- At a list of four candidates whose last has stake zero, with `count = 5`:
three entries come back, and position 3 is not selected. -/
theorem returnSubset_positive_only_example :
    NonNegStakes scenarioKeeper [provider1, provider2, provider3, provider4] ∧
    positiveCount [provider1, provider2, provider3, provider4] = 3 ∧
    stakeAt [provider1, provider2, provider3, provider4] 3 = 0 ∧
    ∃ (out : List StakeEntry) (idxs : List Nat),
      returnSubsetOfProvidersByStake scenarioKeeper scenarioClient
        [provider1, provider2, provider3, provider4] 5 20 "ETH1" = some out ∧
      idxs.Nodup ∧
      out.map some = idxs.map (fun i => [provider1, provider2, provider3, provider4][i]?) ∧
      out.length = min 5 (positiveCount [provider1, provider2, provider3, provider4]) ∧
      (∀ i, stakeAt [provider1, provider2, provider3, provider4] i = 0 → i ∉ idxs) ∧
      (∀ e ∈ out, 0 < e.Stake.Amount) :=
  ⟨by unfold NonNegStakes; decide, by decide, by decide,
    returnSubset_positive_only scenarioKeeper scenarioClient
      [provider1, provider2, provider3, provider4] 5 20 "ETH1"
      (by unfold NonNegStakes; decide) (by unfold SumFits; decide) (by decide) (by decide)⟩

/-! ## Past-pairing validation and the current height -/

/-- The filter of `calculatePairingForClient` gives the same list at two
heights when no deadline of the snapshot separates them. -/
theorem validProvidersLoop_congr (b1 b2 geolocation : Nat) :
    ∀ (providers validProviders : List StakeEntry),
      (∀ e ∈ providers, (e.Deadline > b1 ↔ e.Deadline > b2)) →
      validProvidersLoop b1 geolocation providers validProviders =
        validProvidersLoop b2 geolocation providers validProviders := by
  intro providers
  induction providers with
  | nil => intro validProviders _; rfl
  | cons e rest ih =>
    intro validProviders h
    have he := h e (List.mem_cons_self _ _)
    have hrest : ∀ x ∈ rest, (x.Deadline > b1 ↔ x.Deadline > b2) :=
      fun x hx => h x (List.mem_cons_of_mem _ hx)
    unfold validProvidersLoop
    by_cases h1 : e.Deadline > b1
    · rw [if_pos h1, if_pos (he.1 h1)]
      exact ih validProviders hrest
    · rw [if_neg h1, if_neg (fun h2 => h1 (he.2 h2))]
      by_cases hg : e.Geolocation &&& geolocation = 0
      · rw [if_pos hg, if_pos hg]
        exact ih validProviders hrest
      · rw [if_neg hg, if_neg hg]
        exact ih _ hrest

/-- The outer loop of the selection does not read the current height, the
current epoch start or the earliest saved epoch. -/
theorem forLoop_height (k : Keeper) (height : Int) (current earliest : Nat)
    (pm : List StakeEntry) (count : Nat) :
    ∀ (fuel it : Nat) (st : LoopState),
      forLoop (k.atHeight height current earliest) pm count fuel it st =
        forLoop k pm count fuel it st := by
  intro fuel
  induction fuel with
  | zero => intro it st; rfl
  | succ n ih =>
    intro it st
    have hit : iteration (k.atHeight height current earliest) pm count it st =
        iteration k pm count it st := rfl
    unfold forLoop
    rw [hit]
    cases iteration k pm count it st with
    | panic => rfl
    | done r => rfl
    | next st1 => exact ih (it + 1) st1

/-- The selection does not read the current height. -/
theorem returnSubset_height (k : Keeper) (height : Int) (current earliest : Nat)
    (clientAddress : List Nat) (pm : List StakeEntry) (count block : Nat) (chainID : String) :
    returnSubsetOfProvidersByStake (k.atHeight height current earliest) clientAddress pm count
        block chainID =
      returnSubsetOfProvidersByStake k clientAddress pm count block chainID := by
  unfold returnSubsetOfProvidersByStake
  simp only [forLoop_height]
  rfl

/-- The decoding of the selected addresses does not read the current height. -/
theorem addrListLoop_height (k : Keeper) (height : Int) (current earliest : Nat) :
    ∀ (l : List StakeEntry) (addrList : List (List Nat)),
      addrListLoop (k.atHeight height current earliest) l addrList =
        addrListLoop k l addrList := by
  intro l
  induction l with
  | nil => intro addrList; rfl
  | cons e rest ih =>
    intro addrList
    unfold addrListLoop
    simp only [ih]
    rfl

/-- The scan of the client snapshot does not read the current height. -/
theorem findClientStakeEntry_height (k : Keeper) (height : Int) (current earliest : Nat)
    (chainID : String) (clientAddress : List Nat) (block : Nat) :
    ∀ l : List StakeEntry,
      findClientStakeEntry (k.atHeight height current earliest) chainID clientAddress block l =
        findClientStakeEntry k chainID clientAddress block l := by
  intro l
  induction l with
  | nil => rfl
  | cons e rest ih =>
    unfold findClientStakeEntry
    simp only [ih]
    rfl

/-- What a successful `VerifyPairingData` has read: the epoch start of the
block and the client snapshot of that epoch, in which the scan found the
entry. -/
theorem verifyPairingData_ok_scan (k : Keeper) (chainID : String) (clientAddress : List Nat)
    (block : Nat) (userStake : StakeEntry)
    (h : VerifyPairingData k chainID clientAddress block = .ok userStake) :
    ∃ req entries, k.GetEpochStartForBlock block = .ok req ∧
      k.GetEpochStakeEntries req .ClientKey chainID = some entries ∧
      findClientStakeEntry k chainID clientAddress block entries = .ok userStake := by
  unfold VerifyPairingData at h
  by_cases h1 : k.IsSpecFoundAndActive chainID
  · by_cases h2 : block < k.GetEarliestEpochStart
    · simp [h1, h2] at h
    · simp only [h1, h2, Bool.not_true, Bool.false_eq_true, if_false] at h
      cases h3 : k.GetEpochStartForBlock block with
      | error e => simp [h3] at h
      | ok req =>
        simp only [h3] at h
        by_cases h4 : req > k.GetEpochStart
        · simp [h4] at h
        · simp only [h4, if_false] at h
          cases h5 : k.BlocksToSave (toUint64 k.BlockHeight) with
          | error e => simp [h5] at h
          | ok bts =>
            simp only [h5] at h
            by_cases h6 : (req + bts) % 18446744073709551616 < k.GetEpochStart
            · simp [h6] at h
            · simp only [h6, if_false] at h
              cases h7 : k.GetEpochStakeEntries req .ClientKey chainID with
              | none => simp [h7] at h
              | some entries =>
                simp only [h7] at h
                exact ⟨req, entries, rfl, h7, h⟩
  · simp [h1] at h

/-- Two successful runs of `VerifyPairingData` at different heights return the
same client entry. -/
theorem verifyPairingData_height (k : Keeper) (height : Int) (current earliest : Nat)
    (chainID : String) (clientAddress : List Nat) (block : Nat) (userStake userStake2 : StakeEntry)
    (hv1 : VerifyPairingData k chainID clientAddress block = .ok userStake)
    (hv2 : VerifyPairingData (k.atHeight height current earliest) chainID clientAddress block =
      .ok userStake2) :
    userStake2 = userStake := by
  obtain ⟨req, entries, a1, a2, a3⟩ := verifyPairingData_ok_scan k chainID clientAddress block
    userStake hv1
  obtain ⟨req2, entries2, b1, b2, b3⟩ := verifyPairingData_ok_scan _ chainID clientAddress block
    userStake2 hv2
  have b1k : k.GetEpochStartForBlock block = .ok req2 := b1
  rw [a1] at b1k
  have hreq : req = req2 := by
    cases b1k
    rfl
  subst hreq
  have b2k : k.GetEpochStakeEntries req .ClientKey chainID = some entries2 := b2
  rw [a2] at b2k
  have hent : entries = entries2 := by
    cases b2k
    rfl
  subst hent
  rw [findClientStakeEntry_height, a3] at b3
  cases b3
  rfl

/-- `calculatePairingForClient` gives the same result at two heights, both at
or after the epoch start, when no deadline of the provider list separates
them. -/
theorem calculatePairing_height (k : Keeper) (height : Int) (current earliest : Nat)
    (providers : List StakeEntry) (clientAddress : List Nat) (epochStartBlock : Nat)
    (chainID : String) (geolocation : Nat)
    (h1 : epochStartBlock ≤ toUint64 k.BlockHeight) (h2 : epochStartBlock ≤ toUint64 height)
    (hd : ∀ e ∈ providers, (e.Deadline > toUint64 height ↔ e.Deadline > toUint64 k.BlockHeight)) :
    calculatePairingForClient (k.atHeight height current earliest) providers clientAddress
        epochStartBlock chainID geolocation =
      calculatePairingForClient k providers clientAddress epochStartBlock chainID geolocation := by
  have hw : ∀ s, withAddrList (k.atHeight height current earliest) s = withAddrList k s := by
    intro s
    unfold withAddrList
    simp only [addrListLoop_height]
  have hh : (k.atHeight height current earliest).BlockHeight = height := rfl
  have hc : (k.atHeight height current earliest).ServicersToPairCount = k.ServicersToPairCount :=
    rfl
  unfold calculatePairingForClient
  simp only [returnSubset_height, hw, hh, hc,
    validProvidersLoop_congr (toUint64 height) (toUint64 k.BlockHeight) geolocation providers [] hd]
  rw [if_neg (by omega), if_neg (by omega)]

/-- The two chain states of the comparison differ in the current height only:
`nextBlockKeeper` is `scenarioKeeper` at height 21. Both heights lie in the
epoch that starts at block 20 and ends before block 30, the retention read at
both heights is 100 blocks, and the provider snapshot holds an entry whose
deadline is 21. -/
theorem nextBlockKeeper_same_state :
    nextBlockKeeper = { scenarioKeeper with BlockHeight := 21 } ∧
    nextBlockKeeper = scenarioKeeper.atHeight 21 20 0 ∧
    scenarioKeeper.BlockHeight = 20 ∧
    scenarioKeeper.GetEpochStart = 20 ∧ nextBlockKeeper.GetEpochStart = 20 ∧
    scenarioKeeper.GetEpochStartForBlock 20 = .ok 20 ∧
    scenarioKeeper.GetEpochStartForBlock 21 = .ok 20 ∧
    scenarioKeeper.GetNextEpoch 20 = .ok 30 ∧
    scenarioKeeper.BlocksToSave 20 = .ok 100 ∧ scenarioKeeper.BlocksToSave 21 = .ok 100 ∧
    (∃ providers, scenarioKeeper.GetEpochStakeEntries 20 .ProviderKey "ETH1" = some providers ∧
      providerLate ∈ providers ∧ providerLate.Deadline = 21) := by
  refine ⟨rfl, rfl, rfl, rfl, rfl, rfl, rfl, rfl, rfl, rfl, ?_⟩
  exact ⟨_, rfl, by decide, rfl⟩

/-- C23, as stated, fails: `calculatePairingForClient` keeps the providers
whose deadline is at most the current height
(`stakeEntry.Deadline > uint64(ctx.BlockHeight())` is passed over), so the
candidates depend on the height at which the validation runs. For the same
epoch snapshot, parameters and block hashes, the validation of block 20 (epoch
start 20, next epoch at 30) run at height 20 rejects the provider whose
deadline is 21, and run at height 21 accepts it at index 0; the index of
`provider3` moves from 0 to 1; the client is verified in both runs. -/
theorem validation_depends_on_height :
    VerifyPairingData scenarioKeeper "ETH1" scenarioClient 20 = .ok scenarioClientEntry ∧
    VerifyPairingData nextBlockKeeper "ETH1" scenarioClient 20 = .ok scenarioClientEntry ∧
    ValidatePairingForClient scenarioKeeper "ETH1" scenarioClient (stringBytes "providerLate") 20 =
      some ⟨false, some scenarioClientEntry, INVALID_INDEX, none⟩ ∧
    ValidatePairingForClient nextBlockKeeper "ETH1" scenarioClient (stringBytes "providerLate") 20 =
      some ⟨true, some scenarioClientEntry, 0, none⟩ ∧
    ValidatePairingForClient scenarioKeeper "ETH1" scenarioClient (stringBytes "provider3") 20 =
      some ⟨true, some scenarioClientEntry, 0, none⟩ ∧
    ValidatePairingForClient nextBlockKeeper "ETH1" scenarioClient (stringBytes "provider3") 20 =
      some ⟨true, some scenarioClientEntry, 1, none⟩ := by
  decide!

/-- C23 (amended): for fixed epoch snapshots, parameters and block hashes, two
runs of `ValidatePairingForClient` for the same chain ID, client, provider and
block, at two current heights that are both at or after the epoch start of the
block and at both of which `VerifyPairingData` accepts the client (so both
within retention), return the same result (verdict, client entry, index and
error), provided no provider of the epoch's snapshot has a deadline above one
of the two heights and not above the other. The second run reads the chain
state of the first at another height, with its own current epoch start and
earliest saved epoch. -/
theorem validatePairing_height (k : Keeper) (height : Int)
    (currentEpochStart earliestEpochStart : Nat) (chainID : String)
    (clientAddress providerAddress : List Nat) (block epochStart : Nat)
    (userStake userStake2 : StakeEntry)
    (he : k.GetEpochStartForBlock block = .ok epochStart)
    (hv1 : VerifyPairingData k chainID clientAddress epochStart = .ok userStake)
    (hv2 : VerifyPairingData (k.atHeight height currentEpochStart earliestEpochStart) chainID
      clientAddress epochStart = .ok userStake2)
    (h1 : epochStart ≤ toUint64 k.BlockHeight) (h2 : epochStart ≤ toUint64 height)
    (hd : ∀ providers, k.GetEpochStakeEntries epochStart .ProviderKey chainID = some providers →
      ∀ e ∈ providers, (e.Deadline > toUint64 height ↔ e.Deadline > toUint64 k.BlockHeight)) :
    ValidatePairingForClient (k.atHeight height currentEpochStart earliestEpochStart) chainID
        clientAddress providerAddress block =
      ValidatePairingForClient k chainID clientAddress providerAddress block := by
  have hu := verifyPairingData_height k height currentEpochStart earliestEpochStart chainID
    clientAddress epochStart userStake userStake2 hv1 hv2
  subst hu
  have he2 : (k.atHeight height currentEpochStart earliestEpochStart).GetEpochStartForBlock
      block = .ok epochStart := he
  have hg : (k.atHeight height currentEpochStart earliestEpochStart).GetEpochStakeEntries =
      k.GetEpochStakeEntries := rfl
  unfold ValidatePairingForClient
  simp only [he, he2, hv1, hv2, hg]
  cases hp : k.GetEpochStakeEntries epochStart .ProviderKey chainID with
  | none => rfl
  | some providers =>
    simp only
    rw [calculatePairing_height k height currentEpochStart earliestEpochStart providers
      clientAddress epochStart chainID userStake2.Geolocation h1 h2 (hd providers hp)]

/-- C23 (amended), in the scenario: the validation of block 20 for `provider3`
run at height 21, in the epoch that starts at block 20, and at height 35, in
the epoch that starts at block 30, gives the same result; the one deadline of
the snapshot that is not zero, 21, is above neither height. -/
theorem validatePairing_height_witness :
    ValidatePairingForClient (nextBlockKeeper.atHeight 35 30 0) "ETH1" scenarioClient
        (stringBytes "provider3") 20 =
      ValidatePairingForClient nextBlockKeeper "ETH1" scenarioClient (stringBytes "provider3")
        20 :=
  validatePairing_height nextBlockKeeper 35 30 0 "ETH1" scenarioClient (stringBytes "provider3")
    20 20 scenarioClientEntry scenarioClientEntry rfl (by decide) (by decide) (by decide)
    (by decide)
    (by
      intro providers h
      have : providers = [provider1, providerLate, provider2, providerFar, provider3] := by
        simpa [nextBlockKeeper, scenarioKeeper] using h.symm
      subst this
      decide)

end Lava
